import Mathlib

/-!
# Kaleidoscope lexer and parser (`kaleidoscope.cpp`)

A shallow embedding of the lexer (`gettok`), the recursive-descent parser with
precedence climbing (`ParsePrimary`, `ParseBinOpRHS`, `ParseExpression`, ...)
and the driver (`MainLoop`) of `kaleidoscope.cpp`.

Conventions of the embedding.

* The global variables of the program (`LastChar`, `IdentifierStr`, `NumVal`,
  `Curtok`, `BinopPrecedence`, and the text written to `stderr`) are the fields
  of an explicit state which every function takes and returns.
* `char` is the signed 8-bit type of the x86 ABIs: a value of type `int` stored
  into a `char` is wrapped into `-128 .. 127` (`toChar`), and a `char` read as an
  `int` keeps its sign.  `EOF` is `-1`.
* Standard input is a finite list of bytes; `getchar` returns the next byte, or
  `EOF` for ever once the list is empty.
* `double` and `strtod` are not interpreted: the type `Val` of numeric values
  and the conversion `strtod : List Int → Val` are parameters.
* Character classification (`isspace`, `isalpha`, `isalnum`) is that of the
  "C" locale, and is false outside `0 .. 127`.
* A null pointer result is `none`.  Functions whose recursion is not structural
  take a fuel argument bounding the depth of calls, and `none` at the outer
  level means that the fuel ran out.
-/

namespace Kaleidoscope

/-! ## Tokens and characters -/

/-- Token code of `enum Token`: end of file. -/
def tok_eof : Int := -1
/-- Token code of `enum Token`: the keyword `def`. -/
def tok_def : Int := -2
/-- Token code of `enum Token`: the keyword `extern`. -/
def tok_extern : Int := -3
/-- Token code of `enum Token`: an identifier. -/
def tok_identifier : Int := -4
/-- Token code of `enum Token`: a numeric literal. -/
def tok_number : Int := -5

/-- The value `EOF` of `<cstdio>`. -/
def EOF : Int := -1

/-- Conversion of an `int` to the signed 8-bit `char`. -/
def toChar (c : Int) : Int := (c + 128) % 256 - 128

/-- The code of a character literal, as a `char`. -/
def ch (c : Char) : Int := toChar (Int.ofNat c.toNat)

/-- The characters of a string literal, as `char`s. -/
def str (s : String) : List Int := s.toList.map ch

/-- The bytes of an ASCII text, as delivered by `getchar`. -/
def bytes (s : String) : List Nat := s.toList.map Char.toNat

/-- The function `std::isspace` in the "C" locale: space, `\t`, `\n`, `\v`, `\f`, `\r`. -/
def isspace (c : Int) : Bool := c == 32 || (9 ≤ c && c ≤ 13)

/-- The function `std::isdigit`. -/
def isdigit (c : Int) : Bool := 48 ≤ c && c ≤ 57

/-- The function `std::isalpha` in the "C" locale. -/
def isalpha (c : Int) : Bool := (65 ≤ c && c ≤ 90) || (97 ≤ c && c ≤ 122)

/-- The function `std::isalnum` in the "C" locale. -/
def isalnum (c : Int) : Bool := isalpha c || isdigit c

/-- The function `isascii`: no bit above the low seven is set. -/
def isascii (c : Int) : Bool := 0 ≤ c && c ≤ 127

/-! ## Lexer -/

/-- The lexer's variables: the unread part of standard input, `LastChar`,
`IdentifierStr` and `NumVal`. -/
@[ext]
structure Lexer (Val : Type) where
  input : List Nat
  LastChar : Int
  IdentifierStr : List Int
  NumVal : Val

/-- The value `getchar()` stores into `LastChar` when the next byte is `b`. -/
def byteChar (b : Nat) : Int := toChar (Int.ofNat (b % 256))

/-- The loop `while (isspace(LastChar)) LastChar = getchar();` on `LastChar` and the
unread input; returns the new `LastChar` and the input left. -/
def skipSpace : Int → List Nat → Int × List Nat
  | c, [] => if isspace c then (toChar EOF, []) else (c, [])
  | c, b :: rest => if isspace c then skipSpace (byteChar b) rest else (c, b :: rest)

/-- The loop `while (isalnum(LastChar = getchar())) IdentifierStr += LastChar;`;
returns `IdentifierStr`, `LastChar` and the input left. -/
def identLoop : List Int → List Nat → List Int × Int × List Nat
  | acc, [] => (acc, toChar EOF, [])
  | acc, b :: rest =>
    if isalnum (byteChar b) then identLoop (acc ++ [byteChar b]) rest
    else (acc, byteChar b, rest)

/-- The loop `while (isalnum(LastChar) || LastChar == '.') { NumStr += LastChar;
LastChar = getchar(); }`; returns `NumStr`, `LastChar` and the input left. -/
def numLoop : List Int → Int → List Nat → List Int × Int × List Nat
  | acc, c, [] =>
    if isalnum c || c == ch '.' then (acc ++ [c], toChar EOF, []) else (acc, c, [])
  | acc, c, b :: rest =>
    if isalnum c || c == ch '.' then numLoop (acc ++ [c]) (byteChar b) rest
    else (acc, c, b :: rest)

/-- The loop `while (LastChar != EOF && LastChar != '\n') LastChar = getchar();`. -/
def commentLoop : Int → List Nat → Int × List Nat
  | c, [] => if c != EOF && c != ch '\n' then (toChar EOF, []) else (c, [])
  | c, b :: rest =>
    if c != EOF && c != ch '\n' then commentLoop (byteChar b) rest else (c, b :: rest)

/-- The statement `LastChar = getchar();`. -/
def readChar {Val : Type} (l : Lexer Val) : Lexer Val :=
  match l.input with
  | [] => { l with LastChar := toChar EOF }
  | b :: rest => { l with LastChar := byteChar b, input := rest }

/-- The body of `gettok`; the fuel bounds the recursive calls made after a comment.
Returns the token and the new lexer state. -/
def gettokAux {Val : Type} (strtod : List Int → Val) : Nat → Lexer Val → Int × Lexer Val
  | fuel, l =>
    let (c, inp) := skipSpace l.LastChar l.input
    if isalpha c then
      let (id, c', inp') := identLoop [c] inp
      let l' : Lexer Val := { l with input := inp', LastChar := c', IdentifierStr := id }
      if id = str "def" then (tok_def, l')
      else if id = str "extern" then ( tok_extern, l')
      else (tok_identifier, l')
    else if isalnum c || c == ch '.' then
      let (NumStr, c', inp') := numLoop [] c inp
      (tok_number, { l with input := inp', LastChar := c', NumVal := strtod NumStr })
    else if c == ch '#' then
      let (c', inp') := commentLoop c inp
      let l' : Lexer Val := { l with input := inp', LastChar := c' }
      if c' != EOF then
        match fuel with
        | 0 => (tok_eof, l')
        | fuel' + 1 => gettokAux strtod fuel' l'
      else (tok_eof, l')
    else if c == EOF then (tok_eof, { l with input := inp, LastChar := c })
    else (c, readChar { l with input := inp, LastChar := c })

/-- The function `gettok`.  Every recursive call is made after at least one byte
has been read, so the number of unread bytes is fuel enough: the theorem `gettok_eq` below
is the function as the source writes it, recursive call included. -/
def gettok {Val : Type} (strtod : List Int → Val) (l : Lexer Val) : Int × Lexer Val :=
  gettokAux strtod l.input.length l

/-! ## Abstract syntax -/

/-- The class `ExprAST` and its subclasses `NumberExprAST`, `VariableExprAST`,
`BinaryExprAST`, `CallExprAST`. -/
inductive ExprAST (Val : Type) where
  | Number (Val : Val)
  | Variable (Name : List Int)
  | Binary (Op : Int) (LHS RHS : ExprAST Val)
  | Call (Callee : List Int) (Args : List (ExprAST Val))

/-- The class `PrototypeAST`. -/
structure PrototypeAST where
  Name : List Int
  Args : List (List Int)
deriving DecidableEq

/-- The class `FunctionAST`. -/
structure FunctionAST (Val : Type) where
  Proto : PrototypeAST
  Body : ExprAST Val

/-! ## Parser state -/

/-- The type `std::map<char, int>` as a list of key/value pairs sorted by key. -/
abbrev PrecMap := List (Int × Int)

/-- Insertion of a new key into the sorted list; a key already present is kept. -/
def PrecMap.insertNew (k v : Int) : PrecMap → PrecMap
  | [] => [(k, v)]
  | (k', v') :: m =>
    if k < k' then (k, v) :: (k', v') :: m
    else if k = k' then (k', v') :: m
    else (k', v') :: PrecMap.insertNew k v m

/-- The expression `m[k]` as an rvalue: the value stored for `k`, default-inserting `0` when the key is
absent.  Returns the value and the map after the access. -/
def PrecMap.index (m : PrecMap) (k : Int) : Int × PrecMap :=
  match m.lookup k with
  | some v => (v, m)
  | none => (0, PrecMap.insertNew k 0 m)

/-- The assignment `m[k] = v`. -/
def PrecMap.assign (m : PrecMap) (k v : Int) : PrecMap :=
  match m.lookup k with
  | some _ => m.map (fun p => if p.1 = k then (k, v) else p)
  | none => PrecMap.insertNew k v m

/-- All the variables of the program: the lexer's, `Curtok`, `BinopPrecedence`, and the
lines written to `stderr` so far. -/
@[ext]
structure State (Val : Type) where
  lex : Lexer Val
  Curtok : Int
  BinopPrecedence : PrecMap
  stderr : List String

section Parser

variable {Val : Type} (strtod : List Int → Val)

/-- The function `getNextToken`: `Curtok = gettok()`. -/
def getNextToken (s : State Val) : State Val :=
  let (t, l) := gettok strtod s.lex
  { s with lex := l, Curtok := t }

/-- The call `fprintf(stderr, ...)`. -/
def eprint (msg : String) (s : State Val) : State Val :=
  { s with stderr := s.stderr ++ [msg] }

/-- The functions `Error`, `Errorp`, `Errorf`: print the message and return null. -/
def Error {α : Type} (Str : String) (s : State Val) : Option α × State Val :=
  (none, eprint ("Error: " ++ Str ++ "\n") s)

/-- The function `ParseNumberExpr`. -/
def ParseNumberExpr (s : State Val) : Option (ExprAST Val) × State Val :=
  let result := ExprAST.Number s.lex.NumVal
  (some result, getNextToken strtod s)

/-- The function `getTokPrecedence`; the lookup may insert the key into the table. -/
def getTokPrecedence (s : State Val) : Int × State Val :=
  if !isascii s.Curtok then (-1, s)
  else
    let (TokPrec, m) := s.BinopPrecedence.index (toChar s.Curtok)
    let s' := { s with BinopPrecedence := m }
    if TokPrec ≤ 0 then (-1, s') else (TokPrec, s')

mutual

/-- The function `ParseParenExpr`. -/
def ParseParenExpr : Nat → State Val → Option (Option (ExprAST Val) × State Val)
  | 0, _ => none
  | fuel + 1, s =>
    let s := getNextToken strtod s
    match ParseExpression fuel s with
    | none => none
    | some (none, s) => some (none, s)
    | some (some V, s) =>
      if s.Curtok ≠ ch ')' then some (Error " expected ')' " s)
      else some (some V, getNextToken strtod s)

/-- The loop `while (1) { ... }` of `ParseIdentifierExpr` that collects the arguments of a
call; it is left by `break` with the arguments, or by `return 0`. -/
def ParseIdentifierExpr.args :
    Nat → List (ExprAST Val) → State Val → Option (Option (List (ExprAST Val)) × State Val)
  | 0, _, _ => none
  | fuel + 1, Args, s =>
    match ParseExpression fuel s with
    | none => none
    | some (none, s) => some (none, s)
    | some (some Arg, s) =>
      let Args := Args ++ [Arg]
      if s.Curtok = ch ')' then some (some Args, s)
      else if s.Curtok ≠ ch ',' then some (Error "expected ')' or ',' in argument list" s)
      else ParseIdentifierExpr.args fuel Args (getNextToken strtod s)

/-- The function `ParseIdentifierExpr`. -/
def ParseIdentifierExpr : Nat → State Val → Option (Option (ExprAST Val) × State Val)
  | 0, _ => none
  | fuel + 1, s =>
    let IdName := s.lex.IdentifierStr
    let s := getNextToken strtod s
    if s.Curtok ≠ ch '(' then some (some (ExprAST.Variable IdName), s)
    else
      let s := getNextToken strtod s
      if s.Curtok ≠ ch ')' then
        match ParseIdentifierExpr.args fuel [] s with
        | none => none
        | some (none, s) => some (none, s)
        | some (some Args, s) =>
          some (some (ExprAST.Call IdName Args), getNextToken strtod s)
      else some (some (ExprAST.Call IdName []), getNextToken strtod s)

/-- The function `ParsePrimary`. -/
def ParsePrimary : Nat → State Val → Option (Option (ExprAST Val) × State Val)
  | 0, _ => none
  | fuel + 1, s =>
    if s.Curtok = tok_identifier then ParseIdentifierExpr fuel s
    else if s.Curtok = tok_number then some (ParseNumberExpr strtod s)
    else if s.Curtok = ch '(' then ParseParenExpr fuel s
    else some (Error "unknow token!" s)

/-- The function `ParseBinOpRHS`; the next turn of its `while (1)` loop is the call with
the new `LHS`. -/
def ParseBinOpRHS :
    Nat → Int → ExprAST Val → State Val → Option (Option (ExprAST Val) × State Val)
  | 0, _, _, _ => none
  | fuel + 1, ExprPrec, LHS, s =>
    let (TokPrec, s) := getTokPrecedence s
    if TokPrec < ExprPrec then some (some LHS, s)
    else
      let BinOp := s.Curtok
      let s := getNextToken strtod s
      match ParsePrimary fuel s with
      | none => none
      | some (none, s) => some (none, s)
      | some (some RHS, s) =>
        let (NextPrec, s) := getTokPrecedence s
        if TokPrec < NextPrec then
          match ParseBinOpRHS fuel (TokPrec + 1) RHS s with
          | none => none
          | some (none, s) => some (none, s)
          | some (some RHS, s) =>
            ParseBinOpRHS fuel ExprPrec (ExprAST.Binary (toChar BinOp) LHS RHS) s
        else ParseBinOpRHS fuel ExprPrec (ExprAST.Binary (toChar BinOp) LHS RHS) s

/-- The function `ParseExpression`. -/
def ParseExpression : Nat → State Val → Option (Option (ExprAST Val) × State Val)
  | 0, _ => none
  | fuel + 1, s =>
    match ParsePrimary fuel s with
    | none => none
    | some (none, s) => some (none, s)
    | some (some LHS, s) => ParseBinOpRHS fuel 0 LHS s

end

/-- The loop `while (getNextToken() == tok_identifier) ArgNames.push_back(IdentifierStr);`
of `ParsePrototype`; returns `ArgNames` and the state when the loop is left. -/
def ParsePrototype.args :
    Nat → List (List Int) → State Val → Option (List (List Int) × State Val)
  | 0, _, _ => none
  | fuel + 1, ArgNames, s =>
    let s := getNextToken strtod s
    if s.Curtok = tok_identifier then
      ParsePrototype.args fuel (ArgNames ++ [s.lex.IdentifierStr]) s
    else some (ArgNames, s)

/-- The function `ParsePrototype`. -/
def ParsePrototype (fuel : Nat) (s : State Val) : Option (Option PrototypeAST × State Val) :=
  if s.Curtok ≠ tok_identifier then some (Error "Expected function name in prototype" s)
  else
    let FnName := s.lex.IdentifierStr
    let s := getNextToken strtod s
    if s.Curtok ≠ ch '(' then some (Error "Expected '(' in prototype" s)
    else
      match ParsePrototype.args strtod fuel [] s with
      | none => none
      | some (ArgNames, s) =>
        if s.Curtok ≠ ch ')' then some (Error "Expected ')' in prototype" s)
        else some (some { Name := FnName, Args := ArgNames }, getNextToken strtod s)

/-- The function `ParseDefinition`. -/
def ParseDefinition (fuel : Nat) (s : State Val) : Option (Option (FunctionAST Val) × State Val) :=
  let s := getNextToken strtod s
  match ParsePrototype strtod fuel s with
  | none => none
  | some (none, s) => some (none, s)
  | some (some Proto, s) =>
    match ParseExpression strtod fuel s with
    | none => none
    | some (some E, s) => some (some { Proto := Proto, Body := E }, s)
    | some (none, s) => some (none, s)

/-- The function `ParseExtern`. -/
def ParseExtern (fuel : Nat) (s : State Val) : Option (Option PrototypeAST × State Val) :=
  ParsePrototype strtod fuel (getNextToken strtod s)

/-- The function `ParseTopLevelExpr`. -/
def ParseTopLevelExpr (fuel : Nat) (s : State Val) :
    Option (Option (FunctionAST Val) × State Val) :=
  match ParseExpression strtod fuel s with
  | none => none
  | some (some E, s) => some (some { Proto := { Name := [], Args := [] }, Body := E }, s)
  | some (none, s) => some (none, s)

/-- The function `HandleDefinition`. -/
def HandleDefinition (fuel : Nat) (s : State Val) : Option (State Val) :=
  match ParseDefinition strtod fuel s with
  | none => none
  | some (some _, s) => some (eprint "Parsed a function definition.\n" s)
  | some (none, s) => some (getNextToken strtod s)

/-- The function `HandleExtern`. -/
def HandleExtern (fuel : Nat) (s : State Val) : Option (State Val) :=
  match ParseExtern strtod fuel s with
  | none => none
  | some (some _, s) => some (eprint "Parsed a extern.\n" s)
  | some (none, s) => some (getNextToken strtod s)

/-- The function `HandleTopLevelExpression`. -/
def HandleTopLevelExpression (fuel : Nat) (s : State Val) : Option (State Val) :=
  match ParseTopLevelExpr strtod fuel s with
  | none => none
  | some (some _, s) => some (eprint "Parsed a top level expression.\n" s)
  | some (none, s) => some (getNextToken strtod s)

/-- The `switch (Curtok)` of `MainLoop` for a current token other than `tok_eof`: one
statement is handled, or a `;` is eaten. -/
def MainLoop.dispatch (fuel : Nat) (s : State Val) : Option (State Val) :=
  if s.Curtok = ch ';' then some (getNextToken strtod s)
  else if s.Curtok = tok_def then HandleDefinition strtod fuel s
  else if s.Curtok = tok_extern then HandleExtern strtod fuel s
  else HandleTopLevelExpression strtod fuel s

/-- The function `MainLoop`; the next turn of its `while (1)` loop is the recursive call, and
the result is the state in which the function returns. -/
def MainLoop : Nat → State Val → Option (State Val)
  | 0, _ => none
  | fuel + 1, s =>
    let s := if s.Curtok = ch ';' then eprint "Input<< " s else eprint "Output>> " s
    if s.Curtok = tok_eof then some s
    else
      match MainLoop.dispatch strtod fuel s with
      | none => none
      | some s => MainLoop fuel s

/-- The variables of the program when `main` is entered, for the given standard input;
`zero` is the `double` value `0.0` of the zero-initialised `NumVal`. -/
def startState (zero : Val) (input : List Nat) : State Val :=
  { lex := { input := input, LastChar := ch ' ', IdentifierStr := [], NumVal := zero }
    Curtok := 0
    BinopPrecedence := []
    stderr := [] }

/-- The table installed by `main`: `'<'` is 10, `'+'` and `'-'` are 20, `'*'` is 40. -/
def installOperators (m : PrecMap) : PrecMap :=
  let m := PrecMap.assign m (ch '<') 10
  let m := PrecMap.assign m (ch '+') 20
  let m := PrecMap.assign m (ch '-') 20
  PrecMap.assign m (ch '*') 40

/-- The state of `main` when it calls `MainLoop`: the operators are installed, the prompt is
printed, the first token is read. -/
def primed (s : State Val) : State Val :=
  let s := { s with BinopPrecedence := installOperators s.BinopPrecedence }
  let s := eprint "Input<< " s
  getNextToken strtod s

/-- The function `main`, on the given standard input. -/
def main (fuel : Nat) (zero : Val) (input : List Nat) : Option (State Val) :=
  MainLoop strtod fuel (primed strtod (startState zero input))

end Parser

/-! ## Reading the precedence table -/

/-- The value read by `m[k]`: the value stored for `k`, or `0` when the key is absent. -/
def PrecMap.get (m : PrecMap) (k : Int) : Int := (m.lookup k).getD 0

/-- The precedence `getTokPrecedence` returns for the token `t` when the table is `m`. -/
def tokPrec (m : PrecMap) (t : Int) : Int :=
  if isascii t then (if m.get (toChar t) ≤ 0 then -1 else m.get (toChar t)) else -1

/-- The table is the one installed by `main`, up to the entries of value `0` which lookups of
absent characters have inserted since. -/
def IsDefaultTable (m : PrecMap) : Prop :=
  ∀ k, m.get k = (installOperators []).get k

/-- The states `s` and `t` have the same lexer state, current token and `stderr` text, and
their tables give the same value for every key. -/
def Same {Val : Type} (s t : State Val) : Prop :=
  s.lex = t.lex ∧ s.Curtok = t.Curtok ∧ s.stderr = t.stderr ∧
    ∀ k, s.BinopPrecedence.get k = t.BinopPrecedence.get k

section Atoms

variable {Val : Type} (strtod : List Int → Val)

/-- The current token is an atom: a number token, or an identifier token which is a variable
reference, that is, which is not followed by `(`. -/
def IsAtom (s : State Val) : Prop :=
  s.Curtok = tok_number ∨
    (s.Curtok = tok_identifier ∧ (getNextToken strtod s).Curtok ≠ ch '(')

/-- The node of the atom which is the current token: `Number(NumVal)` for a number token,
`Variable(IdentifierStr)` for an identifier token. -/
def atomAST (s : State Val) : ExprAST Val :=
  if s.Curtok = tok_number then ExprAST.Number s.lex.NumVal
  else ExprAST.Variable s.lex.IdentifierStr

/-- The state after `k` calls of `getNextToken`. -/
def advance : Nat → State Val → State Val
  | 0, s => s
  | k + 1, s => advance k (getNextToken strtod s)

end Atoms

/-- The operators of the default table. -/
def IsTableOp (op : Int) : Prop := op = ch '<' ∨ op = ch '+' ∨ op = ch '-' ∨ op = ch '*'

instance (op : Int) : Decidable (IsTableOp op) := by unfold IsTableOp; infer_instance

instance {Val : Type} (strtod : List Int → Val) (s : State Val) : Decidable (IsAtom strtod s) := by
  unfold IsAtom; infer_instance

section Trees

variable {Val : Type} (strtod : List Int → Val)

/-- The left-nested tree `Binary(op_k, ... Binary(op_1, L, a_1) ..., a_k)` of the `k` operators
and atoms which follow, `t` being the state whose current token is `op_1`: the operator
`op_(i+1)` is the token `2 * i` tokens on, the atom `a_(i+1)` the token after it. -/
def leftNested (k : Nat) (t : State Val) (L : ExprAST Val) : ExprAST Val :=
  (List.range k).foldl
    (fun L i => ExprAST.Binary (advance strtod (2 * i) t).Curtok L
      (atomAST (advance strtod (2 * i + 1) t))) L

end Trees

/-- The natural number written by the decimal digits which the text starts with.  On the text
of a natural number this is the value `strtod` gives; it stands for `strtod` where the
functions are run on a concrete input. -/
def decimal (t : List Int) : Nat :=
  (t.takeWhile isdigit).foldl (fun a c => 10 * a + (c - 48).toNat) 0

/-- The state in which `main` enters `MainLoop` when standard input is the ASCII text
`text`, with `decimal` for `strtod`. -/
def entry (text : String) : State Nat := primed decimal (startState 0 (bytes text))

/-! ## Argument lists -/

section Arguments

variable {Val : Type} (strtod : List Int → Val)

/-- The tokens from the state `s` on are the arguments `e1 , e2 , ... , en )` of a call, `n ≥ 1`:
`ParseExpression` parses each `ei` to the tree `ti` and stops at the `,` or, for the last one,
at the `)` which follows it.  The state `s'` is the one in which the current token is that
`)`. -/
inductive ArgsFrom : State Val → List (ExprAST Val) → State Val → Prop
  | last (s : State Val) (t : ExprAST Val) (s' : State Val) :
      (∃ fuel, ParseExpression strtod fuel s = some (some t, s')) → s'.Curtok = ch ')' →
      ArgsFrom s [t] s'
  | more (s : State Val) (t : ExprAST Val) (s' : State Val) (ts : List (ExprAST Val))
      (s'' : State Val) :
      (∃ fuel, ParseExpression strtod fuel s = some (some t, s')) → s'.Curtok = ch ',' →
      ArgsFrom (getNextToken strtod s') ts s'' → ArgsFrom s (t :: ts) s''

end Arguments

/-! ## Measures of progress -/

/-- The number of characters the lexer can still look at: none once `LastChar` is `EOF`,
otherwise `LastChar` and the unread input. -/
def remaining (c : Int) (inp : List Nat) : Nat := if c = EOF then 0 else inp.length + 1

/-- The number of characters the lexer can still look at, for a lexer state. -/
def Lexer.remaining {Val : Type} (l : Lexer Val) : Nat :=
  Kaleidoscope.remaining l.LastChar l.input

/-- A bound on the tokens left: twice the characters left, plus one while the current token
is not `tok_eof`.  Every `getNextToken` made at a current token other than `tok_eof`
lowers it. -/
def State.weight {Val : Type} (s : State Val) : Nat :=
  2 * s.lex.remaining + (if s.Curtok = tok_eof then 0 else 1)

/-- The state `s'` has the lexer state and the current token which `k` calls of
`getNextToken` give from `s`: exactly `k` tokens were consumed between `s` and `s'`. -/
def Consumed {Val : Type} (strtod : List Int → Val) (k : Nat) (s s' : State Val) : Prop :=
  s'.lex = (advance strtod k s).lex ∧ s'.Curtok = (advance strtod k s).Curtok

/-! ## What the driver reports -/

/-- What a parsing function has written to `stderr` between the states `s` and `s'`: nothing
when it succeeded (`ok`), exactly one line `Error: ...` when it failed. -/
def Reported {Val : Type} (ok : Bool) (s s' : State Val) : Prop :=
  if ok then s'.stderr = s.stderr
  else ∃ msg, s'.stderr = s.stderr ++ ["Error: " ++ msg ++ "\n"]

section Entry

variable {Val : Type} (strtod : List Int → Val)

/-- The parse entry point which the `switch` of `MainLoop` chooses for the current token:
`ParseDefinition` for `def`, `ParseExtern` for `extern`, `ParseTopLevelExpr` otherwise.  The
result is whether it succeeded, and the state it leaves. -/
def parseEntry (fuel : Nat) (s : State Val) : Option (Bool × State Val) :=
  if s.Curtok = tok_def then (ParseDefinition strtod fuel s).map (fun r => (r.1.isSome, r.2))
  else if s.Curtok = tok_extern then
    (ParseExtern strtod fuel s).map (fun r => (r.1.isSome, r.2))
  else (ParseTopLevelExpr strtod fuel s).map (fun r => (r.1.isSome, r.2))

/-- The line which the driver prints after a successful parse of a statement whose first
token is `tok`. -/
def parsedLine (tok : Int) : String :=
  if tok = tok_def then "Parsed a function definition.\n"
  else if tok = tok_extern then "Parsed a extern.\n"
  else "Parsed a top level expression.\n"

end Entry

/-! ## The characters the lexer reads -/

/-- The pending characters of the lexer: `LastChar`, then the unread input as `getchar` will
store it into `LastChar`. -/
def Lexer.chars {Val : Type} (l : Lexer Val) : List Int := l.LastChar :: l.input.map byteChar

/-- The first of the characters `cs`, or `EOF` when there is none: the value of `LastChar`
once the characters before `cs` have been read. -/
def pending (cs : List Int) : Int := cs.head?.getD EOF

/-- A character of a numeric literal: alphanumeric or `.`. -/
def isnumchar (c : Int) : Bool := isalnum c || c == ch '.'

/-- The lexer state of `startState`: `LastChar` is a blank, nothing is read yet. -/
def startLexer {Val : Type} (zero : Val) (input : List Nat) : Lexer Val := (startState zero input).lex

/-- A character which the comment loop of `gettok` skips: neither `EOF` nor a newline. -/
def isCommentChar (c : Int) : Bool := c != EOF && c != ch '\n'

/-- The characters are whitespace and comments only: whitespace characters, and comments which
run from a `#` to the next newline or to the end of the input. -/
inductive Blank : List Int → Prop
  | nil : Blank []
  | space (c : Int) (cs : List Int) : isspace c = true → Blank cs → Blank (c :: cs)
  | comment (s cs : List Int) : (∀ x ∈ s, x ≠ ch '\n') → Blank cs →
      Blank (ch '#' :: (s ++ ch '\n' :: cs))
  | commentToEnd (s : List Int) : (∀ x ∈ s, x ≠ ch '\n') → Blank (ch '#' :: s)

/-- The first `n` tokens which repeated calls of `gettok` return from the lexer state `l`, each
with the identifier text and the number value which are current when it is returned. -/
def lexAll {Val : Type} (strtod : List Int → Val) : Nat → Lexer Val → List (Int × List Int × Val)
  | 0, _ => []
  | n + 1, l =>
    ((gettok strtod l).1, (gettok strtod l).2.IdentifierStr, (gettok strtod l).2.NumVal)
      :: lexAll strtod n (gettok strtod l).2

/-! ## The states of a run -/

section Runs

variable {Val : Type} (strtod : List Int → Val)

/-- The state `s'` is reached from the state `s` by steps of the three kinds by which the parser
and the driver change the state: a call of `getNextToken`, a call of `getTokPrecedence`, a
line printed to `stderr`. -/
inductive Reaches : State Val → State Val → Prop
  | here (s : State Val) : Reaches s s
  | next (s s' : State Val) : Reaches s s' → Reaches s (getNextToken strtod s')
  | lookup (s s' : State Val) : Reaches s s' → Reaches s (getTokPrecedence s').2
  | print (s s' : State Val) (msg : String) : Reaches s s' → Reaches s (eprint msg s')

end Runs

/-! ## Chains of atoms and operators, and the shape of trees -/

/-- The operator of the root when the tree is a `Binary` node. -/
def ExprAST.rootOp {Val : Type} : ExprAST Val → Option Int
  | ExprAST.Binary Op _ _ => some Op
  | ExprAST.Number _ => none
  | ExprAST.Variable _ => none
  | ExprAST.Call _ _ => none

/-- An entry of the in-order traversal of a tree: an operand, which is a subtree that is not a
`Binary` node, or the operator of a `Binary` node. -/
inductive Item (Val : Type) where
  | operand (e : ExprAST Val)
  | operator (Op : Int)

/-- The in-order traversal of a tree: left subtree, operator, right subtree at every `Binary`
node; a node of another kind is an operand. -/
def inorder {Val : Type} : ExprAST Val → List (Item Val)
  | ExprAST.Binary Op LHS RHS => inorder LHS ++ Item.operator Op :: inorder RHS
  | ExprAST.Number v => [Item.operand (ExprAST.Number v)]
  | ExprAST.Variable Name => [Item.operand (ExprAST.Variable Name)]
  | ExprAST.Call Callee Args => [Item.operand (ExprAST.Call Callee Args)]

mutual

/-- At every `Binary(op, L, R)` node of the tree, arguments of calls included: if `R` is a
`Binary` node its operator has precedence strictly greater than that of `op`, and if `L` is a
`Binary` node its operator has precedence greater than or equal to that of `op`; the precedences
are those `getTokPrecedence` gives with the table `m`. -/
def Climbed {Val : Type} (m : PrecMap) : ExprAST Val → Prop
  | ExprAST.Binary Op LHS RHS =>
    (∀ o, RHS.rootOp = some o → tokPrec m Op < tokPrec m o) ∧
      (∀ o, LHS.rootOp = some o → tokPrec m Op ≤ tokPrec m o) ∧
      Climbed m LHS ∧ Climbed m RHS
  | ExprAST.Number _ => True
  | ExprAST.Variable _ => True
  | ExprAST.Call _ Args => Climbed.args m Args

/-- Every tree of the list satisfies `Climbed`. -/
def Climbed.args {Val : Type} (m : PrecMap) : List (ExprAST Val) → Prop
  | [] => True
  | a :: as => Climbed m a ∧ Climbed.args m as

end

section Chains

variable {Val : Type} (strtod : List Int → Val)

/-- From the current token of `t` on, the tokens are `k` operators (tokens to which the table of
`t` gives a positive precedence), each followed by an atom, and then a token which is not an
operator. -/
def OpChain (k : Nat) (t : State Val) : Prop :=
  (∀ i, i < k → 0 < tokPrec t.BinopPrecedence (advance strtod (2 * i) t).Curtok ∧
      IsAtom strtod (advance strtod (2 * i + 1) t)) ∧
    tokPrec t.BinopPrecedence (advance strtod (2 * k) t).Curtok = -1

/-- The operators and atoms `op1, a1, ..., opk, ak` read from the current token of `t` on, in
the order of the input. -/
def chainItems : Nat → State Val → List (Item Val)
  | 0, _ => []
  | k + 1, t =>
    Item.operator t.Curtok :: Item.operand (atomAST (advance strtod 1 t))
      :: chainItems k (advance strtod 2 t)

end Chains

/-! ## Two inputs which differ by a comment -/

/-- The lexer states `l1` and `l2` are reading two inputs which differ by a comment: the
unread input of `l1` ends with `X1`, that of `l2` with `X2` in its place, where `X1` is `#`
followed by `T1`, and one character read from `X2` gives `c2` and leaves `T2`.  The identifier
text and the number value are equal, and either `LastChar` is equal too, the unread inputs
being a common part followed by `X1` and `X2`, or equal, or of no account since `LastChar`
is `EOF`; or else `l1` has just read the `#` and `l2` the character `c2`. -/
def CommentRel {Val : Type} (X1 X2 T1 : List Nat) (c2 : Int) (T2 : List Nat)
    (l1 l2 : Lexer Val) : Prop :=
  l1.IdentifierStr = l2.IdentifierStr ∧ l1.NumVal = l2.NumVal ∧
    ((l1.LastChar = l2.LastChar ∧
        ((∃ A, l1.input = A ++ X1 ∧ l2.input = A ++ X2) ∨ l1.input = l2.input ∨
          l1.LastChar = EOF)) ∨
      (l1.LastChar = ch '#' ∧ l1.input = T1 ∧ l2.LastChar = c2 ∧ l2.input = T2))

/-! ## Basic facts -/

theorem ch_lparen : ch '(' = 40 := by decide
theorem ch_rparen : ch ')' = 41 := by decide
theorem ch_comma : ch ',' = 44 := by decide
theorem ch_semicolon : ch ';' = 59 := by decide
theorem ch_star : ch '*' = 42 := by decide
theorem ch_plus : ch '+' = 43 := by decide
theorem ch_minus : ch '-' = 45 := by decide
theorem ch_less : ch '<' = 60 := by decide

theorem toChar_of_isascii {c : Int} (h : isascii c = true) : toChar c = c := by
  simp only [isascii, Bool.and_eq_true, decide_eq_true_eq] at h
  unfold toChar
  omega

theorem lookup_insertNew (k v : Int) (m : PrecMap) (h : m.lookup k = none) (k' : Int) :
    (PrecMap.insertNew k v m).lookup k' = if k' = k then some v else m.lookup k' := by
  induction m with
  | nil =>
    by_cases hk : k' = k
    · simp [PrecMap.insertNew, List.lookup, hk]
    · have hb : (k' == k) = false := by simpa using hk
      simp [PrecMap.insertNew, List.lookup, hk, hb]
  | cons p m ih =>
    obtain ⟨a, b⟩ := p
    have hne : k ≠ a := by
      intro e
      subst e
      simp [List.lookup] at h
    have hm : m.lookup k = none := by
      have := h
      rw [List.lookup_cons] at this
      have hb : (k == a) = false := by simpa using hne
      simpa [hb] using this
    simp only [PrecMap.insertNew]
    by_cases hlt : k < a
    · simp only [hlt, if_true]
      rw [List.lookup_cons]
      by_cases hk : k' = k
      · simp [hk]
      · have hb : (k' == k) = false := by simpa using hk
        simp [hb, hk]
    · simp only [hlt, if_false, hne]
      rw [List.lookup_cons, List.lookup_cons, ih hm]
      by_cases hk : k' = a
      · have hak : ¬ a = k := fun e => hne e.symm
        simp [hk, hak]
      · have hb : (k' == a) = false := by simpa using hk
        simp [hb]

theorem PrecMap.index_fst (m : PrecMap) (k : Int) : (m.index k).1 = m.get k := by
  unfold PrecMap.index PrecMap.get
  cases h : m.lookup k <;> simp

theorem PrecMap.get_index_snd (m : PrecMap) (k k' : Int) :
    (m.index k).2.get k' = m.get k' := by
  unfold PrecMap.index PrecMap.get
  cases h : m.lookup k with
  | some v => simp
  | none =>
    simp only [lookup_insertNew k 0 m h k']
    by_cases hk : k' = k
    · subst hk
      simp [h]
    · simp [hk]

/-! ## The lexer terminates -/

theorem toChar_EOF : toChar EOF = EOF := by decide

theorem isspace_ne_EOF {c : Int} (h : isspace c = true) : c ≠ EOF := by
  intro e; subst e; revert h; decide

theorem remaining_le (c : Int) (inp : List Nat) : remaining c inp ≤ inp.length + 1 := by
  unfold remaining; split <;> omega

theorem remaining_of_ne {c : Int} (h : c ≠ EOF) (inp : List Nat) :
    remaining c inp = inp.length + 1 := by
  unfold remaining; simp [h]

theorem remaining_EOF (inp : List Nat) : remaining EOF inp = 0 := by
  unfold remaining; simp

theorem skipSpace_remaining (c : Int) (inp : List Nat) :
    remaining (skipSpace c inp).1 (skipSpace c inp).2 ≤ remaining c inp := by
  induction inp generalizing c with
  | nil =>
    unfold skipSpace
    split
    · simp [toChar_EOF, remaining_EOF]
    · exact le_refl _
  | cons b rest ih =>
    unfold skipSpace
    split
    · rename_i h
      have := ih (byteChar b)
      have h2 := remaining_le (byteChar b) rest
      rw [remaining_of_ne (isspace_ne_EOF h)]
      simp only [List.length_cons]
      omega
    · exact le_refl _

theorem skipSpace_of_not (c : Int) (inp : List Nat) (h : isspace c = false) :
    skipSpace c inp = (c, inp) := by
  cases inp <;> simp [skipSpace, h]

theorem identLoop_remaining (acc : List Int) (inp : List Nat) :
    remaining (identLoop acc inp).2.1 (identLoop acc inp).2.2 ≤ inp.length := by
  induction inp generalizing acc with
  | nil => simp [identLoop, toChar_EOF, remaining_EOF]
  | cons b rest ih =>
    unfold identLoop
    split
    · have := ih (acc ++ [byteChar b])
      simp only [List.length_cons]
      omega
    · simpa using remaining_le (byteChar b) rest

theorem numLoop_remaining (acc : List Int) (c : Int) (inp : List Nat) :
    remaining (numLoop acc c inp).2.1 (numLoop acc c inp).2.2 ≤ remaining c inp ∧
    ((isalnum c || c == ch '.') = true →
      remaining (numLoop acc c inp).2.1 (numLoop acc c inp).2.2 < remaining c inp) := by
  induction inp generalizing acc c with
  | nil =>
    unfold numLoop
    split
    · rename_i h
      have hc : c ≠ EOF := by intro e; subst e; revert h; decide
      simp [toChar_EOF, remaining_EOF, remaining_of_ne hc]
    · rename_i h
      exact ⟨le_refl _, fun h' => absurd h' h⟩
  | cons b rest ih =>
    unfold numLoop
    split
    · rename_i h
      have hc : c ≠ EOF := by intro e; subst e; revert h; decide
      have := (ih (acc ++ [c]) (byteChar b)).1
      have h2 := remaining_le (byteChar b) rest
      rw [remaining_of_ne hc]
      simp only [List.length_cons]
      exact ⟨by omega, fun _ => by omega⟩
    · rename_i h
      exact ⟨le_refl _, fun h' => absurd h' h⟩

theorem commentLoop_remaining (c : Int) (inp : List Nat) :
    remaining (commentLoop c inp).1 (commentLoop c inp).2 ≤ remaining c inp ∧
    ((c != EOF && c != ch '\n') = true →
      remaining (commentLoop c inp).1 (commentLoop c inp).2 < remaining c inp) := by
  induction inp generalizing c with
  | nil =>
    unfold commentLoop
    split
    · rename_i h
      have hc : c ≠ EOF := by intro e; subst e; revert h; decide
      simp [toChar_EOF, remaining_EOF, remaining_of_ne hc]
    · rename_i h
      exact ⟨le_refl _, fun h' => absurd h' h⟩
  | cons b rest ih =>
    unfold commentLoop
    split
    · rename_i h
      have hc : c ≠ EOF := by intro e; subst e; revert h; decide
      have := (ih (byteChar b)).1
      have h2 := remaining_le (byteChar b) rest
      rw [remaining_of_ne hc]
      simp only [List.length_cons]
      exact ⟨by omega, fun _ => by omega⟩
    · rename_i h
      exact ⟨le_refl _, fun h' => absurd h' h⟩

theorem readChar_remaining {Val : Type} (l : Lexer Val) :
    remaining (readChar l).LastChar (readChar l).input ≤ l.input.length := by
  unfold readChar
  split
  · rename_i h; simp [toChar_EOF, remaining_EOF]
  · rename_i b rest h
    simp only [h, List.length_cons]
    exact remaining_le _ _

theorem gettokAux_remaining {Val : Type} (strtod : List Int → Val) (fuel : Nat) (l : Lexer Val) :
    (gettokAux strtod fuel l).2.remaining < l.remaining ∨
      (l.LastChar = EOF ∧ gettokAux strtod fuel l = (tok_eof, l)) := by
  induction fuel using Nat.strong_induction_on generalizing l with
  | _ fuel ih =>
    have hsk := skipSpace_remaining l.LastChar l.input
    have hsk' := skipSpace_of_not l.LastChar l.input
    unfold gettokAux
    generalize skipSpace l.LastChar l.input = p at hsk hsk'
    obtain ⟨c, inp⟩ := p
    simp only at hsk ⊢
    by_cases h1 : isalpha c = true
    · left
      have hc : c ≠ EOF := by intro e; subst e; revert h1; decide
      have := identLoop_remaining [c] inp
      rw [remaining_of_ne hc] at hsk
      simp only [h1, if_true]
      generalize identLoop [c] inp = q at this
      obtain ⟨id, c', inp'⟩ := q
      simp only [Lexer.remaining] at this hsk ⊢
      split
      · simp only; omega
      · split <;> (simp only; omega)
    by_cases h2 : (isalnum c || c == ch '.') = true
    · left
      have := (numLoop_remaining [] c inp).2 h2
      simp only [h1, h2, if_true]
      generalize numLoop [] c inp = q at this
      obtain ⟨ns, c', inp'⟩ := q
      simp only [Lexer.remaining] at this hsk ⊢
      simp only [Bool.false_eq_true, if_false]
      omega
    by_cases h3 : (c == ch '#') = true
    · left
      have hc : (c != EOF && c != ch '\n') = true := by
        have : c = ch '#' := by simpa using h3
        subst this; decide
      have := (commentLoop_remaining c inp).2 hc
      simp only [h1, h2, h3, if_true]
      generalize commentLoop c inp = q at this
      obtain ⟨c', inp'⟩ := q
      simp only [Lexer.remaining] at this hsk ⊢
      simp only [Bool.false_eq_true, if_false]
      split
      · cases fuel with
        | zero => simp only; omega
        | succ f =>
          simp only
          rcases ih f (Nat.lt_succ_self f)
            ({ l with input := inp', LastChar := c' } : Lexer Val) with h | ⟨_, h⟩
          · simp only [Lexer.remaining] at h
            omega
          · rw [h]
            simp only
            omega
      · simp only; omega
    by_cases h4 : (c == EOF) = true
    · have hc : c = EOF := by simpa using h4
      simp only [h1, h2, h3, h4, if_true, Bool.false_eq_true, if_false]
      by_cases hl : l.LastChar = EOF
      · right
        have := hsk' (by rw [hl]; decide)
        simp only [Prod.mk.injEq] at this
        refine ⟨hl, ?_⟩
        rw [this.1, this.2]
      · left
        simp only [Lexer.remaining, hc, remaining_EOF, remaining_of_ne hl]
        omega
    · left
      have hc : c ≠ EOF := by simpa using h4
      have := readChar_remaining ({ l with input := inp, LastChar := c } : Lexer Val)
      simp only [h1, h2, h3, h4, Bool.false_eq_true, if_false]
      rw [remaining_of_ne hc] at hsk
      simp only [Lexer.remaining] at this hsk ⊢
      omega

theorem gettok_remaining {Val : Type} (strtod : List Int → Val) (l : Lexer Val) :
    (gettok strtod l).2.remaining < l.remaining ∨
      (l.LastChar = EOF ∧ gettok strtod l = (tok_eof, l)) :=
  gettokAux_remaining strtod _ l

/-! ## The fuel of `gettok` -/

theorem skipSpace_length (c : Int) (inp : List Nat) :
    (skipSpace c inp).2.length ≤ inp.length := by
  induction inp generalizing c with
  | nil => unfold skipSpace; split <;> simp
  | cons b rest ih =>
    unfold skipSpace
    split
    · have := ih (byteChar b)
      simp only [List.length_cons]
      omega
    · exact le_refl _

theorem commentLoop_length (c : Int) (inp : List Nat) :
    (commentLoop c inp).2.length ≤ inp.length ∧
    ((c != EOF && c != ch '\n') = true → (commentLoop c inp).1 ≠ EOF →
      (commentLoop c inp).2.length < inp.length) := by
  induction inp generalizing c with
  | nil =>
    unfold commentLoop
    split
    · exact ⟨le_refl _, fun _ h => absurd toChar_EOF h⟩
    · rename_i h
      exact ⟨le_refl _, fun h' => absurd h' h⟩
  | cons b rest ih =>
    unfold commentLoop
    split
    · have := (ih (byteChar b)).1
      simp only [List.length_cons]
      exact ⟨by omega, fun _ _ => by omega⟩
    · rename_i h
      exact ⟨le_refl _, fun h' => absurd h' h⟩

/-- The result of `gettokAux` does not depend on the fuel, once the fuel is at least the
number of unread bytes. -/
theorem gettokAux_fuel {Val : Type} (strtod : List Int → Val) (n : Nat) :
    ∀ (m : Nat) (l : Lexer Val), l.input.length ≤ n → l.input.length ≤ m →
      gettokAux strtod n l = gettokAux strtod m l := by
  induction n with
  | zero =>
    intro m l hn hm
    have hsk := skipSpace_length l.LastChar l.input
    unfold gettokAux
    generalize skipSpace l.LastChar l.input = p at hsk
    obtain ⟨c, inp⟩ := p
    simp only at hsk ⊢
    split
    · rfl
    · split
      · rfl
      · split
        · rename_i h3
          have hc : (c != EOF && c != ch '\n') = true := by
            have : c = ch '#' := by simpa using h3
            subst this; decide
          have hlen := (commentLoop_length c inp).2 hc
          generalize commentLoop c inp = q at hlen
          obtain ⟨c', inp'⟩ := q
          simp only at hlen ⊢
          split
          · rename_i h4
            have : c' ≠ EOF := by simpa using h4
            have := hlen this
            omega
          · rfl
        · rfl
  | succ n ih =>
    intro m l hn hm
    have hsk := skipSpace_length l.LastChar l.input
    unfold gettokAux
    generalize skipSpace l.LastChar l.input = p at hsk
    obtain ⟨c, inp⟩ := p
    simp only at hsk ⊢
    split
    · rfl
    · split
      · rfl
      · split
        · rename_i h3
          have hc : (c != EOF && c != ch '\n') = true := by
            have : c = ch '#' := by simpa using h3
            subst this; decide
          have hlen := (commentLoop_length c inp).2 hc
          generalize commentLoop c inp = q at hlen
          obtain ⟨c', inp'⟩ := q
          simp only at hlen ⊢
          split
          · rename_i h4
            have h5 : c' ≠ EOF := by simpa using h4
            have := hlen h5
            cases m with
            | zero => omega
            | succ m =>
              simp only
              exact ih m _ (by simp only; omega) (by simp only; omega)
          · rfl
        · rfl

/-- The recursion of `gettok`: the function as it is written in the source, its recursive call
after a comment included. -/
theorem gettok_eq {Val : Type} (strtod : List Int → Val) (l : Lexer Val) :
    gettok strtod l =
      let (c, inp) := skipSpace l.LastChar l.input
      if isalpha c then
        let (id, c', inp') := identLoop [c] inp
        let l' : Lexer Val := { l with input := inp', LastChar := c', IdentifierStr := id }
        if id = str "def" then (tok_def, l')
        else if id = str "extern" then ( tok_extern, l')
        else (tok_identifier, l')
      else if isalnum c || c == ch '.' then
        let (NumStr, c', inp') := numLoop [] c inp
        (tok_number, { l with input := inp', LastChar := c', NumVal := strtod NumStr })
      else if c == ch '#' then
        let (c', inp') := commentLoop c inp
        let l' : Lexer Val := { l with input := inp', LastChar := c' }
        if c' != EOF then gettok strtod l' else (tok_eof, l')
      else if c == EOF then (tok_eof, { l with input := inp, LastChar := c })
      else (c, readChar { l with input := inp, LastChar := c }) := by
  have hsk := skipSpace_length l.LastChar l.input
  unfold gettok
  rw [gettokAux]
  generalize skipSpace l.LastChar l.input = p at hsk
  obtain ⟨c, inp⟩ := p
  simp only at hsk ⊢
  split
  · rfl
  · split
    · rfl
    · split
      · rename_i h3
        have hc : (c != EOF && c != ch '\n') = true := by
          have : c = ch '#' := by simpa using h3
          subst this; decide
        have hlen := (commentLoop_length c inp).2 hc
        generalize commentLoop c inp = q at hlen
        obtain ⟨c', inp'⟩ := q
        simp only at hlen ⊢
        split
        · rename_i h4
          have h5 : c' ≠ EOF := by simpa using h4
          have := hlen h5
          cases hl : l.input.length with
          | zero => omega
          | succ k =>
            simp only
            exact gettokAux_fuel strtod k _ _ (by simp only; omega) (le_refl _)
        · rfl
      · rfl

/-! ## Facts about states -/

section StateFacts

variable {Val : Type} (strtod : List Int → Val)

theorem getNextToken_eq (s : State Val) :
    getNextToken strtod s =
      { s with lex := (gettok strtod s.lex).2, Curtok := (gettok strtod s.lex).1 } := rfl

theorem Same.refl (s : State Val) : Same s s := ⟨rfl, rfl, rfl, fun _ => rfl⟩

theorem Same.symm {s t : State Val} (h : Same s t) : Same t s :=
  ⟨h.1.symm, h.2.1.symm, h.2.2.1.symm, fun k => (h.2.2.2 k).symm⟩

theorem Same.trans {s t u : State Val} (h : Same s t) (h' : Same t u) : Same s u :=
  ⟨h.1.trans h'.1, h.2.1.trans h'.2.1, h.2.2.1.trans h'.2.2.1,
    fun k => (h.2.2.2 k).trans (h'.2.2.2 k)⟩

theorem Same.getNextToken {s t : State Val} (h : Same s t) :
    Same (getNextToken strtod s) (getNextToken strtod t) := by
  obtain ⟨h1, _, h3, h4⟩ := h
  refine ⟨?_, ?_, h3, h4⟩
  · simp [getNextToken_eq, h1]
  · simp [getNextToken_eq, h1]

theorem Same.tokPrec {s t : State Val} (h : Same s t) :
    tokPrec s.BinopPrecedence s.Curtok = tokPrec t.BinopPrecedence t.Curtok := by
  unfold Kaleidoscope.tokPrec
  rw [h.2.1, h.2.2.2]

theorem Same.isAtom {s t : State Val} (h : Same s t) (ha : IsAtom strtod t) :
    IsAtom strtod s := by
  have h2 := (Same.getNextToken strtod h).2.1
  unfold IsAtom at *
  rw [h.2.1, h2]
  exact ha

theorem Same.atomAST {s t : State Val} (h : Same s t) : atomAST s = atomAST t := by
  unfold Kaleidoscope.atomAST
  rw [h.1, h.2.1]

theorem getTokPrecedence_fst (s : State Val) :
    (getTokPrecedence s).1 = tokPrec s.BinopPrecedence s.Curtok := by
  unfold getTokPrecedence tokPrec
  by_cases ha : isascii s.Curtok = true
  · simp only [ha, Bool.not_true, Bool.false_eq_true, if_false, if_true]
    rw [← PrecMap.index_fst]
    split <;> rfl
  · simp [ha]

theorem getTokPrecedence_same (s : State Val) : Same (getTokPrecedence s).2 s := by
  unfold getTokPrecedence
  by_cases ha : isascii s.Curtok = true
  · simp only [ha, Bool.not_true, Bool.false_eq_true, if_false]
    have hk := PrecMap.get_index_snd s.BinopPrecedence (toChar s.Curtok)
    split <;> exact ⟨rfl, rfl, rfl, hk⟩
  · simp only [ha, Bool.not_false, if_true]
    exact Same.refl s

theorem getTokPrecedence_eq (s : State Val) :
    getTokPrecedence s = (tokPrec s.BinopPrecedence s.Curtok, (getTokPrecedence s).2) := by
  rw [← getTokPrecedence_fst]

theorem getTokPrecedence_curtok (s : State Val) : (getTokPrecedence s).2.Curtok = s.Curtok :=
  (getTokPrecedence_same s).2.1

/-- An atom is parsed by `ParsePrimary` into its node, consuming that one token. -/
theorem ParsePrimary_atom (s : State Val) (ha : IsAtom strtod s) (n : Nat) :
    ParsePrimary strtod (n + 2) s = some (some (atomAST s), getNextToken strtod s) := by
  rcases ha with hn | ⟨hi, hp⟩
  · have h1 : tok_number ≠ tok_identifier := by decide
    simp [ParsePrimary, ParseNumberExpr, atomAST, hn, h1]
  · have h1 : tok_identifier ≠ tok_number := by decide
    simp [ParsePrimary, ParseIdentifierExpr, atomAST, hi, h1, hp]

theorem getNextToken_eq_advance (s : State Val) :
    getNextToken strtod s = advance strtod 1 s := rfl

theorem advance_advance (j k : Nat) (s : State Val) :
    advance strtod j (advance strtod k s) = advance strtod (k + j) s := by
  induction k generalizing s with
  | zero => simp [advance]
  | succ k ih =>
    rw [Nat.add_right_comm]
    exact ih (getNextToken strtod s)

theorem Same.advance {s t : State Val} (h : Same s t) (k : Nat) :
    Same (advance strtod k s) (advance strtod k t) := by
  induction k generalizing s t with
  | zero => exact h
  | succ k ih => exact ih (Same.getNextToken strtod h)

theorem advance_add (j k : Nat) (s : State Val) :
    advance strtod (j + k) s = advance strtod k (advance strtod j s) := by
  induction j generalizing s with
  | zero => simp [advance]
  | succ j ih =>
    rw [Nat.add_right_comm]
    exact ih (getNextToken strtod s)

theorem advance_table (k : Nat) (s : State Val) :
    (advance strtod k s).BinopPrecedence = s.BinopPrecedence := by
  induction k generalizing s with
  | zero => rfl
  | succ k ih => rw [advance, ih]; rfl

theorem advance_stderr (k : Nat) (s : State Val) :
    (advance strtod k s).stderr = s.stderr := by
  induction k generalizing s with
  | zero => rfl
  | succ k ih => rw [advance, ih]; rfl

/-- The loop of `ParseBinOpRHS` is left in front of a token of lower precedence. -/
theorem ParseBinOpRHS_stop (n : Nat) (E : Int) (L : ExprAST Val) (s t : State Val)
    (hs : Same s t) (hp : tokPrec t.BinopPrecedence t.Curtok < E) :
    ∃ s', ParseBinOpRHS strtod (n + 1) E L s = some (some L, s') ∧ Same s' t := by
  refine ⟨(getTokPrecedence s).2, ?_, (getTokPrecedence_same s).trans hs⟩
  rw [ParseBinOpRHS, getTokPrecedence_eq]
  simp [hs.tokPrec, hp]

/-- One turn of the loop of `ParseBinOpRHS` whose right operand is an atom followed by a
token that does not bind tighter than the operator. -/
theorem ParseBinOpRHS_step (n : Nat) (E : Int) (L : ExprAST Val) (s t : State Val)
    (hs : Same s t) (hp : E ≤ tokPrec t.BinopPrecedence t.Curtok)
    (ha : IsAtom strtod (advance strtod 1 t))
    (hnext : tokPrec t.BinopPrecedence (advance strtod 2 t).Curtok
      ≤ tokPrec t.BinopPrecedence t.Curtok) :
    ∃ s2, Same s2 (advance strtod 2 t) ∧
      ParseBinOpRHS strtod (n + 3) E L s =
        ParseBinOpRHS strtod (n + 2) E
          (ExprAST.Binary (toChar t.Curtok) L (atomAST (advance strtod 1 t))) s2 := by
  have h0 : Same (getTokPrecedence s).2 t := (getTokPrecedence_same s).trans hs
  have h1 : Same (getNextToken strtod (getTokPrecedence s).2) (advance strtod 1 t) :=
    Same.getNextToken strtod h0
  have h2 : Same (getNextToken strtod (getNextToken strtod (getTokPrecedence s).2))
      (advance strtod 2 t) := Same.getNextToken strtod h1
  have h3 := (getTokPrecedence_same
    (getNextToken strtod (getNextToken strtod (getTokPrecedence s).2))).trans h2
  refine ⟨_, h3, ?_⟩
  rw [ParseBinOpRHS, getTokPrecedence_eq]
  simp only [hs.tokPrec, not_lt.mpr hp, if_false]
  rw [ParsePrimary_atom strtod _ (h1.isAtom strtod ha)]
  simp only []
  rw [getTokPrecedence_eq]
  simp only [h2.tokPrec, advance_table, not_lt.mpr hnext, if_false, h0.2.1, h1.atomAST]

/-- One turn of the loop of `ParseBinOpRHS` whose right operand starts with an atom followed
by a token that binds tighter than the operator: the right operand is completed by the
recursive call at the operator's precedence plus one. -/
theorem ParseBinOpRHS_climb (n : Nat) (E : Int) (L : ExprAST Val) (s t : State Val)
    (hs : Same s t) (hp : E ≤ tokPrec t.BinopPrecedence t.Curtok)
    (ha : IsAtom strtod (advance strtod 1 t))
    (hnext : tokPrec t.BinopPrecedence t.Curtok
      < tokPrec t.BinopPrecedence (advance strtod 2 t).Curtok) :
    ∃ s2, Same s2 (advance strtod 2 t) ∧
      ParseBinOpRHS strtod (n + 3) E L s =
        match ParseBinOpRHS strtod (n + 2) (tokPrec t.BinopPrecedence t.Curtok + 1)
            (atomAST (advance strtod 1 t)) s2 with
        | none => none
        | some (none, s3) => some (none, s3)
        | some (some R, s3) =>
          ParseBinOpRHS strtod (n + 2) E (ExprAST.Binary (toChar t.Curtok) L R) s3 := by
  have h0 : Same (getTokPrecedence s).2 t := (getTokPrecedence_same s).trans hs
  have h1 : Same (getNextToken strtod (getTokPrecedence s).2) (advance strtod 1 t) :=
    Same.getNextToken strtod h0
  have h2 : Same (getNextToken strtod (getNextToken strtod (getTokPrecedence s).2))
      (advance strtod 2 t) := Same.getNextToken strtod h1
  have h3 := (getTokPrecedence_same
    (getNextToken strtod (getNextToken strtod (getTokPrecedence s).2))).trans h2
  refine ⟨_, h3, ?_⟩
  rw [ParseBinOpRHS, getTokPrecedence_eq]
  simp only [hs.tokPrec, not_lt.mpr hp, if_false]
  rw [ParsePrimary_atom strtod _ (h1.isAtom strtod ha)]
  simp only []
  rw [getTokPrecedence_eq]
  simp only [h2.tokPrec, advance_table, hnext, if_true, h0.2.1, h1.atomAST]

theorem leftNested_zero (t : State Val) (L : ExprAST Val) : leftNested strtod 0 t L = L := rfl

theorem leftNested_succ (k : Nat) (t : State Val) (L : ExprAST Val) :
    leftNested strtod (k + 1) t L =
      leftNested strtod k (advance strtod 2 t)
        (ExprAST.Binary t.Curtok L (atomAST (advance strtod 1 t))) := by
  unfold leftNested
  rw [List.range_succ_eq_map, List.foldl_cons, List.foldl_map]
  have e : ∀ i, advance strtod (2 * (i + 1)) t = advance strtod (2 * i) (advance strtod 2 t) :=
    fun i => by rw [← advance_add]; congr 1; omega
  have e' : ∀ i, advance strtod (2 * (i + 1) + 1) t
      = advance strtod (2 * i + 1) (advance strtod 2 t) :=
    fun i => by rw [← advance_add]; congr 1; omega
  simp only [Nat.succ_eq_add_one, e, e']
  rfl

/-- The loop of `ParseBinOpRHS` over `k` operators of one precedence `p`, each followed by
an atom, builds the left-nested tree and is left in front of the token after the last atom. -/
theorem ParseBinOpRHS_flat (p E : Int) (hE : E ≤ p) (k : Nat) :
    ∀ (L : ExprAST Val) (s t : State Val) (n : Nat), k + 2 ≤ n → Same s t →
      (∀ i, i < k → tokPrec t.BinopPrecedence (advance strtod (2 * i) t).Curtok = p ∧
        toChar (advance strtod (2 * i) t).Curtok = (advance strtod (2 * i) t).Curtok ∧
        IsAtom strtod (advance strtod (2 * i + 1) t)) →
      tokPrec t.BinopPrecedence (advance strtod (2 * k) t).Curtok < E →
      ∃ s', ParseBinOpRHS strtod n E L s = some (some (leftNested strtod k t L), s') ∧
        Same s' (advance strtod (2 * k) t) := by
  induction k with
  | zero =>
    intro L s t n hn hs _ hend
    obtain ⟨m, rfl⟩ : ∃ m, n = m + 1 := ⟨n - 1, by omega⟩
    exact ParseBinOpRHS_stop strtod m E L s t hs hend
  | succ k ih =>
    intro L s t n hn hs hops hend
    obtain ⟨m, rfl⟩ : ∃ m, n = m + 3 := ⟨n - 3, by omega⟩
    have h0 := hops 0 (Nat.succ_pos k)
    have hnext : tokPrec t.BinopPrecedence (advance strtod 2 t).Curtok
        ≤ tokPrec t.BinopPrecedence t.Curtok := by
      have e0 : tokPrec t.BinopPrecedence t.Curtok = p := h0.1
      rw [e0]
      rcases Nat.eq_zero_or_pos k with hk | hk
      · subst hk
        have : tokPrec t.BinopPrecedence (advance strtod 2 t).Curtok < E := hend
        omega
      · have h1 := (hops 1 (by omega)).1
        have : tokPrec t.BinopPrecedence (advance strtod 2 t).Curtok = p := h1
        omega
    obtain ⟨s2, hs2, e⟩ := ParseBinOpRHS_step strtod m E L s t hs
      (by have e0 : tokPrec t.BinopPrecedence t.Curtok = p := h0.1
          omega) h0.2.2 hnext
    have e2 : ∀ i, advance strtod (2 * (i + 1)) t
        = advance strtod (2 * i) (advance strtod 2 t) :=
      fun i => by rw [← advance_add]; congr 1; omega
    have e3 : ∀ i, advance strtod (2 * (i + 1) + 1) t
        = advance strtod (2 * i + 1) (advance strtod 2 t) :=
      fun i => by rw [← advance_add]; congr 1; omega
    obtain ⟨s', e', hs'⟩ := ih
      (ExprAST.Binary (toChar t.Curtok) L (atomAST (advance strtod 1 t))) s2
      (advance strtod 2 t) (m + 2) (by omega) hs2
      (fun i hi => by
        have := hops (i + 1) (by omega)
        rw [e2, e3] at this
        rw [advance_table]
        exact this)
      (by rw [advance_table, ← e2]; exact hend)
    refine ⟨s', ?_, ?_⟩
    · have hc : toChar t.Curtok = t.Curtok := h0.2.1
      rw [e, e', leftNested_succ, hc]
    · rw [e2]; exact hs'

end StateFacts

/-! ## Tokens consumed by the parsing functions -/

section Progress

variable {Val : Type} (strtod : List Int → Val)

theorem weight_getNextToken_le (s : State Val) :
    (getNextToken strtod s).weight ≤ s.weight := by
  rcases gettok_remaining strtod s.lex with h | ⟨h1, h2⟩
  · simp only [State.weight, getNextToken_eq]
    split <;> split <;> omega
  · simp only [State.weight, getNextToken_eq, h2]
    simp only [tok_eof, if_true]
    omega

theorem weight_getNextToken_lt (s : State Val) (hc : s.Curtok ≠ tok_eof) :
    (getNextToken strtod s).weight < s.weight := by
  rcases gettok_remaining strtod s.lex with h | ⟨h1, h2⟩
  · simp only [State.weight, getNextToken_eq, hc, if_false]
    split <;> omega
  · simp only [State.weight, getNextToken_eq, h2, hc, if_false]
    simp only [tok_eof, if_true]
    omega

theorem advance_congr {s t : State Val} (h1 : s.lex = t.lex) (h2 : s.Curtok = t.Curtok)
    (k : Nat) :
    (advance strtod k s).lex = (advance strtod k t).lex ∧
      (advance strtod k s).Curtok = (advance strtod k t).Curtok := by
  cases k with
  | zero => exact ⟨h1, h2⟩
  | succ k =>
    have : (getNextToken strtod s).lex = (getNextToken strtod t).lex ∧
        (getNextToken strtod s).Curtok = (getNextToken strtod t).Curtok := by
      simp [getNextToken_eq, h1]
    clear h1 h2
    simp only [advance]
    generalize getNextToken strtod s = s1 at this
    generalize getNextToken strtod t = t1 at this
    induction k generalizing s1 t1 with
    | zero => exact this
    | succ k ih =>
      simp only [advance]
      apply ih
      simp [getNextToken_eq, this.1]

theorem Consumed.zero (s : State Val) : Consumed strtod 0 s s := ⟨rfl, rfl⟩

theorem Consumed.one (s : State Val) : Consumed strtod 1 s (getNextToken strtod s) :=
  ⟨rfl, rfl⟩

theorem Consumed.append {j k : Nat} {s s' s'' : State Val} (h : Consumed strtod j s s')
    (h' : Consumed strtod k s' s'') : Consumed strtod (j + k) s s'' := by
  have := advance_congr strtod h.1 h.2 k
  rw [advance_advance] at this
  exact ⟨h'.1.trans this.1, h'.2.trans this.2⟩

theorem Consumed.of_eq {k : Nat} {s s' t : State Val} (h : Consumed strtod k s s')
    (h1 : t.lex = s'.lex) (h2 : t.Curtok = s'.Curtok) : Consumed strtod k s t :=
  ⟨h1.trans h.1, h2.trans h.2⟩

theorem weight_advance_le (k : Nat) (s : State Val) :
    (advance strtod k s).weight ≤ s.weight := by
  induction k generalizing s with
  | zero => exact le_refl _
  | succ k ih => exact (ih _).trans (weight_getNextToken_le strtod s)

theorem weight_congr {s t : State Val} (h1 : s.lex = t.lex) (h2 : s.Curtok = t.Curtok) :
    s.weight = t.weight := by
  simp only [State.weight, h1, h2]

theorem Consumed.weight_le {k : Nat} {s s' : State Val} (h : Consumed strtod k s s') :
    s'.weight ≤ s.weight := by
  rw [weight_congr h.1 h.2]
  exact weight_advance_le strtod k s

theorem Consumed.weight_lt {k : Nat} {s s' : State Val} (h : Consumed strtod k s s')
    (hk : 1 ≤ k) (hc : s.Curtok ≠ tok_eof) : s'.weight < s.weight := by
  rw [weight_congr h.1 h.2]
  obtain ⟨j, rfl⟩ : ∃ j, k = j + 1 := ⟨k - 1, by omega⟩
  exact lt_of_le_of_lt (weight_advance_le strtod j _) (weight_getNextToken_lt strtod s hc)

theorem Consumed.eprint {k : Nat} {s s' : State Val} (msg : String)
    (h : Consumed strtod k s s') : Consumed strtod k s (eprint msg s') := h

theorem Consumed.step {k : Nat} {s s' : State Val}
    (h : Consumed strtod k s s') : Consumed strtod (k + 1) s (getNextToken strtod s') :=
  h.append strtod (Consumed.one strtod s')

theorem Consumed.after {k : Nat} {s s' : State Val}
    (h : Consumed strtod k (getNextToken strtod s) s') : Consumed strtod (1 + k) s s' :=
  (Consumed.one strtod s).append strtod h

theorem Consumed.lookup (s : State Val) :
    Consumed strtod 0 s (getTokPrecedence s).2 :=
  ⟨(getTokPrecedence_same s).1, (getTokPrecedence_same s).2.1⟩

/-- Every parsing function moves the lexer only by calls of `getNextToken` -/
theorem parse_consumed (n : Nat) :
    (∀ (s : State Val) r s', ParseParenExpr strtod n s = some (r, s') →
      ∃ k, 1 ≤ k ∧ Consumed strtod k s s') ∧
    (∀ A (s : State Val) r s', ParseIdentifierExpr.args strtod n A s = some (r, s') →
      ∃ k, Consumed strtod k s s' ∧ (r ≠ none → 1 ≤ k)) ∧
    (∀ (s : State Val) r s', ParseIdentifierExpr strtod n s = some (r, s') →
      ∃ k, 1 ≤ k ∧ Consumed strtod k s s') ∧
    (∀ (s : State Val) r s', ParsePrimary strtod n s = some (r, s') →
      ∃ k, Consumed strtod k s s' ∧ (r ≠ none → 1 ≤ k)) ∧
    (∀ E L (s : State Val) r s', ParseBinOpRHS strtod n E L s = some (r, s') →
      ∃ k, Consumed strtod k s s') ∧
    (∀ (s : State Val) r s', ParseExpression strtod n s = some (r, s') →
      ∃ k, Consumed strtod k s s' ∧ (r ≠ none → 1 ≤ k)) := by
  induction n with
  | zero =>
    refine ⟨?_, ?_, ?_, ?_, ?_, ?_⟩ <;> intros <;> rename_i h <;>
      simp [ParseParenExpr, ParseIdentifierExpr.args, ParseIdentifierExpr, ParsePrimary,
        ParseBinOpRHS, ParseExpression] at h
  | succ n ih =>
    obtain ⟨ihParen, ihArgs, ihIdent, ihPrim, ihRHS, ihExpr⟩ := ih
    refine ⟨?_, ?_, ?_, ?_, ?_, ?_⟩
    · intro s r s' h
      simp only [ParseParenExpr] at h
      split at h
      · cases h
      · rename_i s1 he
        cases h
        obtain ⟨k, hk, _⟩ := ihExpr _ _ _ he
        exact ⟨1 + k, by omega, hk.after strtod⟩
      · rename_i V s1 he
        obtain ⟨k, hk, _⟩ := ihExpr _ _ _ he
        split at h
        · cases h
          exact ⟨1 + k, by omega, (hk.after strtod).eprint strtod _⟩
        · cases h
          exact ⟨1 + k + 1, by omega, (hk.after strtod).step strtod⟩
    · intro A s r s' h
      simp only [ParseIdentifierExpr.args] at h
      split at h
      · cases h
      · rename_i s1 he
        cases h
        obtain ⟨k, hk, _⟩ := ihExpr _ _ _ he
        exact ⟨k, hk, fun hh => absurd rfl hh⟩
      · rename_i Arg s1 he
        obtain ⟨k, hk, hk1⟩ := ihExpr _ _ _ he
        have hk1 := hk1 (by simp)
        split at h
        · cases h
          exact ⟨k, hk, fun _ => hk1⟩
        · split at h
          · cases h
            exact ⟨k, hk.eprint strtod _, fun _ => hk1⟩
          · obtain ⟨j, hj, _⟩ := ihArgs _ _ _ _ h
            exact ⟨k + 1 + j, (hk.step strtod).append strtod hj, fun _ => by omega⟩
    · intro s r s' h
      simp only [ParseIdentifierExpr] at h
      split at h
      · cases h
        exact ⟨1, le_refl 1, Consumed.one strtod s⟩
      · split at h
        · split at h
          · cases h
          · rename_i s1 he
            cases h
            obtain ⟨k, hk, _⟩ := ihArgs _ _ _ _ he
            exact ⟨1 + (1 + k), by omega, (hk.after strtod).after strtod⟩
          · rename_i Args s1 he
            cases h
            obtain ⟨k, hk, _⟩ := ihArgs _ _ _ _ he
            exact ⟨1 + (1 + k) + 1, by omega, ((hk.after strtod).after strtod).step strtod⟩
        · cases h
          exact ⟨1 + 1 + 1, by omega,
            ((Consumed.one strtod s).step strtod).step strtod⟩
    · intro s r s' h
      simp only [ParsePrimary] at h
      split at h
      · obtain ⟨k, hk1, hk⟩ := ihIdent _ _ _ h
        exact ⟨k, hk, fun _ => hk1⟩
      · split at h
        · simp only [ParseNumberExpr, Option.some.injEq, Prod.mk.injEq] at h
          obtain ⟨_, rfl⟩ := h
          exact ⟨1, Consumed.one strtod s, fun _ => le_refl 1⟩
        · split at h
          · obtain ⟨k, hk1, hk⟩ := ihParen _ _ _ h
            exact ⟨k, hk, fun _ => hk1⟩
          · simp only [Error, Option.some.injEq, Prod.mk.injEq] at h
            obtain ⟨rfl, rfl⟩ := h
            exact ⟨0, (Consumed.zero strtod s).eprint strtod _, fun hh => absurd rfl hh⟩
    · intro E L s r s' h
      rw [ParseBinOpRHS] at h
      have h0 := Consumed.lookup strtod s
      generalize getTokPrecedence s = q at h h0
      obtain ⟨TokPrec, s0⟩ := q
      simp only at h h0
      split at h
      · cases h
        exact ⟨0, h0⟩
      · split at h
        · cases h
        · rename_i s1 he
          cases h
          obtain ⟨k, hk, _⟩ := ihPrim _ _ _ he
          exact ⟨0 + (1 + k), h0.append strtod (hk.after strtod)⟩
        · rename_i RHS s1 he
          obtain ⟨k, hk, _⟩ := ihPrim _ _ _ he
          have h1 := Consumed.lookup strtod s1
          generalize getTokPrecedence s1 = q at h h1
          obtain ⟨NextPrec, s2⟩ := q
          simp only at h h1
          have h2 : Consumed strtod (0 + (1 + k) + 0) s s2 :=
            (h0.append strtod (hk.after strtod)).append strtod h1
          split at h
          · split at h
            · cases h
            · rename_i s3 he2
              cases h
              obtain ⟨j, hj⟩ := ihRHS _ _ _ _ _ he2
              exact ⟨_, h2.append strtod hj⟩
            · rename_i R' s3 he2
              obtain ⟨j, hj⟩ := ihRHS _ _ _ _ _ he2
              obtain ⟨i, hi⟩ := ihRHS _ _ _ _ _ h
              exact ⟨_, (h2.append strtod hj).append strtod hi⟩
          · obtain ⟨i, hi⟩ := ihRHS _ _ _ _ _ h
            exact ⟨_, h2.append strtod hi⟩
    · intro s r s' h
      simp only [ParseExpression] at h
      split at h
      · cases h
      · rename_i s1 he
        cases h
        obtain ⟨k, hk, _⟩ := ihPrim _ _ _ he
        exact ⟨k, hk, fun hh => absurd rfl hh⟩
      · rename_i LHS s1 he
        obtain ⟨k, hk, hk1⟩ := ihPrim _ _ _ he
        obtain ⟨j, hj⟩ := ihRHS _ _ _ _ _ h
        exact ⟨k + j, hk.append strtod hj, fun _ => by have := hk1 (by simp); omega⟩

theorem weight_getNextToken_cases (s : State Val) :
    (getNextToken strtod s).weight < s.weight ∨ (getNextToken strtod s).Curtok = tok_eof := by
  rcases gettok_remaining strtod s.lex with h | ⟨h1, h2⟩
  · left
    simp only [State.weight, getNextToken_eq]
    split <;> split <;> omega
  · right
    simp only [getNextToken_eq, h2]

/-- A token which starts no primary expression is rejected by `ParsePrimary`, which prints its
message and consumes nothing. -/
theorem ParsePrimary_reject (s : State Val) (h1 : s.Curtok ≠ tok_identifier)
    (h2 : s.Curtok ≠ tok_number) (h3 : s.Curtok ≠ ch '(') (n : Nat) :
    ParsePrimary strtod (n + 1) s = some (Error "unknow token!" s) := by
  simp [ParsePrimary, h1, h2, h3]

theorem ParseExpression_reject (s : State Val) (h1 : s.Curtok ≠ tok_identifier)
    (h2 : s.Curtok ≠ tok_number) (h3 : s.Curtok ≠ ch '(') (n : Nat) :
    ParseExpression strtod (n + 2) s = some (Error "unknow token!" s) := by
  rw [ParseExpression, ParsePrimary_reject strtod s h1 h2 h3]
  rfl

theorem ParsePrimary_eof (s : State Val) (h : s.Curtok = tok_eof) (n : Nat) :
    ParsePrimary strtod (n + 1) s = some (Error "unknow token!" s) :=
  ParsePrimary_reject strtod s (by rw [h]; decide) (by rw [h]; decide) (by rw [h]; decide) n

theorem ParseExpression_eof (s : State Val) (h : s.Curtok = tok_eof) (n : Nat) :
    ParseExpression strtod (n + 2) s = some (Error "unknow token!" s) :=
  ParseExpression_reject strtod s (by rw [h]; decide) (by rw [h]; decide) (by rw [h]; decide) n

theorem weight_getTokPrecedence (s : State Val) : (getTokPrecedence s).2.weight = s.weight :=
  weight_congr (getTokPrecedence_same s).1 (getTokPrecedence_same s).2.1

/-- Every parsing function returns when the fuel is at least three times the weight of the
state, plus a constant. -/
theorem parse_terminates (n : Nat) :
    (∀ (s : State Val), 3 * s.weight + 3 ≤ n → ∃ r, ParseParenExpr strtod n s = some r) ∧
    (∀ A (s : State Val), 3 * s.weight + 6 ≤ n →
      ∃ r, ParseIdentifierExpr.args strtod n A s = some r) ∧
    (∀ (s : State Val), 3 * s.weight + 3 ≤ n → ∃ r, ParseIdentifierExpr strtod n s = some r) ∧
    (∀ (s : State Val), 3 * s.weight + 4 ≤ n → ∃ r, ParsePrimary strtod n s = some r) ∧
    (∀ E L (s : State Val), 3 * s.weight + 2 ≤ n → ∃ r, ParseBinOpRHS strtod n E L s = some r) ∧
    (∀ (s : State Val), 3 * s.weight + 5 ≤ n → ∃ r, ParseExpression strtod n s = some r) := by
  induction n with
  | zero =>
    refine ⟨?_, ?_, ?_, ?_, ?_, ?_⟩ <;> intros <;> omega
  | succ n ih =>
    obtain ⟨ihParen, ihArgs, ihIdent, ihPrim, ihRHS, ihExpr⟩ := ih
    refine ⟨?_, ?_, ?_, ?_, ?_, ?_⟩
    · intro s hn
      simp only [ParseParenExpr]
      have hex : ∃ r, ParseExpression strtod n (getNextToken strtod s) = some r := by
        rcases weight_getNextToken_cases strtod s with hw | he
        · exact ihExpr _ (by omega)
        · obtain ⟨m, rfl⟩ : ∃ m, n = m + 2 := ⟨n - 2, by omega⟩
          exact ⟨_, ParseExpression_eof strtod _ he m⟩
      obtain ⟨⟨r, s1⟩, he⟩ := hex
      rw [he]
      cases r with
      | none => exact ⟨_, rfl⟩
      | some V =>
        simp only
        split <;> exact ⟨_, rfl⟩
    · intro A s hn
      simp only [ParseIdentifierExpr.args]
      obtain ⟨⟨r, s1⟩, he⟩ := ihExpr s (by omega)
      rw [he]
      cases r with
      | none => exact ⟨_, rfl⟩
      | some Arg =>
        simp only
        split
        · exact ⟨_, rfl⟩
        · split
          · exact ⟨_, rfl⟩
          · rename_i _ hc
            have hc : s1.Curtok = ch ',' := by simpa using hc
            obtain ⟨k, hk, _⟩ := (parse_consumed strtod n).2.2.2.2.2 _ _ _ he
            have h1 := hk.weight_le strtod
            have h2 := weight_getNextToken_lt strtod s1 (by rw [hc]; decide)
            exact ihArgs _ _ (by omega)
    · intro s hn
      simp only [ParseIdentifierExpr]
      split
      · exact ⟨_, rfl⟩
      · rename_i hc
        have hc : (getNextToken strtod s).Curtok = ch '(' := by simpa using hc
        have h1 : (getNextToken strtod s).weight < s.weight := by
          rcases weight_getNextToken_cases strtod s with hw | he
          · exact hw
          · rw [hc] at he; exact absurd he (by decide)
        have h2 := weight_getNextToken_lt strtod (getNextToken strtod s) (by rw [hc]; decide)
        split
        · obtain ⟨⟨r, s1⟩, he⟩ := ihArgs [] (getNextToken strtod (getNextToken strtod s))
            (by omega)
          rw [he]
          cases r <;> exact ⟨_, rfl⟩
        · exact ⟨_, rfl⟩
    · intro s hn
      simp only [ParsePrimary]
      split
      · exact ihIdent s (by omega)
      · split
        · exact ⟨_, rfl⟩
        · split
          · exact ihParen s (by omega)
          · exact ⟨_, rfl⟩
    · intro E L s hn
      rw [ParseBinOpRHS]
      have h0 := weight_getTokPrecedence s
      generalize getTokPrecedence s = q at h0
      obtain ⟨TokPrec, s0⟩ := q
      simp only at h0 ⊢
      split
      · exact ⟨_, rfl⟩
      · rcases weight_getNextToken_cases strtod s0 with hw | he
        · obtain ⟨⟨r, s1⟩, he⟩ := ihPrim (getNextToken strtod s0) (by omega)
          rw [he]
          cases r with
          | none => exact ⟨_, rfl⟩
          | some RHS =>
            simp only
            obtain ⟨k, hk, _⟩ := (parse_consumed strtod n).2.2.2.1 _ _ _ he
            have h1 := hk.weight_le strtod
            have h2 := weight_getTokPrecedence s1
            generalize getTokPrecedence s1 = q at h2
            obtain ⟨NextPrec, s2⟩ := q
            simp only at h2 ⊢
            split
            · obtain ⟨⟨r, s3⟩, he2⟩ := ihRHS (TokPrec + 1) RHS s2 (by omega)
              rw [he2]
              cases r with
              | none => exact ⟨_, rfl⟩
              | some R' =>
                simp only
                obtain ⟨j, hj⟩ := (parse_consumed strtod n).2.2.2.2.1 _ _ _ _ _ he2
                have h3 := hj.weight_le strtod
                exact ihRHS _ _ _ (by omega)
            · exact ihRHS _ _ _ (by omega)
        · obtain ⟨m, rfl⟩ : ∃ m, n = m + 1 := ⟨n - 1, by omega⟩
          rw [ParsePrimary_eof strtod _ he m]
          exact ⟨_, rfl⟩
    · intro s hn
      simp only [ParseExpression]
      obtain ⟨⟨r, s1⟩, he⟩ := ihPrim s (by omega)
      rw [he]
      cases r with
      | none => exact ⟨_, rfl⟩
      | some LHS =>
        simp only
        obtain ⟨k, hk, _⟩ := (parse_consumed strtod n).2.2.2.1 _ _ _ he
        have h1 := hk.weight_le strtod
        exact ihRHS _ _ _ (by omega)

/-- More fuel does not change a result. -/
theorem parse_mono (n : Nat) :
    (∀ (s : State Val) r m, n ≤ m → ParseParenExpr strtod n s = some r →
      ParseParenExpr strtod m s = some r) ∧
    (∀ A (s : State Val) r m, n ≤ m → ParseIdentifierExpr.args strtod n A s = some r →
      ParseIdentifierExpr.args strtod m A s = some r) ∧
    (∀ (s : State Val) r m, n ≤ m → ParseIdentifierExpr strtod n s = some r →
      ParseIdentifierExpr strtod m s = some r) ∧
    (∀ (s : State Val) r m, n ≤ m → ParsePrimary strtod n s = some r →
      ParsePrimary strtod m s = some r) ∧
    (∀ E L (s : State Val) r m, n ≤ m → ParseBinOpRHS strtod n E L s = some r →
      ParseBinOpRHS strtod m E L s = some r) ∧
    (∀ (s : State Val) r m, n ≤ m → ParseExpression strtod n s = some r →
      ParseExpression strtod m s = some r) := by
  induction n with
  | zero =>
    refine ⟨?_, ?_, ?_, ?_, ?_, ?_⟩ <;> intros <;> rename_i h <;>
      simp [ParseParenExpr, ParseIdentifierExpr.args, ParseIdentifierExpr, ParsePrimary,
        ParseBinOpRHS, ParseExpression] at h
  | succ n ih =>
    obtain ⟨ihParen, ihArgs, ihIdent, ihPrim, ihRHS, ihExpr⟩ := ih
    refine ⟨?_, ?_, ?_, ?_, ?_, ?_⟩
    · intro s r m hm h
      obtain ⟨m, rfl⟩ : ∃ k, m = k + 1 := ⟨m - 1, by omega⟩
      have hm : n ≤ m := by omega
      simp only [ParseParenExpr] at h ⊢
      split at h
      · cases h
      · rename_i s1 he
        rw [ihExpr _ _ m hm he]
        exact h
      · rename_i V s1 he
        rw [ihExpr _ _ m hm he]
        exact h
    · intro A s r m hm h
      obtain ⟨m, rfl⟩ : ∃ k, m = k + 1 := ⟨m - 1, by omega⟩
      have hm : n ≤ m := by omega
      simp only [ParseIdentifierExpr.args] at h ⊢
      split at h
      · cases h
      · rename_i s1 he
        rw [ihExpr _ _ m hm he]
        exact h
      · rename_i Arg s1 he
        rw [ihExpr _ _ m hm he]
        simp only
        split
        · rename_i hc; simpa [hc] using h
        · rename_i hc
          split
          · rename_i hc2; simpa [hc, hc2] using h
          · rename_i hc2
            simp only [hc, hc2, if_false] at h
            exact ihArgs _ _ _ m hm h
    · intro s r m hm h
      obtain ⟨m, rfl⟩ : ∃ k, m = k + 1 := ⟨m - 1, by omega⟩
      have hm : n ≤ m := by omega
      simp only [ParseIdentifierExpr] at h ⊢
      split at h
      · rename_i hc
        rw [if_pos hc]
        exact h
      · rename_i hc
        rw [if_neg hc]
        split at h
        · rename_i hc2
          rw [if_pos hc2]
          split at h
          · cases h
          · rename_i s1 he
            rw [ihArgs _ _ _ m hm he]
            exact h
          · rename_i Args s1 he
            rw [ihArgs _ _ _ m hm he]
            exact h
        · rename_i hc2
          rw [if_neg hc2]
          exact h
    · intro s r m hm h
      obtain ⟨m, rfl⟩ : ∃ k, m = k + 1 := ⟨m - 1, by omega⟩
      have hm : n ≤ m := by omega
      simp only [ParsePrimary] at h ⊢
      split
      · rename_i hc
        simp only [hc, if_true] at h
        exact ihIdent _ _ m hm h
      · rename_i hc
        simp only [hc, if_false] at h
        split
        · rename_i hc2; simpa [hc2] using h
        · rename_i hc2
          simp only [hc2, if_false] at h
          split
          · rename_i hc3
            simp only [hc3, if_true] at h
            exact ihParen _ _ m hm h
          · rename_i hc3; simpa [hc3] using h
    · intro E L s r m hm h
      obtain ⟨m, rfl⟩ : ∃ k, m = k + 1 := ⟨m - 1, by omega⟩
      have hm : n ≤ m := by omega
      rw [ParseBinOpRHS] at h ⊢
      generalize getTokPrecedence s = q at h ⊢
      obtain ⟨TokPrec, s0⟩ := q
      simp only at h ⊢
      split
      · rename_i hc; simpa [hc] using h
      · rename_i hc
        simp only [hc, if_false] at h
        split at h
        · cases h
        · rename_i s1 he
          rw [ihPrim _ _ m hm he]
          exact h
        · rename_i RHS s1 he
          rw [ihPrim _ _ m hm he]
          simp only
          generalize getTokPrecedence s1 = q at h ⊢
          obtain ⟨NextPrec, s2⟩ := q
          simp only at h ⊢
          split
          · rename_i hc2
            simp only [hc2, if_true] at h
            split at h
            · cases h
            · rename_i s3 he2
              rw [ihRHS _ _ _ _ m hm he2]
              exact h
            · rename_i R' s3 he2
              rw [ihRHS _ _ _ _ m hm he2]
              exact ihRHS _ _ _ _ m hm h
          · rename_i hc2
            simp only [hc2, if_false] at h
            exact ihRHS _ _ _ _ m hm h
    · intro s r m hm h
      obtain ⟨m, rfl⟩ : ∃ k, m = k + 1 := ⟨m - 1, by omega⟩
      have hm : n ≤ m := by omega
      simp only [ParseExpression] at h ⊢
      split at h
      · cases h
      · rename_i s1 he
        rw [ihPrim _ _ m hm he]
        exact h
      · rename_i LHS s1 he
        rw [ihPrim _ _ m hm he]
        exact ihRHS _ _ _ _ m hm h

end Progress

/-! ## Prototypes and the driver -/

theorem exists_of_map_eq_some {α β : Type} {o : Option α} {f : α → β} {b : β}
    (h : o.map f = some b) : ∃ a, o = some a ∧ f a = b := by
  cases o with
  | none => simp at h
  | some a => exact ⟨a, rfl, by simpa using h⟩

section Driver

variable {Val : Type} (strtod : List Int → Val)

theorem ParsePrototype_args_consumed (n : Nat) :
    ∀ A (s : State Val) r s', ParsePrototype.args strtod n A s = some (r, s') →
      ∃ k, 1 ≤ k ∧ Consumed strtod k s s' := by
  induction n with
  | zero => intro A s r s' h; simp [ParsePrototype.args] at h
  | succ n ih =>
    intro A s r s' h
    simp only [ParsePrototype.args] at h
    split at h
    · obtain ⟨k, _, hk⟩ := ih _ _ _ _ h
      exact ⟨1 + k, by omega, hk.after strtod⟩
    · cases h
      exact ⟨1, le_refl 1, Consumed.one strtod s⟩

theorem ParsePrototype_args_terminates (n : Nat) :
    ∀ A (s : State Val), s.weight + 1 ≤ n → ∃ r, ParsePrototype.args strtod n A s = some r := by
  induction n with
  | zero => intro A s h; omega
  | succ n ih =>
    intro A s h
    simp only [ParsePrototype.args]
    split
    · rename_i hc
      have h1 : (getNextToken strtod s).weight < s.weight := by
        rcases weight_getNextToken_cases strtod s with hw | he
        · exact hw
        · rw [hc] at he; exact absurd he (by decide)
      exact ih _ _ (by omega)
    · exact ⟨_, rfl⟩

theorem ParsePrototype_consumed (n : Nat) (s : State Val) r s'
    (h : ParsePrototype strtod n s = some (r, s')) : ∃ k, Consumed strtod k s s' := by
  simp only [ParsePrototype] at h
  split at h
  · cases h
    exact ⟨0, Consumed.zero strtod s⟩
  · split at h
    · cases h
      exact ⟨1, Consumed.one strtod s⟩
    · split at h
      · cases h
      · rename_i A s1 he
        obtain ⟨k, _, hk⟩ := ParsePrototype_args_consumed strtod n _ _ _ _ he
        split at h
        · cases h
          exact ⟨1 + k, hk.after strtod⟩
        · cases h
          exact ⟨1 + k + 1, (hk.after strtod).step strtod⟩

theorem ParsePrototype_terminates (n : Nat) (s : State Val) (hn : s.weight + 1 ≤ n) :
    ∃ r, ParsePrototype strtod n s = some r := by
  simp only [ParsePrototype]
  split
  · exact ⟨_, rfl⟩
  · split
    · exact ⟨_, rfl⟩
    · have := weight_getNextToken_le strtod s
      obtain ⟨⟨A, s1⟩, he⟩ := ParsePrototype_args_terminates strtod n []
        (getNextToken strtod s) (by omega)
      rw [he]
      simp only
      split <;> exact ⟨_, rfl⟩

theorem ParseDefinition_consumed (n : Nat) (s : State Val) r s'
    (h : ParseDefinition strtod n s = some (r, s')) : ∃ k, 1 ≤ k ∧ Consumed strtod k s s' := by
  simp only [ParseDefinition] at h
  split at h
  · cases h
  · rename_i s1 he
    cases h
    obtain ⟨k, hk⟩ := ParsePrototype_consumed strtod _ _ _ _ he
    exact ⟨1 + k, by omega, hk.after strtod⟩
  · rename_i P s1 he
    obtain ⟨k, hk⟩ := ParsePrototype_consumed strtod _ _ _ _ he
    split at h
    · cases h
    · rename_i E s2 he2
      cases h
      obtain ⟨j, hj, _⟩ := (parse_consumed strtod n).2.2.2.2.2 _ _ _ he2
      exact ⟨1 + k + j, by omega, (hk.after strtod).append strtod hj⟩
    · rename_i s2 he2
      cases h
      obtain ⟨j, hj, _⟩ := (parse_consumed strtod n).2.2.2.2.2 _ _ _ he2
      exact ⟨1 + k + j, by omega, (hk.after strtod).append strtod hj⟩

theorem ParseDefinition_terminates (n : Nat) (s : State Val) (hn : 3 * s.weight + 5 ≤ n) :
    ∃ r, ParseDefinition strtod n s = some r := by
  simp only [ParseDefinition]
  have h1 := weight_getNextToken_le strtod s
  obtain ⟨⟨r, s1⟩, he⟩ := ParsePrototype_terminates strtod n (getNextToken strtod s) (by omega)
  rw [he]
  cases r with
  | none => exact ⟨_, rfl⟩
  | some P =>
    simp only
    obtain ⟨k, hk⟩ := ParsePrototype_consumed strtod _ _ _ _ he
    have h2 := hk.weight_le strtod
    obtain ⟨⟨r, s2⟩, he2⟩ := (parse_terminates strtod n).2.2.2.2.2 s1 (by omega)
    rw [he2]
    cases r <;> exact ⟨_, rfl⟩

theorem ParseExtern_consumed (n : Nat) (s : State Val) r s'
    (h : ParseExtern strtod n s = some (r, s')) : ∃ k, 1 ≤ k ∧ Consumed strtod k s s' := by
  obtain ⟨k, hk⟩ := ParsePrototype_consumed strtod _ _ _ _ h
  exact ⟨1 + k, by omega, hk.after strtod⟩

theorem ParseExtern_terminates (n : Nat) (s : State Val) (hn : s.weight + 1 ≤ n) :
    ∃ r, ParseExtern strtod n s = some r := by
  have h1 := weight_getNextToken_le strtod s
  exact ParsePrototype_terminates strtod n (getNextToken strtod s) (by omega)

theorem ParseTopLevelExpr_consumed (n : Nat) (s : State Val) r s'
    (h : ParseTopLevelExpr strtod n s = some (r, s')) :
    ∃ k, Consumed strtod k s s' ∧ (r ≠ none → 1 ≤ k) := by
  simp only [ParseTopLevelExpr] at h
  split at h
  · cases h
  · rename_i E s1 he
    cases h
    obtain ⟨k, hk, hk1⟩ := (parse_consumed strtod n).2.2.2.2.2 _ _ _ he
    exact ⟨k, hk, fun _ => hk1 (by simp)⟩
  · rename_i s1 he
    cases h
    obtain ⟨k, hk, _⟩ := (parse_consumed strtod n).2.2.2.2.2 _ _ _ he
    exact ⟨k, hk, fun hh => absurd rfl hh⟩

theorem ParseTopLevelExpr_terminates (n : Nat) (s : State Val) (hn : 3 * s.weight + 5 ≤ n) :
    ∃ r, ParseTopLevelExpr strtod n s = some r := by
  simp only [ParseTopLevelExpr]
  obtain ⟨⟨r, s2⟩, he2⟩ := (parse_terminates strtod n).2.2.2.2.2 s (by omega)
  rw [he2]
  cases r <;> exact ⟨_, rfl⟩

/-- One turn of the loop of `MainLoop` consumes at least one token. -/
theorem dispatch_consumed (n : Nat) (s : State Val) s'
    (h : MainLoop.dispatch strtod n s = some s') : ∃ k, 1 ≤ k ∧ Consumed strtod k s s' := by
  simp only [MainLoop.dispatch] at h
  split at h
  · cases h
    exact ⟨1, le_refl 1, Consumed.one strtod s⟩
  · split at h
    · simp only [HandleDefinition] at h
      split at h
      · cases h
      · rename_i F s1 he
        cases h
        obtain ⟨k, hk1, hk⟩ := ParseDefinition_consumed strtod _ _ _ _ he
        exact ⟨k, hk1, hk.eprint strtod _⟩
      · rename_i s1 he
        cases h
        obtain ⟨k, hk1, hk⟩ := ParseDefinition_consumed strtod _ _ _ _ he
        exact ⟨k + 1, by omega, hk.step strtod⟩
    · split at h
      · simp only [HandleExtern] at h
        split at h
        · cases h
        · rename_i F s1 he
          cases h
          obtain ⟨k, hk1, hk⟩ := ParseExtern_consumed strtod _ _ _ _ he
          exact ⟨k, hk1, hk.eprint strtod _⟩
        · rename_i s1 he
          cases h
          obtain ⟨k, hk1, hk⟩ := ParseExtern_consumed strtod _ _ _ _ he
          exact ⟨k + 1, by omega, hk.step strtod⟩
      · simp only [HandleTopLevelExpression] at h
        split at h
        · cases h
        · rename_i F s1 he
          cases h
          obtain ⟨k, hk, hk1⟩ := ParseTopLevelExpr_consumed strtod _ _ _ _ he
          exact ⟨k, hk1 (by simp), hk.eprint strtod _⟩
        · rename_i s1 he
          cases h
          obtain ⟨k, hk, _⟩ := ParseTopLevelExpr_consumed strtod _ _ _ _ he
          exact ⟨k + 1, by omega, hk.step strtod⟩

theorem dispatch_terminates (n : Nat) (s : State Val) (hn : 3 * s.weight + 5 ≤ n) :
    ∃ s', MainLoop.dispatch strtod n s = some s' := by
  simp only [MainLoop.dispatch]
  split
  · exact ⟨_, rfl⟩
  · split
    · simp only [HandleDefinition]
      obtain ⟨⟨r, s1⟩, he⟩ := ParseDefinition_terminates strtod n s hn
      rw [he]
      cases r <;> exact ⟨_, rfl⟩
    · split
      · simp only [HandleExtern]
        obtain ⟨⟨r, s1⟩, he⟩ := ParseExtern_terminates strtod n s (by omega)
        rw [he]
        cases r <;> exact ⟨_, rfl⟩
      · simp only [HandleTopLevelExpression]
        obtain ⟨⟨r, s1⟩, he⟩ := ParseTopLevelExpr_terminates strtod n s hn
        rw [he]
        cases r <;> exact ⟨_, rfl⟩

theorem MainLoop_returns_at_eof (n : Nat) :
    ∀ (s s' : State Val), MainLoop strtod n s = some s' → s'.Curtok = tok_eof := by
  induction n with
  | zero => intro s s' h; simp [MainLoop] at h
  | succ n ih =>
    intro s s' h
    simp only [MainLoop] at h
    generalize (if s.Curtok = ch ';' then eprint "Input<< " s else eprint "Output>> " s)
      = s0 at h
    split at h
    · rename_i hc
      cases h
      exact hc
    · split at h
      · cases h
      · exact ih _ _ h

theorem MainLoop_terminates_aux (n : Nat) :
    ∀ (s : State Val), 3 * s.weight + 6 ≤ n → ∃ s', MainLoop strtod n s = some s' := by
  induction n with
  | zero => intro s h; omega
  | succ n ih =>
    intro s hn
    simp only [MainLoop]
    generalize hs0 : (if s.Curtok = ch ';' then eprint "Input<< " s else eprint "Output>> " s)
      = s0
    have hw : s0.weight = s.weight := by
      rw [← hs0]; split <;> rfl
    split
    · exact ⟨_, rfl⟩
    · rename_i hc
      obtain ⟨s1, he⟩ := dispatch_terminates strtod n s0 (by omega)
      rw [he]
      simp only
      obtain ⟨k, hk1, hk⟩ := dispatch_consumed strtod _ _ _ he
      have := hk.weight_lt strtod hk1 hc
      exact ih _ (by omega)

/-- The loop of `ParsePrototype` over `k` identifier tokens collects their texts in order and
is left at the first token which is not an identifier. -/
theorem ParsePrototype_args_identifiers (k : Nat) :
    ∀ (A : List (List Int)) (s : State Val) (n : Nat), k + 1 ≤ n →
      (∀ i, i < k → (advance strtod (i + 1) s).Curtok = tok_identifier) →
      (advance strtod (k + 1) s).Curtok ≠ tok_identifier →
      ParsePrototype.args strtod n A s =
        some (A ++ (List.range k).map (fun i => (advance strtod (i + 1) s).lex.IdentifierStr),
          advance strtod (k + 1) s) := by
  induction k with
  | zero =>
    intro A s n hn _ hend
    obtain ⟨m, rfl⟩ : ∃ m, n = m + 1 := ⟨n - 1, by omega⟩
    have hend' : (getNextToken strtod s).Curtok ≠ tok_identifier := hend
    simp only [ParsePrototype.args, hend', if_false, List.range_zero, List.map_nil,
      List.append_nil]
    rfl
  | succ k ih =>
    intro A s n hn hid hend
    obtain ⟨m, rfl⟩ : ∃ m, n = m + 1 := ⟨n - 1, by omega⟩
    have h0 : (getNextToken strtod s).Curtok = tok_identifier := hid 0 (Nat.succ_pos k)
    have e : ∀ i, advance strtod (i + 1) (getNextToken strtod s) = advance strtod (i + 1 + 1) s :=
      fun i => rfl
    simp only [ParsePrototype.args, h0, if_true]
    rw [ih _ (getNextToken strtod s) m (by omega)
      (fun i hi => by rw [e]; exact hid (i + 1) (by omega))
      (by rw [e]; exact hend)]
    rw [List.range_succ_eq_map, List.map_cons, List.map_map, List.append_assoc]
    rfl

theorem ParseExpression_success_ne_rparen (fuel : Nat) (s : State Val) (t : ExprAST Val)
    (s' : State Val) (h : ParseExpression strtod fuel s = some (some t, s')) :
    s.Curtok ≠ ch ')' := by
  intro hc
  have h1 : s.Curtok ≠ tok_identifier := by rw [hc]; decide
  have h2 : s.Curtok ≠ tok_number := by rw [hc]; decide
  have h3 : s.Curtok ≠ ch '(' := by rw [hc]; decide
  have := (parse_mono strtod fuel).2.2.2.2.2 s _ (fuel + 2) (by omega) h
  rw [ParseExpression_reject strtod s h1 h2 h3] at this
  simp [Error] at this

theorem ArgsFrom.first_ne_rparen {s s' : State Val} {ts : List (ExprAST Val)}
    (h : ArgsFrom strtod s ts s') : s.Curtok ≠ ch ')' := by
  cases h with
  | last _ _ _ hp _ =>
    obtain ⟨fuel, hp⟩ := hp
    exact ParseExpression_success_ne_rparen strtod fuel _ _ _ hp
  | more _ _ _ _ _ hp _ _ =>
    obtain ⟨fuel, hp⟩ := hp
    exact ParseExpression_success_ne_rparen strtod fuel _ _ _ hp

/-- The loop of `ParseIdentifierExpr` collects the arguments in order and is left at `)`. -/
theorem ParseIdentifierExpr_args_of_ArgsFrom {s s' : State Val} {ts : List (ExprAST Val)}
    (h : ArgsFrom strtod s ts s') :
    s'.Curtok = ch ')' ∧ ∀ A, ∃ N, ∀ n, N ≤ n →
      ParseIdentifierExpr.args strtod n A s = some (some (A ++ ts), s') := by
  induction h with
  | last s t s' hp hc =>
    refine ⟨hc, fun A => ?_⟩
    obtain ⟨fuel, hp⟩ := hp
    refine ⟨fuel + 1, fun n hn => ?_⟩
    obtain ⟨m, rfl⟩ : ∃ m, n = m + 1 := ⟨n - 1, by omega⟩
    have := (parse_mono strtod fuel).2.2.2.2.2 s _ m (by omega) hp
    simp [ParseIdentifierExpr.args, this, hc]
  | more s t s' ts s'' hp hc _ ih =>
    refine ⟨ih.1, fun A => ?_⟩
    obtain ⟨fuel, hp⟩ := hp
    obtain ⟨N, hN⟩ := ih.2 (A ++ [t])
    refine ⟨max fuel N + 1, fun n hn => ?_⟩
    obtain ⟨m, rfl⟩ : ∃ m, n = m + 1 := ⟨n - 1, by omega⟩
    have h1 := (parse_mono strtod fuel).2.2.2.2.2 s _ m (by omega) hp
    have h2 := hN m (by omega)
    have c1 : s'.Curtok ≠ ch ')' := by rw [hc]; decide
    simp [ParseIdentifierExpr.args, h1, hc, h2, ch_comma, ch_rparen]

theorem Reported.success {s s' : State Val} (h : s'.stderr = s.stderr) : Reported true s s' := h

theorem Reported.error (msg : String) (s : State Val) :
    Reported false s (eprint ("Error: " ++ msg ++ "\n") s) := ⟨msg, rfl⟩

theorem Reported.from {ok : Bool} {s s1 s' : State Val} (h1 : s1.stderr = s.stderr)
    (h : Reported ok s1 s') : Reported ok s s' := by
  unfold Reported at *
  rw [← h1]
  exact h

theorem Reported.next {ok : Bool} {s s1 s' : State Val} (h : Reported ok s s1)
    (h1 : s'.stderr = s1.stderr) : Reported ok s s' := by
  unfold Reported at *
  rw [h1]
  exact h

theorem Reported.stderr_eq {s s' : State Val} (h : Reported true s s') : s'.stderr = s.stderr := h

theorem getTokPrecedence_stderr (s : State Val) : (getTokPrecedence s).2.stderr = s.stderr :=
  (getTokPrecedence_same s).2.2.1

/-- A parsing function which succeeds prints nothing, and one which fails prints exactly one
error line. -/
theorem parse_reported (n : Nat) :
    (∀ (s : State Val) r s', ParseParenExpr strtod n s = some (r, s') →
      Reported r.isSome s s') ∧
    (∀ A (s : State Val) r s', ParseIdentifierExpr.args strtod n A s = some (r, s') →
      Reported r.isSome s s') ∧
    (∀ (s : State Val) r s', ParseIdentifierExpr strtod n s = some (r, s') →
      Reported r.isSome s s') ∧
    (∀ (s : State Val) r s', ParsePrimary strtod n s = some (r, s') →
      Reported r.isSome s s') ∧
    (∀ E L (s : State Val) r s', ParseBinOpRHS strtod n E L s = some (r, s') →
      Reported r.isSome s s') ∧
    (∀ (s : State Val) r s', ParseExpression strtod n s = some (r, s') →
      Reported r.isSome s s') := by
  induction n with
  | zero =>
    refine ⟨?_, ?_, ?_, ?_, ?_, ?_⟩ <;> intros <;> rename_i h <;>
      simp [ParseParenExpr, ParseIdentifierExpr.args, ParseIdentifierExpr, ParsePrimary,
        ParseBinOpRHS, ParseExpression] at h
  | succ n ih =>
    obtain ⟨ihParen, ihArgs, ihIdent, ihPrim, ihRHS, ihExpr⟩ := ih
    refine ⟨?_, ?_, ?_, ?_, ?_, ?_⟩
    · intro s r s' h
      simp only [ParseParenExpr] at h
      split at h
      · cases h
      · rename_i s1 he
        cases h
        exact (ihExpr _ _ _ he).from rfl
      · rename_i V s1 he
        have h1 : s1.stderr = s.stderr := (ihExpr _ _ _ he).stderr_eq
        split at h
        · cases h
          exact (Reported.error _ s1).from h1
        · cases h
          exact Reported.success h1
    · intro A s r s' h
      simp only [ParseIdentifierExpr.args] at h
      split at h
      · cases h
      · rename_i s1 he
        cases h
        exact ihExpr _ _ _ he
      · rename_i Arg s1 he
        have h1 : s1.stderr = s.stderr := (ihExpr _ _ _ he).stderr_eq
        split at h
        · cases h
          exact Reported.success h1
        · split at h
          · cases h
            exact (Reported.error _ s1).from h1
          · exact (ihArgs _ _ _ _ h).from h1
    · intro s r s' h
      simp only [ParseIdentifierExpr] at h
      split at h
      · cases h
        exact Reported.success rfl
      · split at h
        · split at h
          · cases h
          · rename_i s1 he
            cases h
            exact (ihArgs _ _ _ _ he).from rfl
          · rename_i Args s1 he
            cases h
            exact Reported.success (ihArgs _ _ _ _ he).stderr_eq
        · cases h
          exact Reported.success rfl
    · intro s r s' h
      simp only [ParsePrimary] at h
      split at h
      · exact ihIdent _ _ _ h
      · split at h
        · simp only [ParseNumberExpr, Option.some.injEq, Prod.mk.injEq] at h
          obtain ⟨rfl, rfl⟩ := h
          exact Reported.success rfl
        · split at h
          · exact ihParen _ _ _ h
          · simp only [Error, Option.some.injEq, Prod.mk.injEq] at h
            obtain ⟨rfl, rfl⟩ := h
            exact Reported.error _ s
    · intro E L s r s' h
      rw [ParseBinOpRHS] at h
      have h0 := getTokPrecedence_stderr s
      generalize getTokPrecedence s = q at h h0
      obtain ⟨TokPrec, s0⟩ := q
      simp only at h h0
      split at h
      · cases h
        exact Reported.success h0
      · split at h
        · cases h
        · rename_i s1 he
          cases h
          exact (ihPrim _ _ _ he).from h0
        · rename_i RHS s1 he
          have h1 : s1.stderr = s.stderr := (ihPrim _ _ _ he).stderr_eq.trans h0
          have h2 := getTokPrecedence_stderr s1
          generalize getTokPrecedence s1 = q at h h2
          obtain ⟨NextPrec, s2⟩ := q
          simp only at h h2
          split at h
          · split at h
            · cases h
            · rename_i s3 he2
              cases h
              exact (ihRHS _ _ _ _ _ he2).from (h2.trans h1)
            · rename_i R' s3 he2
              have h3 : s3.stderr = s.stderr :=
                (ihRHS _ _ _ _ _ he2).stderr_eq.trans (h2.trans h1)
              exact (ihRHS _ _ _ _ _ h).from h3
          · exact (ihRHS _ _ _ _ _ h).from (h2.trans h1)
    · intro s r s' h
      simp only [ParseExpression] at h
      split at h
      · cases h
      · rename_i s1 he
        cases h
        exact ihPrim _ _ _ he
      · rename_i LHS s1 he
        exact (ihRHS _ _ _ _ _ h).from (ihPrim _ _ _ he).stderr_eq

theorem ParsePrototype_args_stderr (n : Nat) :
    ∀ A (s : State Val) r s', ParsePrototype.args strtod n A s = some (r, s') →
      s'.stderr = s.stderr := by
  induction n with
  | zero => intro A s r s' h; simp [ParsePrototype.args] at h
  | succ n ih =>
    intro A s r s' h
    simp only [ParsePrototype.args] at h
    split at h
    · have := ih _ _ _ _ h
      exact this
    · cases h
      rfl

theorem ParsePrototype_reported (n : Nat) (s : State Val) r s'
    (h : ParsePrototype strtod n s = some (r, s')) : Reported r.isSome s s' := by
  simp only [ParsePrototype] at h
  split at h
  · cases h
    exact Reported.error _ s
  · split at h
    · cases h
      exact (Reported.error _ (getNextToken strtod s)).from rfl
    · split at h
      · cases h
      · rename_i A s1 he
        have h1 : s1.stderr = s.stderr := by
          have := ParsePrototype_args_stderr strtod n _ _ _ _ he
          exact this
        split at h
        · cases h
          exact (Reported.error _ s1).from h1
        · cases h
          exact Reported.success h1

theorem ParseDefinition_reported (n : Nat) (s : State Val) r s'
    (h : ParseDefinition strtod n s = some (r, s')) : Reported r.isSome s s' := by
  simp only [ParseDefinition] at h
  split at h
  · cases h
  · rename_i s1 he
    cases h
    exact (ParsePrototype_reported strtod _ _ _ _ he).from rfl
  · rename_i P s1 he
    have h1 : s1.stderr = s.stderr := (ParsePrototype_reported strtod _ _ _ _ he).stderr_eq
    split at h
    · cases h
    · rename_i E s2 he2
      cases h
      exact ((parse_reported strtod n).2.2.2.2.2 _ _ _ he2).from h1
    · rename_i s2 he2
      cases h
      exact ((parse_reported strtod n).2.2.2.2.2 _ _ _ he2).from h1

theorem ParseExtern_reported (n : Nat) (s : State Val) r s'
    (h : ParseExtern strtod n s = some (r, s')) : Reported r.isSome s s' :=
  (ParsePrototype_reported strtod _ _ _ _ h).from rfl

theorem ParseTopLevelExpr_reported (n : Nat) (s : State Val) r s'
    (h : ParseTopLevelExpr strtod n s = some (r, s')) : Reported r.isSome s s' := by
  simp only [ParseTopLevelExpr] at h
  split at h
  · cases h
  · rename_i E s2 he2
    cases h
    exact (parse_reported strtod n).2.2.2.2.2 _ _ _ he2
  · rename_i s2 he2
    cases h
    exact (parse_reported strtod n).2.2.2.2.2 _ _ _ he2

theorem ParsePrototype_args_mono (n : Nat) :
    ∀ A (s : State Val) r m, n ≤ m → ParsePrototype.args strtod n A s = some r →
      ParsePrototype.args strtod m A s = some r := by
  induction n with
  | zero => intro A s r m _ h; simp [ParsePrototype.args] at h
  | succ n ih =>
    intro A s r m hm h
    obtain ⟨m, rfl⟩ : ∃ k, m = k + 1 := ⟨m - 1, by omega⟩
    simp only [ParsePrototype.args] at h ⊢
    split at h
    · rename_i hc
      rw [if_pos hc]
      exact ih _ _ _ m (by omega) h
    · rename_i hc
      rw [if_neg hc]
      exact h

theorem ParsePrototype_mono (n m : Nat) (hm : n ≤ m) (s : State Val) r
    (h : ParsePrototype strtod n s = some r) : ParsePrototype strtod m s = some r := by
  simp only [ParsePrototype] at h ⊢
  split at h
  · rename_i hc
    rw [if_pos hc]
    exact h
  · rename_i hc
    rw [if_neg hc]
    split at h
    · rename_i hc2
      rw [if_pos hc2]
      exact h
    · rename_i hc2
      rw [if_neg hc2]
      split at h
      · cases h
      · rename_i A s1 he
        rw [ParsePrototype_args_mono strtod n _ _ _ m hm he]
        exact h

theorem ParseDefinition_mono (n m : Nat) (hm : n ≤ m) (s : State Val) r
    (h : ParseDefinition strtod n s = some r) : ParseDefinition strtod m s = some r := by
  simp only [ParseDefinition] at h ⊢
  split at h
  · cases h
  · rename_i s1 he
    rw [ParsePrototype_mono strtod n m hm _ _ he]
    exact h
  · rename_i P s1 he
    rw [ParsePrototype_mono strtod n m hm _ _ he]
    simp only
    split at h
    · cases h
    · rename_i E s2 he2
      rw [(parse_mono strtod n).2.2.2.2.2 _ _ m hm he2]
      exact h
    · rename_i s2 he2
      rw [(parse_mono strtod n).2.2.2.2.2 _ _ m hm he2]
      exact h

theorem ParseTopLevelExpr_mono (n m : Nat) (hm : n ≤ m) (s : State Val) r
    (h : ParseTopLevelExpr strtod n s = some r) : ParseTopLevelExpr strtod m s = some r := by
  simp only [ParseTopLevelExpr] at h ⊢
  split at h
  · cases h
  · rename_i E s2 he2
    rw [(parse_mono strtod n).2.2.2.2.2 _ _ m hm he2]
    exact h
  · rename_i s2 he2
    rw [(parse_mono strtod n).2.2.2.2.2 _ _ m hm he2]
    exact h

theorem parseEntry_reported (n : Nat) (s : State Val) (ok : Bool) (s' : State Val)
    (h : parseEntry strtod n s = some (ok, s')) : Reported ok s s' := by
  simp only [parseEntry] at h
  split at h
  · cases hp : ParseDefinition strtod n s with
    | none => simp [hp] at h
    | some r =>
      obtain ⟨r, s1⟩ := r
      simp only [hp, Option.map_some', Option.some.injEq, Prod.mk.injEq] at h
      obtain ⟨rfl, rfl⟩ := h
      exact ParseDefinition_reported strtod _ _ _ _ hp
  · split at h
    · cases hp : ParseExtern strtod n s with
      | none => simp [hp] at h
      | some r =>
        obtain ⟨r, s1⟩ := r
        simp only [hp, Option.map_some', Option.some.injEq, Prod.mk.injEq] at h
        obtain ⟨rfl, rfl⟩ := h
        exact ParseExtern_reported strtod _ _ _ _ hp
    · cases hp : ParseTopLevelExpr strtod n s with
      | none => simp [hp] at h
      | some r =>
        obtain ⟨r, s1⟩ := r
        simp only [hp, Option.map_some', Option.some.injEq, Prod.mk.injEq] at h
        obtain ⟨rfl, rfl⟩ := h
        exact ParseTopLevelExpr_reported strtod _ _ _ _ hp

theorem parseEntry_mono (n m : Nat) (hm : n ≤ m) (s : State Val) r
    (h : parseEntry strtod n s = some r) : parseEntry strtod m s = some r := by
  simp only [parseEntry] at h ⊢
  split at h
  · rename_i hc
    rw [if_pos hc]
    cases hp : ParseDefinition strtod n s with
    | none => simp [hp] at h
    | some r' =>
      rw [ParseDefinition_mono strtod n m hm _ _ hp]
      rw [hp] at h
      exact h
  · rename_i hc
    rw [if_neg hc]
    split at h
    · rename_i hc2
      rw [if_pos hc2]
      cases hp : ParseExtern strtod n s with
      | none => simp [hp] at h
      | some r' =>
        rw [ParseExtern, ParsePrototype_mono strtod n m hm _ _ hp]
        rw [hp] at h
        exact h
    · rename_i hc2
      rw [if_neg hc2]
      cases hp : ParseTopLevelExpr strtod n s with
      | none => simp [hp] at h
      | some r' =>
        rw [ParseTopLevelExpr_mono strtod n m hm _ _ hp]
        rw [hp] at h
        exact h

/-- The parse entry point moves the lexer only by calls of `getNextToken`, and makes at least
one when it succeeds. -/
theorem parseEntry_consumed (n : Nat) (s : State Val) (ok : Bool) (s' : State Val)
    (h : parseEntry strtod n s = some (ok, s')) :
    ∃ k, Consumed strtod k s s' ∧ (ok = true → 1 ≤ k) := by
  simp only [parseEntry] at h
  split at h
  · obtain ⟨⟨r, s1⟩, hp, he⟩ := exists_of_map_eq_some h
    simp only [Prod.mk.injEq] at he
    obtain ⟨_, rfl⟩ := he
    obtain ⟨k, hk1, hk⟩ := ParseDefinition_consumed strtod _ _ _ _ hp
    exact ⟨k, hk, fun _ => hk1⟩
  · split at h
    · obtain ⟨⟨r, s1⟩, hp, he⟩ := exists_of_map_eq_some h
      simp only [Prod.mk.injEq] at he
      obtain ⟨_, rfl⟩ := he
      obtain ⟨k, hk1, hk⟩ := ParseExtern_consumed strtod _ _ _ _ hp
      exact ⟨k, hk, fun _ => hk1⟩
    · obtain ⟨⟨r, s1⟩, hp, he⟩ := exists_of_map_eq_some h
      simp only [Prod.mk.injEq] at he
      obtain ⟨rfl, rfl⟩ := he
      obtain ⟨k, hk, hk1⟩ := ParseTopLevelExpr_consumed strtod _ _ _ _ hp
      refine ⟨k, hk, fun hok => hk1 ?_⟩
      intro hr
      rw [hr] at hok
      simp at hok

/-- The `switch` of `MainLoop`, for a current token other than `;`, in terms of the parse
entry point: a success is reported, a failure is followed by one `getNextToken`. -/
theorem dispatch_eq_parseEntry (n : Nat) (s : State Val) (hc : s.Curtok ≠ ch ';') :
    MainLoop.dispatch strtod n s =
      (parseEntry strtod n s).map
        (fun r => if r.1 then eprint (parsedLine s.Curtok) r.2 else getNextToken strtod r.2) := by
  simp only [MainLoop.dispatch, parseEntry, parsedLine, hc, if_false]
  split
  · simp only [HandleDefinition]
    cases ParseDefinition strtod n s with
    | none => rfl
    | some r =>
      obtain ⟨r, s1⟩ := r
      cases r <;> rfl
  · split
    · simp only [HandleExtern]
      cases ParseExtern strtod n s with
      | none => rfl
      | some r =>
        obtain ⟨r, s1⟩ := r
        cases r <;> rfl
    · simp only [HandleTopLevelExpression]
      cases ParseTopLevelExpr strtod n s with
      | none => rfl
      | some r =>
        obtain ⟨r, s1⟩ := r
        cases r <;> rfl

end Driver

/-! ## The default table -/

theorem installOperators_nil :
    installOperators [] = [(42, 40), (43, 20), (45, 20), (60, 10)] := by decide

/-- With the default table `getTokPrecedence` gives 10 for `<`, 20 for `+` and `-`, 40 for
`*`, and -1 for every other token. -/
theorem tokPrec_default {m : PrecMap} (h : IsDefaultTable m) (t : Int) :
    tokPrec m t =
      if t = ch '<' then 10 else if t = ch '+' then 20 else if t = ch '-' then 20
      else if t = ch '*' then 40 else -1 := by
  unfold tokPrec
  rw [ch_less, ch_plus, ch_minus, ch_star]
  by_cases ha : isascii t = true
  · rw [toChar_of_isascii ha, h t, installOperators_nil]
    simp only [ha, if_true, PrecMap.get, List.lookup]
    by_cases h1 : t = 42
    · subst h1; decide
    by_cases h2 : t = 43
    · subst h2; decide
    by_cases h3 : t = 45
    · subst h3; decide
    by_cases h4 : t = 60
    · subst h4; decide
    have e1 : (t == 42) = false := by simpa using h1
    have e2 : (t == 43) = false := by simpa using h2
    have e3 : (t == 45) = false := by simpa using h3
    have e4 : (t == 60) = false := by simpa using h4
    simp [e1, e2, e3, e4, h1, h2, h3, h4]
  · have hn : ¬ (t = 60 ∨ t = 43 ∨ t = 45 ∨ t = 42) := by
      intro hh
      apply ha
      rcases hh with rfl | rfl | rfl | rfl <;> decide
    have h1 : t ≠ 42 := fun e => hn (by simp [e])
    have h2 : t ≠ 43 := fun e => hn (by simp [e])
    have h3 : t ≠ 45 := fun e => hn (by simp [e])
    have h4 : t ≠ 60 := fun e => hn (by simp [e])
    simp [ha, h1, h2, h3, h4]

theorem IsTableOp.toChar {op : Int} (h : IsTableOp op) : toChar op = op := by
  rcases h with rfl | rfl | rfl | rfl <;> decide

theorem IsTableOp.tokPrec_pos {op : Int} (h : IsTableOp op) {m : PrecMap}
    (hm : IsDefaultTable m) : 0 < tokPrec m op := by
  rw [tokPrec_default hm]
  rcases h with rfl | rfl | rfl | rfl <;> decide

theorem IsTableOp.ne_lparen {op : Int} (h : IsTableOp op) : op ≠ ch '(' := by
  rcases h with rfl | rfl | rfl | rfl <;> decide

/-! ## The runs consumed by `gettok` -/

theorem skipSpace_chars (c : Int) (inp : List Nat) :
    (skipSpace c inp).1 = pending ((c :: inp.map byteChar).dropWhile isspace) ∧
    (skipSpace c inp).2.map byteChar = ((c :: inp.map byteChar).dropWhile isspace).tail ∧
    ∃ k, (skipSpace c inp).2 = inp.drop k := by
  induction inp generalizing c with
  | nil =>
    unfold skipSpace
    by_cases h : isspace c = true
    · simp [h, List.dropWhile, pending, toChar_EOF]
    · simp [h, List.dropWhile, pending]
  | cons b rest ih =>
    unfold skipSpace
    by_cases h : isspace c = true
    · obtain ⟨h1, h2, k, h3⟩ := ih (byteChar b)
      simp only [h, if_true, List.map_cons, List.dropWhile_cons_of_pos]
      refine ⟨h1, h2, k + 1, ?_⟩
      rw [h3]; rfl
    · refine ⟨?_, ?_, 0, ?_⟩ <;> simp [h, List.dropWhile, pending]

theorem identLoop_chars (acc : List Int) (inp : List Nat) :
    (identLoop acc inp).1 = acc ++ (inp.map byteChar).takeWhile isalnum ∧
    (identLoop acc inp).2.1 = pending ((inp.map byteChar).dropWhile isalnum) ∧
    (identLoop acc inp).2.2.map byteChar = ((inp.map byteChar).dropWhile isalnum).tail ∧
    ∃ k, (identLoop acc inp).2.2 = inp.drop k := by
  induction inp generalizing acc with
  | nil => simp [identLoop, pending, toChar_EOF]
  | cons b rest ih =>
    unfold identLoop
    by_cases h : isalnum (byteChar b) = true
    · obtain ⟨h1, h2, h3, k, h4⟩ := ih (acc ++ [byteChar b])
      simp only [h, if_true, List.map_cons, List.takeWhile_cons_of_pos,
        List.dropWhile_cons_of_pos]
      refine ⟨by rw [h1]; simp, h2, h3, k + 1, ?_⟩
      rw [h4]; rfl
    · refine ⟨?_, ?_, ?_, 1, ?_⟩ <;> simp [h, List.dropWhile, List.takeWhile, pending]

theorem numLoop_chars (acc : List Int) (c : Int) (inp : List Nat) :
    (numLoop acc c inp).1 = acc ++ (c :: inp.map byteChar).takeWhile isnumchar ∧
    (numLoop acc c inp).2.1 = pending ((c :: inp.map byteChar).dropWhile isnumchar) ∧
    (numLoop acc c inp).2.2.map byteChar
      = ((c :: inp.map byteChar).dropWhile isnumchar).tail ∧
    ∃ k, (numLoop acc c inp).2.2 = inp.drop k := by
  induction inp generalizing acc c with
  | nil =>
    unfold numLoop
    by_cases h : isnumchar c = true
    · have h' : (isalnum c || c == ch '.') = true := h
      simp [h, h', List.dropWhile, List.takeWhile, pending, toChar_EOF]
    · have h' : ¬ (isalnum c || c == ch '.') = true := h
      simp only [h', if_false]
      simp [h, List.dropWhile, List.takeWhile, pending]
  | cons b rest ih =>
    unfold numLoop
    by_cases h : isnumchar c = true
    · have h' : (isalnum c || c == ch '.') = true := h
      obtain ⟨h1, h2, h3, k, h4⟩ := ih (acc ++ [c]) (byteChar b)
      simp only [h', if_true, List.map_cons, List.takeWhile_cons_of_pos h,
        List.dropWhile_cons_of_pos h]
      refine ⟨by rw [h1]; simp, h2, h3, k + 1, ?_⟩
      rw [h4]; rfl
    · have h' : ¬ (isalnum c || c == ch '.') = true := h
      simp only [h', if_false]
      refine ⟨?_, ?_, ?_, 0, ?_⟩ <;> simp [h, List.dropWhile, List.takeWhile, pending]

theorem skipSpace_of_chars {Val : Type} (l : Lexer Val) (c : Int) (cs : List Int)
    (h : l.chars.dropWhile isspace = c :: cs) :
    ∃ inp, skipSpace l.LastChar l.input = (c, inp) ∧ inp.map byteChar = cs ∧
      ∃ k, inp = l.input.drop k := by
  obtain ⟨h1, h2, h3⟩ := skipSpace_chars l.LastChar l.input
  have h' : (l.LastChar :: l.input.map byteChar).dropWhile isspace = c :: cs := h
  rw [h'] at h1 h2
  refine ⟨(skipSpace l.LastChar l.input).2, ?_, h2, h3⟩
  exact Prod.ext h1 rfl

theorem pending_dropWhile_false (p : Int → Bool) (hp : p EOF = false) (cs : List Int) :
    p (pending (cs.dropWhile p)) = false := by
  induction cs with
  | nil => simpa [pending] using hp
  | cons x xs ih =>
    by_cases hx : p x = true
    · rw [List.dropWhile_cons_of_pos hx]; exact ih
    · rw [List.dropWhile_cons_of_neg hx]
      simpa [pending] using hx

theorem keyword_token (w : List Int) :
    ((if w = str "def" then tok_def else if w = str "extern" then tok_extern
        else tok_identifier) = tok_def ↔ w = str "def") ∧
    ((if w = str "def" then tok_def else if w = str "extern" then tok_extern
        else tok_identifier) = tok_extern ↔ w = str "extern") ∧
    ((if w = str "def" then tok_def else if w = str "extern" then tok_extern
        else tok_identifier) = tok_identifier ↔ (w ≠ str "def" ∧ w ≠ str "extern")) := by
  have hne : str "def" ≠ str "extern" := by decide
  have n1 : tok_def ≠ tok_extern := by decide
  have n2 : tok_def ≠ tok_identifier := by decide
  have n3 : tok_extern ≠ tok_identifier := by decide
  by_cases hd : w = str "def"
  · subst hd
    simp [hne, n1, n2]
  · by_cases he : w = str "extern"
    · subst he
      simp [hne.symm, n1.symm, n3]
    · simp [hd, he, n2.symm, n3.symm]

/-! ## Blank input -/

theorem commentLoop_chars (c : Int) (inp : List Nat) :
    (commentLoop c inp).1 = pending ((c :: inp.map byteChar).dropWhile isCommentChar) ∧
    (commentLoop c inp).2.map byteChar
      = ((c :: inp.map byteChar).dropWhile isCommentChar).tail ∧
    ∃ k, (commentLoop c inp).2 = inp.drop k := by
  induction inp generalizing c with
  | nil =>
    unfold commentLoop
    by_cases h : isCommentChar c = true
    · have h' : (c != EOF && c != ch '\n') = true := h
      simp [h, h', List.dropWhile, pending, toChar_EOF]
    · have h' : ¬ (c != EOF && c != ch '\n') = true := h
      simp only [h', if_false]
      simp [h, List.dropWhile, pending]
  | cons b rest ih =>
    unfold commentLoop
    by_cases h : isCommentChar c = true
    · have h' : (c != EOF && c != ch '\n') = true := h
      obtain ⟨h1, h2, k, h3⟩ := ih (byteChar b)
      simp only [h', if_true, List.map_cons]
      rw [List.dropWhile_cons_of_pos h]
      refine ⟨h1, h2, k + 1, ?_⟩
      rw [h3]; rfl
    · have h' : ¬ (c != EOF && c != ch '\n') = true := h
      simp only [h', if_false]
      refine ⟨?_, ?_, 0, ?_⟩ <;> simp [h, List.dropWhile, pending]

section BlankInput

variable {Val : Type} (strtod : List Int → Val)

/-- Once `LastChar` is `EOF`, `gettok` returns `tok_eof` and changes nothing. -/
theorem gettok_at_EOF (l : Lexer Val) (h : l.LastChar = EOF) : gettok strtod l = (tok_eof, l) := by
  rcases gettok_remaining strtod l with h1 | ⟨_, h2⟩
  · have : l.remaining = 0 := by simp [Lexer.remaining, remaining, h]
    omega
  · exact h2

/-- The result of `gettok` depends on `LastChar` and the input through `skipSpace` only. -/
theorem gettok_congr (l1 l2 : Lexer Val)
    (h : skipSpace l1.LastChar l1.input = skipSpace l2.LastChar l2.input)
    (hi : l1.IdentifierStr = l2.IdentifierStr) (hn : l1.NumVal = l2.NumVal) :
    gettok strtod l1 = gettok strtod l2 := by
  rw [gettok_eq strtod l1, gettok_eq strtod l2, h, hi, hn]

/-- A whitespace character in `LastChar` is skipped. -/
theorem gettok_skip (l : Lexer Val) (h : isspace l.LastChar = true) :
    gettok strtod l = gettok strtod (readChar l) := by
  apply gettok_congr
  · unfold readChar
    cases hin : l.input with
    | nil =>
      simp only [skipSpace, h, if_true]
      have : isspace (toChar EOF) = false := by decide
      simp [this]
    | cons b rest =>
      simp only [skipSpace, h, if_true]
  · unfold readChar; split <;> rfl
  · unfold readChar; split <;> rfl

/-- A comment: with `#` in `LastChar`, the characters are skipped up to a newline or `EOF`, and
`gettok` starts again unless `EOF` was met. -/
theorem gettok_comment (l : Lexer Val) (h : l.LastChar = ch '#') :
    gettok strtod l =
      if (commentLoop (ch '#') l.input).1 != EOF then
        gettok strtod { l with input := (commentLoop (ch '#') l.input).2,
                               LastChar := (commentLoop (ch '#') l.input).1 }
      else (tok_eof, { l with input := (commentLoop (ch '#') l.input).2,
                              LastChar := (commentLoop (ch '#') l.input).1 }) := by
  have hsk : skipSpace l.LastChar l.input = (ch '#', l.input) := by
    rw [h]; exact skipSpace_of_not _ _ (by decide)
  rw [gettok_eq, hsk]
  have h1 : isalpha (ch '#') = false := by decide
  have h2 : (isalnum (ch '#') || ch '#' == ch '.') = false := by decide
  have h3 : (ch '#' == ch '#') = true := by decide
  simp only [h1, h2, h3, if_true, Bool.false_eq_true, if_false]

theorem comment_body_end (s : List Int) (hs : ∀ x ∈ s, x ≠ ch '\n') :
    pending (s.dropWhile isCommentChar) = EOF := by
  induction s with
  | nil => rfl
  | cons x xs ih =>
    by_cases hx : isCommentChar x = true
    · rw [List.dropWhile_cons_of_pos hx]
      exact ih (fun y hy => hs y (List.mem_cons_of_mem _ hy))
    · rw [List.dropWhile_cons_of_neg hx]
      have hne : x ≠ ch '\n' := hs x (List.mem_cons_self _ _)
      have hne' : ¬ x = 10 := hne
      simp only [isCommentChar, Bool.and_eq_true, bne_iff_ne, ne_eq, not_and, not_not] at hx
      simp only [pending, List.head?_cons, Option.getD_some]
      by_contra hc
      exact hne (hx hc)

theorem comment_body_newline (s cs : List Int) (hs : ∀ x ∈ s, x ≠ ch '\n') :
    (s ++ ch '\n' :: cs).dropWhile isCommentChar = ch '\n' :: cs ∨
      pending ((s ++ ch '\n' :: cs).dropWhile isCommentChar) = EOF := by
  induction s with
  | nil =>
    left
    have : isCommentChar (ch '\n') = false := by decide
    simp [List.dropWhile, this]
  | cons x xs ih =>
    by_cases hx : isCommentChar x = true
    · rw [List.cons_append, List.dropWhile_cons_of_pos hx]
      exact ih (fun y hy => hs y (List.mem_cons_of_mem _ hy))
    · right
      rw [List.cons_append, List.dropWhile_cons_of_neg hx]
      have hne : x ≠ ch '\n' := hs x (List.mem_cons_self _ _)
      simp only [isCommentChar, Bool.and_eq_true, bne_iff_ne, ne_eq, not_and, not_not] at hx
      simp only [pending, List.head?_cons, Option.getD_some]
      by_contra hc
      exact hne (hx hc)

theorem gettok_blank_space (l : Lexer Val) (hs : isspace l.LastChar = true) (cs : List Int)
    (hcs : l.input.map byteChar = cs)
    (ih : ∀ l' : Lexer Val, l'.chars = cs →
      (gettok strtod l').1 = tok_eof ∧ (gettok strtod l').2.LastChar = EOF) :
    (gettok strtod l).1 = tok_eof ∧ (gettok strtod l).2.LastChar = EOF := by
  rw [gettok_skip strtod l hs]
  cases hin : l.input with
  | nil =>
    have : (readChar l).LastChar = EOF := by simp [readChar, hin, toChar_EOF]
    rw [gettok_at_EOF strtod _ this]
    exact ⟨rfl, this⟩
  | cons b rest =>
    apply ih
    rw [← hcs, hin]
    simp [readChar, hin, Lexer.chars]

/-- On whitespace and comments only, `gettok` returns `tok_eof` and leaves `EOF` in
`LastChar`. -/
theorem gettok_blank (cs : List Int) (hb : Blank cs) :
    ∀ l : Lexer Val, l.chars = cs →
      (gettok strtod l).1 = tok_eof ∧ (gettok strtod l).2.LastChar = EOF := by
  induction hb with
  | nil => intro l h; simp [Lexer.chars] at h
  | space c cs hc _ ih =>
    intro l h
    simp only [Lexer.chars, List.cons.injEq] at h
    exact gettok_blank_space strtod l (by rw [h.1]; exact hc) cs h.2 ih
  | comment s cs hs _ ih =>
    intro l h
    simp only [Lexer.chars, List.cons.injEq] at h
    obtain ⟨h1, h2, _⟩ := commentLoop_chars (ch '#') l.input
    have hC : isCommentChar (ch '#') = true := by decide
    rw [h.2, List.dropWhile_cons_of_pos hC] at h1 h2
    rw [gettok_comment strtod l h.1]
    rcases comment_body_newline s cs hs with hd | hd
    · rw [hd] at h1 h2
      have e1 : (commentLoop (ch '#') l.input).1 = ch '\n' := h1
      have e2 : ((commentLoop (ch '#') l.input).1 != EOF) = true := by rw [e1]; decide
      simp only [e2, if_true]
      exact gettok_blank_space strtod _ (by simp only [e1]; decide) cs h2 ih
    · rw [hd] at h1
      have e2 : ((commentLoop (ch '#') l.input).1 != EOF) = false := by rw [h1]; decide
      simp only [e2, Bool.false_eq_true, if_false]
      exact ⟨trivial, h1⟩
  | commentToEnd s hs =>
    intro l h
    simp only [Lexer.chars, List.cons.injEq] at h
    obtain ⟨h1, _, _⟩ := commentLoop_chars (ch '#') l.input
    have hC : isCommentChar (ch '#') = true := by decide
    rw [h.2, List.dropWhile_cons_of_pos hC, comment_body_end s hs] at h1
    rw [gettok_comment strtod l h.1]
    have e2 : ((commentLoop (ch '#') l.input).1 != EOF) = false := by rw [h1]; decide
    simp only [e2, Bool.false_eq_true, if_false]
    exact ⟨trivial, h1⟩

end BlankInput

/-- The final branch of `gettok`: a character `c` which is not whitespace, not alphanumeric,
not `.`, not `#` and not `EOF` is returned as the token `c` itself, the `char` read as an
`int`, and one more character is read. -/
theorem gettok_single_char {Val : Type} (strtod : List Int → Val) (l : Lexer Val) (c : Int)
    (cs : List Int) (h : l.chars.dropWhile isspace = c :: cs)
    (h1 : isalnum c = false) (h2 : c ≠ ch '.') (h3 : c ≠ ch '#') (h4 : c ≠ EOF) :
    (gettok strtod l).1 = c ∧ (gettok strtod l).2.LastChar = pending cs ∧
      (gettok strtod l).2.input.map byteChar = cs.tail := by
  obtain ⟨inp, hsk, hcs, _⟩ := skipSpace_of_chars l c cs h
  have ha : isalpha c = false := by
    simp only [isalnum, Bool.or_eq_false_iff] at h1
    exact h1.1
  have hn : (isalnum c || c == ch '.') = false := by simp [h1, h2]
  have hc : (c == ch '#') = false := by simpa using h3
  have he : (c == EOF) = false := by simpa using h4
  rw [gettok_eq, hsk]
  simp only [ha, hn, hc, he, Bool.false_eq_true, if_false]
  rw [← hcs]
  cases inp with
  | nil => simp [readChar, pending, toChar_EOF]
  | cons b rest => simp [readChar, pending]

/-! ## Every function runs by steps -/

section RunSteps

variable {Val : Type} (strtod : List Int → Val)

theorem Reaches.failed {s s' : State Val} (Str : String)
    (h : Reaches strtod s s') : Reaches strtod s (eprint ("Error: " ++ Str ++ "\n") s') :=
  Reaches.print s s' _ h

/-- Every state which a parsing function returns is reached by steps from a state reached by
steps. -/
theorem parse_reaches (s0 : State Val) (n : Nat) :
    (∀ (s : State Val) r s', ParseParenExpr strtod n s = some (r, s') →
      Reaches strtod s0 s → Reaches strtod s0 s') ∧
    (∀ A (s : State Val) r s', ParseIdentifierExpr.args strtod n A s = some (r, s') →
      Reaches strtod s0 s → Reaches strtod s0 s') ∧
    (∀ (s : State Val) r s', ParseIdentifierExpr strtod n s = some (r, s') →
      Reaches strtod s0 s → Reaches strtod s0 s') ∧
    (∀ (s : State Val) r s', ParsePrimary strtod n s = some (r, s') →
      Reaches strtod s0 s → Reaches strtod s0 s') ∧
    (∀ E L (s : State Val) r s', ParseBinOpRHS strtod n E L s = some (r, s') →
      Reaches strtod s0 s → Reaches strtod s0 s') ∧
    (∀ (s : State Val) r s', ParseExpression strtod n s = some (r, s') →
      Reaches strtod s0 s → Reaches strtod s0 s') := by
  induction n with
  | zero =>
    refine ⟨?_, ?_, ?_, ?_, ?_, ?_⟩ <;> intros <;> rename_i h _ <;>
      simp [ParseParenExpr, ParseIdentifierExpr.args, ParseIdentifierExpr, ParsePrimary,
        ParseBinOpRHS, ParseExpression] at h
  | succ n ih =>
    obtain ⟨ihParen, ihArgs, ihIdent, ihPrim, ihRHS, ihExpr⟩ := ih
    refine ⟨?_, ?_, ?_, ?_, ?_, ?_⟩
    · intro s r s' h hs
      simp only [ParseParenExpr] at h
      split at h
      · cases h
      · rename_i s1 he
        cases h
        exact ihExpr _ _ _ he (Reaches.next _ _ hs)
      · rename_i V s1 he
        have h1 := ihExpr _ _ _ he (Reaches.next _ _ hs)
        split at h
        · cases h
          exact h1.failed strtod _
        · cases h
          exact Reaches.next _ _ h1
    · intro A s r s' h hs
      simp only [ParseIdentifierExpr.args] at h
      split at h
      · cases h
      · rename_i s1 he
        cases h
        exact ihExpr _ _ _ he hs
      · rename_i Arg s1 he
        have h1 := ihExpr _ _ _ he hs
        split at h
        · cases h
          exact h1
        · split at h
          · cases h
            exact h1.failed strtod _
          · exact ihArgs _ _ _ _ h (Reaches.next _ _ h1)
    · intro s r s' h hs
      simp only [ParseIdentifierExpr] at h
      split at h
      · cases h
        exact Reaches.next _ _ hs
      · split at h
        · split at h
          · cases h
          · rename_i s1 he
            cases h
            exact ihArgs _ _ _ _ he (Reaches.next _ _ (Reaches.next _ _ hs))
          · rename_i Args s1 he
            cases h
            exact Reaches.next _ _ (ihArgs _ _ _ _ he (Reaches.next _ _ (Reaches.next _ _ hs)))
        · cases h
          exact Reaches.next _ _ (Reaches.next _ _ (Reaches.next _ _ hs))
    · intro s r s' h hs
      simp only [ParsePrimary] at h
      split at h
      · exact ihIdent _ _ _ h hs
      · split at h
        · simp only [ParseNumberExpr, Option.some.injEq, Prod.mk.injEq] at h
          obtain ⟨_, rfl⟩ := h
          exact Reaches.next _ _ hs
        · split at h
          · exact ihParen _ _ _ h hs
          · simp only [Error, Option.some.injEq, Prod.mk.injEq] at h
            obtain ⟨_, rfl⟩ := h
            exact hs.failed strtod _
    · intro E L s r s' h hs
      rw [ParseBinOpRHS] at h
      have h0 := Reaches.lookup _ _ hs
      generalize getTokPrecedence s = q at h h0
      obtain ⟨TokPrec, s0'⟩ := q
      simp only at h h0
      split at h
      · cases h
        exact h0
      · split at h
        · cases h
        · rename_i s1 he
          cases h
          exact ihPrim _ _ _ he (Reaches.next _ _ h0)
        · rename_i RHS s1 he
          have h1 := Reaches.lookup _ _ (ihPrim _ _ _ he (Reaches.next _ _ h0))
          generalize getTokPrecedence s1 = q at h h1
          obtain ⟨NextPrec, s2⟩ := q
          simp only at h h1
          split at h
          · split at h
            · cases h
            · rename_i s3 he2
              cases h
              exact ihRHS _ _ _ _ _ he2 h1
            · rename_i R' s3 he2
              exact ihRHS _ _ _ _ _ h (ihRHS _ _ _ _ _ he2 h1)
          · exact ihRHS _ _ _ _ _ h h1
    · intro s r s' h hs
      simp only [ParseExpression] at h
      split at h
      · cases h
      · rename_i s1 he
        cases h
        exact ihPrim _ _ _ he hs
      · rename_i LHS s1 he
        exact ihRHS _ _ _ _ _ h (ihPrim _ _ _ he hs)

theorem ParsePrototype_args_reaches (s0 : State Val) (n : Nat) :
    ∀ A (s : State Val) r s', ParsePrototype.args strtod n A s = some (r, s') →
      Reaches strtod s0 s → Reaches strtod s0 s' := by
  induction n with
  | zero => intro A s r s' h; simp [ParsePrototype.args] at h
  | succ n ih =>
    intro A s r s' h hs
    simp only [ParsePrototype.args] at h
    split at h
    · exact ih _ _ _ _ h (Reaches.next _ _ hs)
    · cases h
      exact Reaches.next _ _ hs

theorem ParsePrototype_reaches (s0 : State Val) (n : Nat) (s : State Val) r s'
    (h : ParsePrototype strtod n s = some (r, s')) (hs : Reaches strtod s0 s) :
    Reaches strtod s0 s' := by
  simp only [ParsePrototype] at h
  split at h
  · cases h
    exact hs.failed strtod _
  · split at h
    · cases h
      exact (Reaches.next _ _ hs).failed strtod _
    · split at h
      · cases h
      · rename_i A s1 he
        have h1 := ParsePrototype_args_reaches strtod s0 n _ _ _ _ he (Reaches.next _ _ hs)
        split at h
        · cases h
          exact h1.failed strtod _
        · cases h
          exact Reaches.next _ _ h1

theorem ParseDefinition_reaches (s0 : State Val) (n : Nat) (s : State Val) r s'
    (h : ParseDefinition strtod n s = some (r, s')) (hs : Reaches strtod s0 s) :
    Reaches strtod s0 s' := by
  simp only [ParseDefinition] at h
  split at h
  · cases h
  · rename_i s1 he
    cases h
    exact ParsePrototype_reaches strtod s0 n _ _ _ he (Reaches.next _ _ hs)
  · rename_i P s1 he
    have h1 := ParsePrototype_reaches strtod s0 n _ _ _ he (Reaches.next _ _ hs)
    split at h
    · cases h
    · rename_i E s2 he2
      cases h
      exact (parse_reaches strtod s0 n).2.2.2.2.2 _ _ _ he2 h1
    · rename_i s2 he2
      cases h
      exact (parse_reaches strtod s0 n).2.2.2.2.2 _ _ _ he2 h1

theorem ParseExtern_reaches (s0 : State Val) (n : Nat) (s : State Val) r s'
    (h : ParseExtern strtod n s = some (r, s')) (hs : Reaches strtod s0 s) :
    Reaches strtod s0 s' :=
  ParsePrototype_reaches strtod s0 n _ _ _ h (Reaches.next _ _ hs)

theorem ParseTopLevelExpr_reaches (s0 : State Val) (n : Nat) (s : State Val) r s'
    (h : ParseTopLevelExpr strtod n s = some (r, s')) (hs : Reaches strtod s0 s) :
    Reaches strtod s0 s' := by
  simp only [ParseTopLevelExpr] at h
  split at h
  · cases h
  · rename_i E s2 he2
    cases h
    exact (parse_reaches strtod s0 n).2.2.2.2.2 _ _ _ he2 hs
  · rename_i s2 he2
    cases h
    exact (parse_reaches strtod s0 n).2.2.2.2.2 _ _ _ he2 hs

theorem dispatch_reaches (s0 : State Val) (n : Nat) (s : State Val) s'
    (h : MainLoop.dispatch strtod n s = some s') (hs : Reaches strtod s0 s) :
    Reaches strtod s0 s' := by
  simp only [MainLoop.dispatch] at h
  split at h
  · cases h
    exact Reaches.next _ _ hs
  · split at h
    · simp only [HandleDefinition] at h
      split at h
      · cases h
      · rename_i F s1 he
        cases h
        exact Reaches.print _ _ _ (ParseDefinition_reaches strtod s0 n _ _ _ he hs)
      · rename_i s1 he
        cases h
        exact Reaches.next _ _ (ParseDefinition_reaches strtod s0 n _ _ _ he hs)
    · split at h
      · simp only [HandleExtern] at h
        split at h
        · cases h
        · rename_i F s1 he
          cases h
          exact Reaches.print _ _ _ (ParseExtern_reaches strtod s0 n _ _ _ he hs)
        · rename_i s1 he
          cases h
          exact Reaches.next _ _ (ParseExtern_reaches strtod s0 n _ _ _ he hs)
      · simp only [HandleTopLevelExpression] at h
        split at h
        · cases h
        · rename_i F s1 he
          cases h
          exact Reaches.print _ _ _ (ParseTopLevelExpr_reaches strtod s0 n _ _ _ he hs)
        · rename_i s1 he
          cases h
          exact Reaches.next _ _ (ParseTopLevelExpr_reaches strtod s0 n _ _ _ he hs)

theorem MainLoop_reaches (s0 : State Val) (n : Nat) :
    ∀ (s : State Val) s', MainLoop strtod n s = some s' →
      Reaches strtod s0 s → Reaches strtod s0 s' := by
  induction n with
  | zero => intro s s' h; simp [MainLoop] at h
  | succ n ih =>
    intro s s' h hs
    simp only [MainLoop] at h
    have h1 : Reaches strtod s0
        (if s.Curtok = ch ';' then eprint "Input<< " s else eprint "Output>> " s) := by
      split
      · exact Reaches.print _ _ _ hs
      · exact Reaches.print _ _ _ hs
    generalize (if s.Curtok = ch ';' then eprint "Input<< " s else eprint "Output>> " s) = t
      at h h1
    split at h
    · cases h
      exact h1
    · split at h
      · cases h
      · rename_i s2 he
        exact ih _ _ h (dispatch_reaches strtod s0 n _ _ he h1)

/-- The three kinds of steps keep the values of the table. -/
theorem Reaches.table {s s' : State Val} (h : Reaches strtod s s') (k : Int) :
    s'.BinopPrecedence.get k = s.BinopPrecedence.get k := by
  induction h with
  | here => rfl
  | next s1 h ih => exact ih
  | lookup s1 h ih => exact ((getTokPrecedence_same s1).2.2.2 k).trans ih
  | print s1 msg h ih => exact ih

end RunSteps

/-! ## Where a successful parse stops -/

section Stops

variable {Val : Type} (strtod : List Int → Val)

/-- The effective precedence is -1 or positive. -/
theorem tokPrec_eq_neg_one_or_pos (m : PrecMap) (t : Int) :
    tokPrec m t = -1 ∨ 0 < tokPrec m t := by
  unfold tokPrec
  split
  · split
    · exact Or.inl rfl
    · rename_i h
      exact Or.inr (not_le.mp h)
  · exact Or.inl rfl

/-- The loop of `ParseBinOpRHS` is left with success only in front of a token of precedence
lower than `ExprPrec`. -/
theorem ParseBinOpRHS_success_below (n : Nat) :
    ∀ (E : Int) (L : ExprAST Val) (s : State Val) T s',
      ParseBinOpRHS strtod n E L s = some (some T, s') →
      tokPrec s'.BinopPrecedence s'.Curtok < E := by
  induction n with
  | zero => intro E L s T s' h; simp [ParseBinOpRHS] at h
  | succ n ih =>
    intro E L s T s' h
    rw [ParseBinOpRHS] at h
    have h0 := (getTokPrecedence_same s).tokPrec
    have hv := getTokPrecedence_fst s
    generalize getTokPrecedence s = q at h h0 hv
    obtain ⟨TokPrec, s0⟩ := q
    simp only at h h0 hv
    split at h
    · rename_i hlt
      simp only [Option.some.injEq, Prod.mk.injEq] at h
      obtain ⟨_, rfl⟩ := h
      rw [h0, ← hv]
      exact hlt
    · split at h
      · cases h
      · cases h
      · rename_i RHS s1 he
        generalize getTokPrecedence s1 = q at h
        obtain ⟨NextPrec, s2⟩ := q
        simp only at h
        split at h
        · split at h
          · cases h
          · cases h
          · exact ih _ _ _ _ _ h
        · exact ih _ _ _ _ _ h

end Stops

/-! ## Precedence climbing over a chain -/

section Climbing

variable {Val : Type} (strtod : List Int → Val)

theorem isascii_of_tokPrec_pos {m : PrecMap} {t : Int} (h : 0 < tokPrec m t) :
    isascii t = true := by
  unfold tokPrec at h
  split at h
  · assumption
  · omega

theorem rootOp_atomAST (s : State Val) : (atomAST s).rootOp = none := by
  unfold atomAST
  split <;> rfl

theorem inorder_atomAST (s : State Val) : inorder (atomAST s) = [Item.operand (atomAST s)] := by
  unfold atomAST
  split <;> rfl

theorem Climbed_atomAST (m : PrecMap) (s : State Val) : Climbed m (atomAST s) := by
  unfold atomAST
  split <;> simp [Climbed]

theorem chainItems_add (a b : Nat) (t : State Val) :
    chainItems strtod (a + b) t =
      chainItems strtod a t ++ chainItems strtod b (advance strtod (2 * a) t) := by
  induction a generalizing t with
  | zero => simp [chainItems, advance]
  | succ a ih =>
    have e : advance strtod (2 * (a + 1)) t = advance strtod (2 * a) (advance strtod 2 t) := by
      rw [← advance_add]; congr 1; omega
    rw [Nat.add_right_comm, chainItems, chainItems, ih, e]
    rfl

theorem OpChain.shift {k : Nat} {t : State Val} (h : OpChain strtod k t) (j : Nat)
    (hj : j ≤ k) : OpChain strtod (k - j) (advance strtod (2 * j) t) := by
  have e1 : ∀ i, advance strtod (2 * i) (advance strtod (2 * j) t)
      = advance strtod (2 * (j + i)) t :=
    fun i => by rw [← advance_add]; congr 1; omega
  have e2 : ∀ i, advance strtod (2 * i + 1) (advance strtod (2 * j) t)
      = advance strtod (2 * (j + i) + 1) t :=
    fun i => by rw [← advance_add]; congr 1; omega
  refine ⟨fun i hi => ?_, ?_⟩
  · rw [e1, e2, advance_table]
    exact h.1 (j + i) (by omega)
  · rw [e1, advance_table]
    have e : j + (k - j) = k := by omega
    rw [e]
    exact h.2

/-- The loop of `ParseBinOpRHS` on a chain of operators and atoms: it succeeds, having consumed
some of the operators with their atoms; it is left in front of a token of precedence lower than
`ExprPrec`; the in-order traversal of the tree is that of `LHS` followed by the tokens
consumed; and the tree satisfies `Climbed` when `LHS` does and the root of `LHS` binds no
looser than the current token. -/
theorem ParseBinOpRHS_chain (n : Nat) :
    ∀ (k : Nat) (E : Int) (L : ExprAST Val) (s t : State Val),
      k + 2 ≤ n → 0 ≤ E → Same s t → OpChain strtod k t →
      Climbed t.BinopPrecedence L →
      (∀ o, L.rootOp = some o →
        tokPrec t.BinopPrecedence t.Curtok ≤ tokPrec t.BinopPrecedence o) →
      ∃ j T s', j ≤ k ∧ ParseBinOpRHS strtod n E L s = some (some T, s') ∧
        Same s' (advance strtod (2 * j) t) ∧
        tokPrec t.BinopPrecedence (advance strtod (2 * j) t).Curtok < E ∧
        inorder T = inorder L ++ chainItems strtod j t ∧
        Climbed t.BinopPrecedence T ∧
        (T = L ∨ ∃ o, T.rootOp = some o ∧ E ≤ tokPrec t.BinopPrecedence o) := by
  induction n with
  | zero => intro k E L s t hn; omega
  | succ n ih =>
    intro k E L s t hn hE hs hc hL hroot
    by_cases hp : tokPrec t.BinopPrecedence t.Curtok < E
    · obtain ⟨s', e, hs'⟩ := ParseBinOpRHS_stop strtod n E L s t hs hp
      exact ⟨0, L, s', Nat.zero_le _, e, hs', hp, by simp [chainItems], hL, Or.inl rfl⟩
    · have hp' : E ≤ tokPrec t.BinopPrecedence t.Curtok := not_lt.mp hp
      cases k with
      | zero =>
        have h2 : tokPrec t.BinopPrecedence t.Curtok = -1 := hc.2
        omega
      | succ k =>
        obtain ⟨m, rfl⟩ : ∃ m, n = m + 2 := ⟨n - 2, by omega⟩
        have h0 := hc.1 0 (Nat.succ_pos k)
        have hpos : 0 < tokPrec t.BinopPrecedence t.Curtok := h0.1
        have ha : IsAtom strtod (advance strtod 1 t) := h0.2
        have hasc : toChar t.Curtok = t.Curtok :=
          toChar_of_isascii (isascii_of_tokPrec_pos hpos)
        have hc' : OpChain strtod k (advance strtod 2 t) := hc.shift strtod 1 (by omega)
        have e2 : ∀ j, advance strtod (2 * j) (advance strtod 2 t)
            = advance strtod (2 * (j + 1)) t :=
          fun j => by rw [← advance_add]; congr 1; omega
        by_cases hq : tokPrec t.BinopPrecedence (advance strtod 2 t).Curtok
            ≤ tokPrec t.BinopPrecedence t.Curtok
        · obtain ⟨s2, hs2, e⟩ := ParseBinOpRHS_step strtod m E L s t hs hp' ha hq
          have ih' := ih k E (ExprAST.Binary (toChar t.Curtok) L (atomAST (advance strtod 1 t)))
            s2 (advance strtod 2 t) (by omega) hE hs2 hc'
          simp only [advance_table, e2] at ih'
          obtain ⟨j, T, s', hj, e', hs', hlt, hin, hcl, hr⟩ := ih'
            (by
              rw [Climbed]
              refine ⟨fun o ho => ?_, fun o ho => ?_, hL, Climbed_atomAST _ _⟩
              · rw [rootOp_atomAST] at ho
                cases ho
              · rw [hasc]
                exact hroot o ho)
            (by
              intro o ho
              simp only [ExprAST.rootOp, Option.some.injEq] at ho
              rw [← ho, hasc]
              exact hq)
          refine ⟨j + 1, T, s', by omega, e.trans e', hs', hlt, ?_, hcl, ?_⟩
          · rw [hin, inorder, inorder_atomAST, chainItems, hasc]
            simp
          · rcases hr with hr | hr
            · refine Or.inr ⟨t.Curtok, ?_, hp'⟩
              rw [hr, ExprAST.rootOp, hasc]
            · exact Or.inr hr
        · have hq' := not_le.mp hq
          obtain ⟨s2, hs2, e⟩ := ParseBinOpRHS_climb strtod m E L s t hs hp' ha hq'
          have ih1 := ih k (tokPrec t.BinopPrecedence t.Curtok + 1)
            (atomAST (advance strtod 1 t)) s2 (advance strtod 2 t) (by omega) (by omega) hs2 hc'
            (Climbed_atomAST _ _) (by rw [rootOp_atomAST]; intro o ho; cases ho)
          simp only [advance_table, e2] at ih1
          obtain ⟨j1, R, s3, hj1, e1, hs3, hlt1, hin1, hcl1, hr1⟩ := ih1
          rw [e1] at e
          simp only [] at e
          have hc3 : OpChain strtod (k + 1 - (j1 + 1)) (advance strtod (2 * (j1 + 1)) t) :=
            hc.shift strtod (j1 + 1) (by omega)
          have e3 : ∀ j, advance strtod (2 * j) (advance strtod (2 * (j1 + 1)) t)
              = advance strtod (2 * (j1 + 1 + j)) t :=
            fun j => by rw [← advance_add]; congr 1; omega
          have ih2 := ih (k + 1 - (j1 + 1)) E (ExprAST.Binary (toChar t.Curtok) L R) s3
            (advance strtod (2 * (j1 + 1)) t) (by omega) hE hs3 hc3
          simp only [advance_table, e3] at ih2
          obtain ⟨j2, T, s', hj2, e', hs', hlt, hin, hcl, hr⟩ := ih2
            (by
              rw [Climbed]
              refine ⟨fun o ho => ?_, fun o ho => ?_, hL, hcl1⟩
              · rw [hasc]
                rcases hr1 with hr1 | ⟨o', ho', hle⟩
                · rw [hr1, rootOp_atomAST] at ho
                  cases ho
                · rw [ho'] at ho
                  cases ho
                  omega
              · rw [hasc]
                exact hroot o ho)
            (by
              intro o ho
              simp only [ExprAST.rootOp, Option.some.injEq] at ho
              rw [← ho, hasc]
              omega)
          refine ⟨j1 + 1 + j2, T, s', by omega, e.trans e', hs', hlt, ?_, hcl, ?_⟩
          · have ec : chainItems strtod (j1 + 1 + j2) t =
                Item.operator t.Curtok :: Item.operand (atomAST (advance strtod 1 t))
                  :: (chainItems strtod j1 (advance strtod 2 t) ++
                    chainItems strtod j2 (advance strtod (2 * (j1 + 1)) t)) := by
              rw [Nat.add_right_comm, chainItems, chainItems_add, e2]
            rw [hin, inorder, hin1, inorder_atomAST, ec, hasc]
            simp
          · rcases hr with hr | hr
            · refine Or.inr ⟨t.Curtok, ?_, hp'⟩
              rw [hr, ExprAST.rootOp, hasc]
            · exact Or.inr hr

/-- On an atom followed by a chain of `n` operators and atoms `ParseExpression` succeeds,
whatever the fuel which is enough; it consumes the `2 * n + 1` tokens; the in-order traversal of
the tree is the sequence of the tokens; and the tree satisfies `Climbed`. -/
theorem ParseExpression_chain (s : State Val) (n : Nat) (ha : IsAtom strtod s)
    (hc : OpChain strtod n (advance strtod 1 s)) :
    ∃ T s', Same s' (advance strtod (2 * n + 1) s) ∧
      inorder T = Item.operand (atomAST s) :: chainItems strtod n (advance strtod 1 s) ∧
      Climbed s.BinopPrecedence T ∧
      (∀ fuel, n + 3 ≤ fuel → ParseExpression strtod fuel s = some (some T, s')) ∧
      (∀ fuel r, ParseExpression strtod fuel s = some r → r = (some T, s')) := by
  obtain ⟨j, T, s', hj, e, hs', hlt, hin, hcl, -⟩ :=
    ParseBinOpRHS_chain strtod (n + 2) n 0 (atomAST s) (getNextToken strtod s)
      (advance strtod 1 s) (le_refl _) (le_refl _) (Same.refl _) hc
      (Climbed_atomAST _ _) (by rw [rootOp_atomAST]; intro o ho; cases ho)
  have hjn : j = n := by
    rcases Nat.lt_or_ge j n with h | h
    · have := (hc.1 j h).1
      omega
    · omega
  subst hjn
  have e1 : advance strtod (2 * j) (advance strtod 1 s) = advance strtod (2 * j + 1) s := by
    rw [← advance_add]; congr 1; omega
  have hrun : ParseExpression strtod (j + 3) s = some (some T, s') := by
    rw [ParseExpression, ParsePrimary_atom strtod s ha]
    exact e
  have hmono : ∀ fuel, j + 3 ≤ fuel → ParseExpression strtod fuel s = some (some T, s') :=
    fun fuel hf => (parse_mono strtod (j + 3)).2.2.2.2.2 s _ fuel hf hrun
  refine ⟨T, s', by rw [← e1]; exact hs', ?_, ?_, hmono, ?_⟩
  · rw [hin, inorder_atomAST]
    rfl
  · rw [advance_table] at hcl
    exact hcl
  · intro fuel r hr
    have h1 := (parse_mono strtod fuel).2.2.2.2.2 s _ (max fuel (j + 3)) (le_max_left _ _) hr
    rw [hmono _ (le_max_right _ _)] at h1
    exact (Option.some.inj h1).symm

theorem chainItems_length (k : Nat) (t : State Val) :
    (chainItems strtod k t).length = 2 * k := by
  induction k generalizing t with
  | zero => rfl
  | succ k ih =>
    rw [chainItems, List.length_cons, List.length_cons, ih]
    omega

theorem OpChain.of_tokens (s : State Val) (n : Nat)
    (hops : ∀ i, i < n → 0 < tokPrec s.BinopPrecedence (advance strtod (2 * i + 1) s).Curtok ∧
      IsAtom strtod (advance strtod (2 * i + 2) s))
    (hend : tokPrec s.BinopPrecedence (advance strtod (2 * n + 1) s).Curtok = -1) :
    OpChain strtod n (advance strtod 1 s) := by
  have e1 : ∀ i, advance strtod (2 * i) (advance strtod 1 s) = advance strtod (2 * i + 1) s :=
    fun i => by rw [← advance_add]; congr 1; omega
  have e2 : ∀ i, advance strtod (2 * i + 1) (advance strtod 1 s)
      = advance strtod (2 * i + 2) s :=
    fun i => by rw [← advance_add]; congr 1; omega
  refine ⟨fun i hi => ?_, ?_⟩
  · rw [e1, e2, advance_table]
    exact hops i hi
  · rw [e1, advance_table]
    exact hend

end Climbing

/-! ## Comments are skipped -/

section CommentSkipping

variable {Val : Type} (strtod : List Int → Val)

theorem skipSpace_blank (X : List Nat) (c : Int) (h : isspace c = true) :
    skipSpace c X = skipSpace (ch ' ') X := by
  have h' : isspace (ch ' ') = true := by decide
  cases X <;> simp [skipSpace, h, h']

/-- The loop which skips white space, on an input which starts with `A`: it stops at a character
of `A`, or it reads the whole of `A`. -/
theorem skipSpace_append (c : Int) (A : List Nat) :
    (∃ c' A', isspace c' = false ∧ A'.length ≤ A.length ∧
        ∀ X, skipSpace c (A ++ X) = (c', A' ++ X)) ∨
      (∀ X, skipSpace c (A ++ X) = skipSpace (ch ' ') X) := by
  induction A generalizing c with
  | nil =>
    by_cases h : isspace c = true
    · exact Or.inr (fun X => skipSpace_blank X c h)
    · exact Or.inl ⟨c, [], by simpa using h, le_refl _,
        fun X => skipSpace_of_not c _ (by simpa using h)⟩
  | cons b A ih =>
    by_cases h : isspace c = true
    · rcases ih (byteChar b) with ⟨c', A', h1, h2, h3⟩ | h3
      · refine Or.inl ⟨c', A', h1, Nat.le_succ_of_le h2, fun X => ?_⟩
        rw [List.cons_append, skipSpace, if_pos h]
        exact h3 X
      · refine Or.inr (fun X => ?_)
        rw [List.cons_append, skipSpace, if_pos h]
        exact h3 X
    · exact Or.inl ⟨c, b :: A, by simpa using h, le_refl _,
        fun X => skipSpace_of_not c _ (by simpa using h)⟩

/-- The loop which reads an identifier, on an input which starts with `A`. -/
theorem identLoop_append (acc : List Int) (A : List Nat) :
    (∃ w c' A', A'.length ≤ A.length ∧ ∀ X, identLoop acc (A ++ X) = (w, c', A' ++ X)) ∨
      (∃ w, ∀ X, identLoop acc (A ++ X) = identLoop w X) := by
  induction A generalizing acc with
  | nil => exact Or.inr ⟨acc, fun X => rfl⟩
  | cons b A ih =>
    by_cases h : isalnum (byteChar b) = true
    · rcases ih (acc ++ [byteChar b]) with ⟨w, c', A', h2, h3⟩ | ⟨w, h3⟩
      · refine Or.inl ⟨w, c', A', Nat.le_succ_of_le h2, fun X => ?_⟩
        rw [List.cons_append, identLoop, if_pos h]
        exact h3 X
      · refine Or.inr ⟨w, fun X => ?_⟩
        rw [List.cons_append, identLoop, if_pos h]
        exact h3 X
    · refine Or.inl ⟨acc, byteChar b, A, Nat.le_succ _, fun X => ?_⟩
      rw [List.cons_append, identLoop, if_neg h]

theorem numLoop_of_not (acc : List Int) (c : Int) (X : List Nat) (h : isnumchar c = false) :
    numLoop acc c X = (acc, c, X) := by
  have h' : (isalnum c || c == ch '.') = false := h
  cases X <;> simp [numLoop, h']

/-- The loop which reads a number, on an input which starts with `A`. -/
theorem numLoop_append (acc : List Int) (c : Int) (A : List Nat) :
    (∃ w c' A', A'.length ≤ A.length ∧ ∀ X, numLoop acc c (A ++ X) = (w, c', A' ++ X)) ∨
      (∃ w c0, isnumchar c0 = true ∧ ∀ X, numLoop acc c (A ++ X) = numLoop w c0 X) := by
  induction A generalizing acc c with
  | nil =>
    by_cases h : isnumchar c = true
    · exact Or.inr ⟨acc, c, h, fun X => rfl⟩
    · exact Or.inl ⟨acc, c, [], le_refl _, fun X => numLoop_of_not acc c _ (by simpa using h)⟩
  | cons b A ih =>
    by_cases h : isnumchar c = true
    · have h' : (isalnum c || c == ch '.') = true := h
      rcases ih (acc ++ [c]) (byteChar b) with ⟨w, c', A', h2, h3⟩ | ⟨w, c0, h2, h3⟩
      · refine Or.inl ⟨w, c', A', Nat.le_succ_of_le h2, fun X => ?_⟩
        rw [List.cons_append, numLoop, if_pos h']
        exact h3 X
      · refine Or.inr ⟨w, c0, h2, fun X => ?_⟩
        rw [List.cons_append, numLoop, if_pos h']
        exact h3 X
    · exact Or.inl ⟨acc, c, b :: A, le_refl _,
        fun X => numLoop_of_not acc c _ (by simpa using h)⟩

theorem commentLoop_of_not (c : Int) (X : List Nat) (h : isCommentChar c = false) :
    commentLoop c X = (c, X) := by
  have h' : (c != EOF && c != ch '\n') = false := h
  cases X <;> simp [commentLoop, h']

theorem commentLoop_hash (c : Int) (X : List Nat) (h : isCommentChar c = true) :
    commentLoop c X = commentLoop (ch '#') X := by
  have h' : (c != EOF && c != ch '\n') = true := h
  have h2 : (ch '#' != EOF && ch '#' != ch '\n') = true := by decide
  cases X <;> simp [commentLoop, h', h2]

/-- The loop which skips a comment, on an input which starts with `A`. -/
theorem commentLoop_append (c : Int) (A : List Nat) :
    (∃ c' A', isCommentChar c' = false ∧ A'.length ≤ A.length ∧
        (isCommentChar c = true → A'.length < A.length) ∧
        ∀ X, commentLoop c (A ++ X) = (c', A' ++ X)) ∨
      (∀ X, commentLoop c (A ++ X) = commentLoop (ch '#') X) := by
  induction A generalizing c with
  | nil =>
    by_cases h : isCommentChar c = true
    · exact Or.inr (fun X => commentLoop_hash c X h)
    · exact Or.inl ⟨c, [], by simpa using h, le_refl _, fun hc => absurd hc h,
        fun X => commentLoop_of_not c _ (by simpa using h)⟩
  | cons b A ih =>
    by_cases h : isCommentChar c = true
    · have h' : (c != EOF && c != ch '\n') = true := h
      rcases ih (byteChar b) with ⟨c', A', h1, h2, -, h3⟩ | h3
      · refine Or.inl ⟨c', A', h1, Nat.le_succ_of_le h2, fun _ => Nat.lt_succ_of_le h2,
          fun X => ?_⟩
        rw [List.cons_append, commentLoop, if_pos h']
        exact h3 X
      · refine Or.inr (fun X => ?_)
        rw [List.cons_append, commentLoop, if_pos h']
        exact h3 X
    · exact Or.inl ⟨c, b :: A, by simpa using h, le_refl _, fun hc => absurd hc h,
        fun X => commentLoop_of_not c _ (by simpa using h)⟩

/-- The text of a comment, followed by a newline, is skipped up to the newline. -/
theorem commentLoop_body (S V : List Nat) (hS : ∀ b ∈ S, isCommentChar (byteChar b) = true)
    (c : Int) (hc : isCommentChar c = true) :
    commentLoop c (S ++ 10 :: V) = (ch '\n', V) := by
  have h' : (c != EOF && c != ch '\n') = true := hc
  induction S generalizing c with
  | nil =>
    rw [List.nil_append, commentLoop, if_pos h']
    exact commentLoop_of_not _ _ (by decide)
  | cons b S ih =>
    rw [List.cons_append, commentLoop, if_pos h']
    exact ih (fun x hx => hS x (List.mem_cons_of_mem _ hx)) _
      (hS b (List.mem_cons_self _ _)) (hS b (List.mem_cons_self _ _))

/-- A comment which holds no newline is skipped up to `EOF`. -/
theorem commentLoop_to_end (S : List Nat) (hS : ∀ b ∈ S, byteChar b ≠ ch '\n')
    (c : Int) (hc : c ≠ ch '\n') :
    (commentLoop c S).1 = EOF := by
  induction S generalizing c with
  | nil =>
    by_cases h : isCommentChar c = true
    · have h' : (c != EOF && c != ch '\n') = true := h
      simp [commentLoop, h', toChar_EOF]
    · rw [commentLoop_of_not c _ (by simpa using h)]
      simp only [isCommentChar, Bool.and_eq_true, bne_iff_ne, ne_eq, not_and, not_not] at h
      by_contra hne
      exact hc (h hne)
  | cons b S ih =>
    by_cases h : isCommentChar c = true
    · have h' : (c != EOF && c != ch '\n') = true := h
      rw [commentLoop, if_pos h']
      exact ih (fun x hx => hS x (List.mem_cons_of_mem _ hx)) _ (hS b (List.mem_cons_self _ _))
    · rw [commentLoop_of_not c _ (by simpa using h)]
      simp only [isCommentChar, Bool.and_eq_true, bne_iff_ne, ne_eq, not_and, not_not] at h
      by_contra hne
      exact hc (h hne)

theorem CommentRel.rfl {X1 X2 T1 : List Nat} {c2 : Int} {T2 : List Nat} (l : Lexer Val) :
    CommentRel X1 X2 T1 c2 T2 l l :=
  ⟨Eq.refl _, Eq.refl _, Or.inl ⟨Eq.refl _, Or.inr (Or.inl (Eq.refl _))⟩⟩

/-- The step of `gettok` when the one state has just read the `#` of the comment and the other
the character which stands in its place. -/
theorem gettok_commentRel_head (X1 X2 T1 : List Nat) (c2 : Int) (T2 : List Nat)
    (hc2 : c2 = EOF ∨ c2 = ch '\n')
    (hT : commentLoop (ch '#') T1 = (c2, T2) ∨
      ((commentLoop (ch '#') T1).1 = EOF ∧ c2 = EOF))
    (l1 l2 : Lexer Val) (hid : l1.IdentifierStr = l2.IdentifierStr)
    (hnum : l1.NumVal = l2.NumVal) (h1 : l1.LastChar = ch '#') (hi1 : l1.input = T1)
    (h2 : l2.LastChar = c2) (hi2 : l2.input = T2) :
    (gettok strtod l1).1 = (gettok strtod l2).1 ∧
      CommentRel X1 X2 T1 c2 T2 (gettok strtod l1).2 (gettok strtod l2).2 := by
  rw [gettok_comment strtod l1 h1, hi1]
  rcases hT with hT | ⟨hT, hE⟩
  · rw [hT]
    simp only []
    rcases hc2 with hE | hN
    · have hl2 : l2.LastChar = EOF := h2.trans hE
      rw [gettok_at_EOF strtod l2 hl2]
      have hne : (c2 != EOF) = false := by rw [hE]; decide
      simp only [hne, Bool.false_eq_true, if_false]
      exact ⟨trivial, hid, hnum, Or.inl ⟨h2.symm, Or.inr (Or.inr hE)⟩⟩
    · have hne : (c2 != EOF) = true := by rw [hN]; decide
      simp only [hne, if_true]
      have e : ({ l1 with input := T2, LastChar := c2 } : Lexer Val) = l2 :=
        Lexer.ext hi2.symm h2.symm hid hnum
      rw [e]
      exact ⟨rfl, CommentRel.rfl _⟩
  · have hl2 : l2.LastChar = EOF := h2.trans hE
    rw [gettok_at_EOF strtod l2 hl2]
    have hne : ((commentLoop (ch '#') T1).1 != EOF) = false := by rw [hT]; decide
    simp only [hne, Bool.false_eq_true, if_false]
    exact ⟨trivial, hid, hnum, Or.inl ⟨hT.trans hl2.symm, Or.inr (Or.inr hT)⟩⟩

/-- One character read from `X2` gives `c2` and leaves `T2`. -/
theorem readChar_tail (X2 : List Nat) (c2 : Int) (T2 : List Nat)
    (hX2 : (X2 = [] ∧ c2 = EOF ∧ T2 = []) ∨ (X2 = 10 :: T2 ∧ c2 = ch '\n'))
    (l : Lexer Val) (h : l.input = X2) :
    (readChar l).LastChar = c2 ∧ (readChar l).input = T2 ∧
      (readChar l).IdentifierStr = l.IdentifierStr ∧ (readChar l).NumVal = l.NumVal := by
  rcases hX2 with ⟨rfl, rfl, rfl⟩ | ⟨rfl, rfl⟩
  · simp [readChar, h, toChar_EOF]
  · simp [readChar, h]
    decide

/-- The step of `gettok` when the unread inputs are a common part `A` followed by `X1` and
by `X2`. -/
theorem gettok_commentRel_pre (X1 X2 T1 : List Nat) (c2 : Int) (T2 : List Nat)
    (hX1 : X1 = 35 :: T1)
    (hX2 : (X2 = [] ∧ c2 = EOF ∧ T2 = []) ∨ (X2 = 10 :: T2 ∧ c2 = ch '\n'))
    (hT : commentLoop (ch '#') T1 = (c2, T2) ∨
      ((commentLoop (ch '#') T1).1 = EOF ∧ c2 = EOF)) :
    ∀ (N : Nat) (A : List Nat), A.length < N → ∀ (l1 l2 : Lexer Val),
      l1.LastChar = l2.LastChar → l1.IdentifierStr = l2.IdentifierStr →
      l1.NumVal = l2.NumVal → l1.input = A ++ X1 → l2.input = A ++ X2 →
      (gettok strtod l1).1 = (gettok strtod l2).1 ∧
        CommentRel X1 X2 T1 c2 T2 (gettok strtod l1).2 (gettok strtod l2).2 := by
  have hc2 : c2 = EOF ∨ c2 = ch '\n' := by
    rcases hX2 with ⟨-, h, -⟩ | ⟨-, h⟩
    · exact Or.inl h
    · exact Or.inr h
  have hc2alnum : isalnum c2 = false := by rcases hc2 with h | h <;> rw [h] <;> decide
  have hc2num : isnumchar c2 = false := by rcases hc2 with h | h <;> rw [h] <;> decide
  have hc2com : isCommentChar c2 = false := by rcases hc2 with h | h <;> rw [h] <;> decide
  have b35 : byteChar 35 = ch '#' := by decide
  have b10 : byteChar 10 = ch '\n' := by decide
  -- reading on from `X1` and from `X2`
  have sp1 : skipSpace (ch ' ') X1 = skipSpace (ch '#') T1 := by
    rw [hX1, skipSpace, if_pos (by decide), b35]
  have sp2 : skipSpace (ch ' ') X2 = skipSpace c2 T2 := by
    rcases hX2 with ⟨rfl, rfl, rfl⟩ | ⟨rfl, rfl⟩
    · decide
    · rw [skipSpace, if_pos (by decide), b10]
  have id1 : ∀ w, identLoop w X1 = (w, ch '#', T1) := by
    intro w
    rw [hX1, identLoop, b35, if_neg (by decide)]
  have id2 : ∀ w, identLoop w X2 = (w, c2, T2) := by
    intro w
    rcases hX2 with ⟨rfl, rfl, rfl⟩ | ⟨rfl, rfl⟩
    · simp [identLoop, toChar_EOF]
    · rw [identLoop, b10, if_neg (by decide)]
  have nm1 : ∀ w c0, isnumchar c0 = true → numLoop w c0 X1 = (w ++ [c0], ch '#', T1) := by
    intro w c0 h0
    have h0' : (isalnum c0 || c0 == ch '.') = true := h0
    rw [hX1, numLoop, if_pos h0', b35]
    exact numLoop_of_not _ _ _ (by decide)
  have nm2 : ∀ w c0, isnumchar c0 = true → numLoop w c0 X2 = (w ++ [c0], c2, T2) := by
    intro w c0 h0
    have h0' : (isalnum c0 || c0 == ch '.') = true := h0
    rcases hX2 with ⟨rfl, rfl, rfl⟩ | ⟨rfl, rfl⟩
    · simp [numLoop, h0', toChar_EOF]
    · rw [numLoop, if_pos h0', b10]
      exact numLoop_of_not _ _ _ (by decide)
  have cm1 : commentLoop (ch '#') X1 = commentLoop (ch '#') T1 := by
    rw [hX1, commentLoop, if_pos (by decide), b35]
  have cm2 : commentLoop (ch '#') X2 = (c2, T2) := by
    rcases hX2 with ⟨rfl, rfl, rfl⟩ | ⟨rfl, rfl⟩
    · simp [commentLoop, toChar_EOF]; decide
    · rw [commentLoop, if_pos (by decide), b10]
      exact commentLoop_of_not _ _ (by decide)
  intro N
  induction N with
  | zero => intro A hA; omega
  | succ N ih =>
    intro A hA l1 l2 hc hid hnum hi1 hi2
    rcases skipSpace_append l1.LastChar A with ⟨c', A', hsp, hlen, hX⟩ | hrun
    · have e1 : skipSpace l1.LastChar l1.input = (c', A' ++ X1) := by rw [hi1]; exact hX X1
      have e2 : skipSpace l2.LastChar l2.input = (c', A' ++ X2) := by
        rw [← hc, hi2]; exact hX X2
      rw [gettok_eq strtod l1, gettok_eq strtod l2, e1, e2]
      simp only []
      by_cases ha : isalpha c' = true
      · simp only [ha, if_true]
        rcases identLoop_append [c'] A' with ⟨w, c'', A'', -, hY⟩ | ⟨w, hY⟩
        · rw [hY X1, hY X2]
          simp only []
          split_ifs <;>
            exact ⟨rfl, rfl, hnum, Or.inl ⟨rfl, Or.inl ⟨A'', rfl, rfl⟩⟩⟩
        · rw [hY X1, hY X2, id1, id2]
          simp only []
          split_ifs <;> exact ⟨rfl, rfl, hnum, Or.inr ⟨rfl, rfl, rfl, rfl⟩⟩
      · simp only [ha, Bool.false_eq_true, if_false]
        by_cases hn : (isalnum c' || c' == ch '.') = true
        · simp only [hn, if_true]
          rcases numLoop_append [] c' A' with ⟨w, c'', A'', -, hY⟩ | ⟨w, c0, h0, hY⟩
          · rw [hY X1, hY X2]
            exact ⟨trivial, hid, rfl, Or.inl ⟨rfl, Or.inl ⟨A'', rfl, rfl⟩⟩⟩
          · rw [hY X1, hY X2, nm1 w c0 h0, nm2 w c0 h0]
            exact ⟨trivial, hid, rfl, Or.inr ⟨rfl, rfl, rfl, rfl⟩⟩
        · simp only [hn, Bool.false_eq_true, if_false]
          by_cases hh : (c' == ch '#') = true
          · simp only [hh, if_true]
            have hc' : c' = ch '#' := by simpa using hh
            subst hc'
            rcases commentLoop_append (ch '#') A' with ⟨c'', A'', hnc, -, hlt, hY⟩ | hY
            · rw [hY X1, hY X2]
              simp only []
              by_cases he : (c'' != EOF) = true
              · simp only [he, if_true]
                exact ih A'' (by have := hlt (by decide); omega) _ _ rfl hid hnum rfl rfl
              · simp only [he, Bool.false_eq_true, if_false]
                exact ⟨trivial, hid, hnum, Or.inl ⟨rfl, Or.inl ⟨A'', rfl, rfl⟩⟩⟩
            · rw [hY X1, hY X2, cm1, cm2]
              rcases hT with hT | ⟨hT, hE⟩
              · rw [hT]
                simp only []
                by_cases he : (c2 != EOF) = true
                · simp only [he, if_true]
                  have e : ({ l1 with input := T2, LastChar := c2 } : Lexer Val)
                      = { l2 with input := T2, LastChar := c2 } :=
                    Lexer.ext rfl rfl hid hnum
                  rw [e]
                  exact ⟨rfl, CommentRel.rfl _⟩
                · simp only [he, Bool.false_eq_true, if_false]
                  exact ⟨trivial, hid, hnum, Or.inl ⟨rfl, Or.inr (Or.inl rfl)⟩⟩
              · have he1 : ((commentLoop (ch '#') T1).1 != EOF) = false := by
                  rw [hT]; decide
                have he2 : (c2 != EOF) = false := by rw [hE]; decide
                simp only [he1, he2, Bool.false_eq_true, if_false]
                exact ⟨trivial, hid, hnum, Or.inl ⟨hT.trans hE.symm, Or.inr (Or.inr hT)⟩⟩
          · simp only [hh, Bool.false_eq_true, if_false]
            by_cases he : (c' == EOF) = true
            · simp only [he, if_true]
              exact ⟨trivial, hid, hnum, Or.inl ⟨rfl, Or.inl ⟨A', rfl, rfl⟩⟩⟩
            · simp only [he, Bool.false_eq_true, if_false]
              refine ⟨trivial, ?_⟩
              cases A' with
              | nil =>
                obtain ⟨r1, r2, r3, r4⟩ := readChar_tail X2 c2 T2 hX2
                  { l2 with input := [] ++ X2, LastChar := c' } rfl
                refine ⟨?_, ?_, Or.inr ⟨?_, ?_, r1, r2⟩⟩
                · rw [r3]; simp only [readChar, hX1, List.nil_append]; exact hid
                · rw [r4]; simp only [readChar, hX1, List.nil_append]; exact hnum
                · simp only [readChar, hX1, List.nil_append]; exact b35
                · simp only [readChar, hX1, List.nil_append]
              | cons b A'' =>
                simp only [readChar, List.cons_append]
                exact ⟨hid, hnum, Or.inl ⟨rfl, Or.inl ⟨A'', rfl, rfl⟩⟩⟩
    · have e1 : skipSpace l1.LastChar l1.input
          = skipSpace ({ l1 with input := T1, LastChar := ch '#' } : Lexer Val).LastChar
              ({ l1 with input := T1, LastChar := ch '#' } : Lexer Val).input := by
        rw [hi1, hrun X1, sp1]
      have e2 : skipSpace l2.LastChar l2.input
          = skipSpace ({ l2 with input := T2, LastChar := c2 } : Lexer Val).LastChar
              ({ l2 with input := T2, LastChar := c2 } : Lexer Val).input := by
        rw [← hc, hi2, hrun X2, sp2]
      rw [gettok_congr strtod l1 _ e1 rfl rfl, gettok_congr strtod l2 _ e2 rfl rfl]
      exact gettok_commentRel_head strtod X1 X2 T1 c2 T2 hc2 hT _ _ hid hnum rfl rfl rfl rfl

/-- The step of `gettok` on two related states: the tokens are equal and the states are
related again. -/
theorem gettok_commentRel (X1 X2 T1 : List Nat) (c2 : Int) (T2 : List Nat)
    (hX1 : X1 = 35 :: T1)
    (hX2 : (X2 = [] ∧ c2 = EOF ∧ T2 = []) ∨ (X2 = 10 :: T2 ∧ c2 = ch '\n'))
    (hT : commentLoop (ch '#') T1 = (c2, T2) ∨
      ((commentLoop (ch '#') T1).1 = EOF ∧ c2 = EOF))
    (l1 l2 : Lexer Val) (h : CommentRel X1 X2 T1 c2 T2 l1 l2) :
    (gettok strtod l1).1 = (gettok strtod l2).1 ∧
      CommentRel X1 X2 T1 c2 T2 (gettok strtod l1).2 (gettok strtod l2).2 := by
  obtain ⟨hid, hnum, ⟨hc, ⟨A, hi1, hi2⟩ | hi | hE⟩ | ⟨h1, hi1, h2, hi2⟩⟩ := h
  · exact gettok_commentRel_pre strtod X1 X2 T1 c2 T2 hX1 hX2 hT (A.length + 1) A
      (Nat.lt_succ_self _) l1 l2 hc hid hnum hi1 hi2
  · have e : l1 = l2 := Lexer.ext hi hc hid hnum
    rw [e]
    exact ⟨rfl, CommentRel.rfl _⟩
  · rw [gettok_at_EOF strtod l1 hE, gettok_at_EOF strtod l2 (hc.symm.trans hE)]
    exact ⟨rfl, hid, hnum, Or.inl ⟨hc, Or.inr (Or.inr hE)⟩⟩
  · have hc2 : c2 = EOF ∨ c2 = ch '\n' := by
      rcases hX2 with ⟨-, h, -⟩ | ⟨-, h⟩
      · exact Or.inl h
      · exact Or.inr h
    exact gettok_commentRel_head strtod X1 X2 T1 c2 T2 hc2 hT l1 l2 hid hnum h1 hi1 h2 hi2

/-- Related states give the same tokens, identifier texts and number values for ever. -/
theorem lexAll_commentRel (X1 X2 T1 : List Nat) (c2 : Int) (T2 : List Nat)
    (hX1 : X1 = 35 :: T1)
    (hX2 : (X2 = [] ∧ c2 = EOF ∧ T2 = []) ∨ (X2 = 10 :: T2 ∧ c2 = ch '\n'))
    (hT : commentLoop (ch '#') T1 = (c2, T2) ∨
      ((commentLoop (ch '#') T1).1 = EOF ∧ c2 = EOF))
    (n : Nat) : ∀ (l1 l2 : Lexer Val), CommentRel X1 X2 T1 c2 T2 l1 l2 →
      lexAll strtod n l1 = lexAll strtod n l2 := by
  induction n with
  | zero => intro l1 l2 _; rfl
  | succ n ih =>
    intro l1 l2 h
    obtain ⟨ht, hr⟩ := gettok_commentRel strtod X1 X2 T1 c2 T2 hX1 hX2 hT l1 l2 h
    rw [lexAll, lexAll, ht, hr.1, hr.2.1, ih _ _ hr]

/-- A comment which ends with a newline and holds neither a newline nor the byte 255, and a
comment which runs to the end of the input and holds no newline, are skipped: the tokens are
those of the input without the comment. -/
theorem lexAll_skips_comment (zero : Val) (U S V : List Nat) (n : Nat) :
    ((∀ b ∈ S, byteChar b ≠ ch '\n' ∧ byteChar b ≠ EOF) →
      lexAll strtod n (startLexer zero (U ++ [35] ++ S ++ [10] ++ V))
        = lexAll strtod n (startLexer zero (U ++ [10] ++ V))) ∧
    ((∀ b ∈ S, byteChar b ≠ ch '\n') →
      lexAll strtod n (startLexer zero (U ++ [35] ++ S))
        = lexAll strtod n (startLexer zero U)) := by
  constructor
  · intro hS
    have hS' : ∀ b ∈ S, isCommentChar (byteChar b) = true := by
      intro b hb
      obtain ⟨h1, h2⟩ := hS b hb
      simp [isCommentChar, h1, h2]
    apply lexAll_commentRel strtod (35 :: (S ++ 10 :: V)) (10 :: V) (S ++ 10 :: V) (ch '\n') V
      rfl (Or.inr ⟨rfl, rfl⟩) (Or.inl (commentLoop_body S V hS' _ (by decide)))
    refine ⟨rfl, rfl, Or.inl ⟨rfl, Or.inl ⟨U, ?_, ?_⟩⟩⟩
    · simp [startLexer, startState]
    · simp [startLexer, startState]
  · intro hS
    apply lexAll_commentRel strtod (35 :: S) [] S EOF []
      rfl (Or.inl ⟨rfl, rfl, rfl⟩) (Or.inr ⟨commentLoop_to_end S hS _ (by decide), rfl⟩)
    refine ⟨rfl, rfl, Or.inl ⟨rfl, Or.inl ⟨U, ?_, ?_⟩⟩⟩
    · simp [startLexer, startState]
    · simp [startLexer, startState]

end CommentSkipping

section Claims

variable {Val : Type} (strtod : List Int → Val)

/-- C1. With the default precedence table, on the tokens `a op1 b op2 c`, where `a`, `b`, `c`
are atoms (number tokens, or identifier tokens that are variable references), `op1` and
`op2` are operators of the table with `precedence(op1) < precedence(op2)`, and the next
token is not a binary operator, `ParseExpression` returns
`Binary(op1, a, Binary(op2, b, c))` and stops in front of that next token. -/
theorem ParseExpression_higher_precedence_binds_right (s : State Val) (op1 op2 : Int)
    (htab : IsDefaultTable s.BinopPrecedence)
    (ha : IsAtom strtod s)
    (h1 : (advance strtod 1 s).Curtok = op1) (hop1 : IsTableOp op1)
    (hb : IsAtom strtod (advance strtod 2 s))
    (h2 : (advance strtod 3 s).Curtok = op2) (hop2 : IsTableOp op2)
    (hc : IsAtom strtod (advance strtod 4 s))
    (hlt : tokPrec s.BinopPrecedence op1 < tokPrec s.BinopPrecedence op2)
    (hend : tokPrec s.BinopPrecedence (advance strtod 5 s).Curtok = -1)
    (n : Nat) (hn : 7 ≤ n) :
    ∃ s', ParseExpression strtod n s =
        some (some (ExprAST.Binary op1 (atomAST s)
          (ExprAST.Binary op2 (atomAST (advance strtod 2 s)) (atomAST (advance strtod 4 s)))),
          s') ∧
      Same s' (advance strtod 5 s) := by
  obtain ⟨m, rfl⟩ : ∃ m, n = m + 7 := ⟨n - 7, by omega⟩
  have p1 := hop1.tokPrec_pos htab
  have p2 := hop2.tokPrec_pos htab
  -- the first operand
  rw [ParseExpression, ParsePrimary_atom strtod s ha]
  simp only []
  -- the turn of the loop at `op1`: the right operand is completed by the recursive call
  obtain ⟨s3, hs3, e1⟩ := ParseBinOpRHS_climb strtod (m + 3) 0 (atomAST s)
    (getNextToken strtod s) (advance strtod 1 s) (Same.refl _)
    (by rw [advance_table, h1]; omega) hb
    (by rw [advance_table]
        show tokPrec _ (advance strtod 1 s).Curtok < tokPrec _ (advance strtod 3 s).Curtok
        rw [h1, h2]; exact hlt)
  rw [e1]
  -- the recursive call: one turn at `op2`, then it stops
  obtain ⟨s5, hs5, e2⟩ := ParseBinOpRHS_step strtod (m + 2)
    (tokPrec (advance strtod 1 s).BinopPrecedence (advance strtod 1 s).Curtok + 1)
    (atomAST (advance strtod 1 (advance strtod 1 s))) s3 (advance strtod 3 s) hs3
    (by rw [advance_table, advance_table, h1, h2]; omega) hc
    (by rw [advance_table]
        show tokPrec _ (advance strtod 5 s).Curtok ≤ tokPrec _ (advance strtod 3 s).Curtok
        rw [hend, h2]; omega)
  rw [e2]
  obtain ⟨s5', e3, hs5'⟩ := ParseBinOpRHS_stop strtod (m + 3)
    (tokPrec (advance strtod 1 s).BinopPrecedence (advance strtod 1 s).Curtok + 1)
    (ExprAST.Binary (toChar (advance strtod 3 s).Curtok)
      (atomAST (advance strtod 1 (advance strtod 1 s)))
      (atomAST (advance strtod 1 (advance strtod 3 s)))) s5 (advance strtod 5 s) hs5
    (by rw [advance_table, advance_table, hend, h1]; omega)
  rw [e3]
  simp only []
  -- back in the outer loop: it stops
  obtain ⟨s6, e4, hs6⟩ := ParseBinOpRHS_stop strtod (m + 4) 0
    (ExprAST.Binary (toChar (advance strtod 1 s).Curtok) (atomAST s)
      (ExprAST.Binary (toChar (advance strtod 3 s).Curtok)
        (atomAST (advance strtod 1 (advance strtod 1 s)))
        (atomAST (advance strtod 1 (advance strtod 3 s))))) s5' (advance strtod 5 s) hs5'
    (by rw [advance_table, hend]; omega)
  rw [e4, h1, h2, hop1.toChar, hop2.toChar]
  exact ⟨s6, rfl, hs6⟩

/-- Witness of C1: `1+2*3` gives `Binary('+', Number(1), Binary('*', Number(2), Number(3)))`,
and the parse stops at the end of the input. -/
theorem ParseExpression_higher_precedence_binds_right_witness :
    ∃ s', ParseExpression decimal 7 (entry "1+2*3") =
        some (some (ExprAST.Binary (ch '+') (ExprAST.Number 1)
          (ExprAST.Binary (ch '*') (ExprAST.Number 2) (ExprAST.Number 3))), s') ∧
      Same s' (advance decimal 5 (entry "1+2*3")) ∧ s'.Curtok = tok_eof := by
  obtain ⟨s', h, hs⟩ := ParseExpression_higher_precedence_binds_right decimal (entry "1+2*3")
    (ch '+') (ch '*') (fun _ => rfl) (by decide) (by decide) (by decide) (by decide)
    (by decide) (by decide) (by decide) (by decide) (by decide) 7 (le_refl 7)
  exact ⟨s', h, hs, hs.2.1.trans (by decide)⟩

/-- C2. With the default precedence table, on the tokens `a0 op1 a1 ... opn an` (`n ≥ 1`),
where the `ai` are atoms (number tokens, or identifier tokens that are variable references)
and the `opi` are operators of the table of one and the same precedence, and the next
token is not a binary operator, `ParseExpression` returns the left-nested tree
`Binary(opn, ... Binary(op2, Binary(op1, a0, a1), a2) ..., an)` and stops in front of that
next token. -/
theorem ParseExpression_equal_precedence_nests_left (s : State Val) (n : Nat) (hn : 1 ≤ n)
    (p : Int) (htab : IsDefaultTable s.BinopPrecedence)
    (ha : IsAtom strtod s)
    (hops : ∀ i, i < n → IsTableOp (advance strtod (2 * i + 1) s).Curtok ∧
      tokPrec s.BinopPrecedence (advance strtod (2 * i + 1) s).Curtok = p ∧
      IsAtom strtod (advance strtod (2 * i + 2) s))
    (hend : tokPrec s.BinopPrecedence (advance strtod (2 * n + 1) s).Curtok = -1)
    (fuel : Nat) (hf : n + 3 ≤ fuel) :
    ∃ s', ParseExpression strtod fuel s =
        some (some (leftNested strtod n (advance strtod 1 s) (atomAST s)), s') ∧
      Same s' (advance strtod (2 * n + 1) s) := by
  obtain ⟨m, rfl⟩ : ∃ m, fuel = m + 3 := ⟨fuel - 3, by omega⟩
  have hp : 0 ≤ p := by
    have h0 := hops 0 (by omega)
    have := h0.1.tokPrec_pos htab
    omega
  have e1 : ∀ i, advance strtod (2 * i) (advance strtod 1 s) = advance strtod (2 * i + 1) s :=
    fun i => by rw [← advance_add]; congr 1; omega
  have e2 : ∀ i, advance strtod (2 * i + 1) (advance strtod 1 s)
      = advance strtod (2 * i + 2) s :=
    fun i => by rw [← advance_add]; congr 1; omega
  rw [ParseExpression, ParsePrimary_atom strtod s ha]
  simp only []
  obtain ⟨s', e, hs'⟩ := ParseBinOpRHS_flat strtod p 0 hp n (atomAST s)
    (getNextToken strtod s) (advance strtod 1 s) (m + 2) (by omega) (Same.refl _)
    (fun i hi => by
      have := hops i hi
      rw [e1, e2, advance_table]
      exact ⟨this.2.1, this.1.toChar, this.2.2⟩)
    (by rw [e1, advance_table, hend]; omega)
  exact ⟨s', e, by rw [← e1]; exact hs'⟩

/-- Witness of C2: `1-2-3` gives `Binary('-', Binary('-', Number(1), Number(2)), Number(3))`,
and the parse stops at the end of the input. -/
theorem ParseExpression_equal_precedence_nests_left_witness :
    ∃ s', ParseExpression decimal 5 (entry "1-2-3") =
        some (some (ExprAST.Binary (ch '-')
          (ExprAST.Binary (ch '-') (ExprAST.Number 1) (ExprAST.Number 2))
          (ExprAST.Number 3)), s') ∧
      Same s' (advance decimal 5 (entry "1-2-3")) ∧ s'.Curtok = tok_eof := by
  obtain ⟨s', h, hs⟩ := ParseExpression_equal_precedence_nests_left decimal (entry "1-2-3")
    2 (by decide) 20 (fun _ => rfl) (by decide)
    (fun i hi => by
      have hi' : i = 0 ∨ i = 1 := by omega
      rcases hi' with rfl | rfl <;> decide)
    (by decide) 5 (le_refl 5)
  exact ⟨s', h, hs, hs.2.1.trans (by decide)⟩

/-- C3. With the default precedence table, on the tokens `( a op1 b ) op2 c`, where `a`,
`b`, `c` are atoms and `op1`, `op2` are operators of the table, whatever their precedences,
and the next token is not a binary operator, `ParseExpression` returns
`Binary(op2, Binary(op1, a, b), c)`: the parenthesised expression is one primary, its `)` is
consumed, and no node stands for the parentheses. -/
theorem ParseExpression_parenthesised_operand (s : State Val) (op1 op2 : Int)
    (htab : IsDefaultTable s.BinopPrecedence)
    (hl : s.Curtok = ch '(')
    (ha : IsAtom strtod (advance strtod 1 s))
    (h1 : (advance strtod 2 s).Curtok = op1) (hop1 : IsTableOp op1)
    (hb : IsAtom strtod (advance strtod 3 s))
    (hr : (advance strtod 4 s).Curtok = ch ')')
    (h2 : (advance strtod 5 s).Curtok = op2) (hop2 : IsTableOp op2)
    (hc : IsAtom strtod (advance strtod 6 s))
    (hend : tokPrec s.BinopPrecedence (advance strtod 7 s).Curtok = -1)
    (n : Nat) (hn : 7 ≤ n) :
    ∃ s', ParseExpression strtod n s =
        some (some (ExprAST.Binary op2
          (ExprAST.Binary op1 (atomAST (advance strtod 1 s)) (atomAST (advance strtod 3 s)))
          (atomAST (advance strtod 6 s))), s') ∧
      Same s' (advance strtod 7 s) := by
  obtain ⟨m, rfl⟩ : ∃ m, n = m + 7 := ⟨n - 7, by omega⟩
  have p1 := hop1.tokPrec_pos htab
  have p2 := hop2.tokPrec_pos htab
  have hrp : tokPrec s.BinopPrecedence (ch ')') = -1 := by
    rw [tokPrec_default htab]; decide
  -- inside the parentheses: `a op1 b`, left in front of `)`
  obtain ⟨s4, hs4, e1⟩ := ParseBinOpRHS_step strtod m 0 (atomAST (advance strtod 1 s))
    (advance strtod 2 s) (advance strtod 2 s) (Same.refl _)
    (by rw [advance_table, h1]; omega) (by rw [advance_advance]; exact hb)
    (by rw [advance_table, advance_advance, hr, h1, hrp]; omega)
  rw [advance_advance] at hs4 e1
  obtain ⟨s4', e2, hs4'⟩ := ParseBinOpRHS_stop strtod (m + 1) 0
    (ExprAST.Binary (toChar (advance strtod 2 s).Curtok) (atomAST (advance strtod 1 s))
      (atomAST (advance strtod 3 s))) s4 (advance strtod 4 s) hs4
    (by rw [advance_table, hr, hrp]; omega)
  have hin : ParseExpression strtod (m + 4) (advance strtod 1 s) =
      some (some (ExprAST.Binary op1 (atomAST (advance strtod 1 s))
        (atomAST (advance strtod 3 s))), s4') := by
    rw [ParseExpression, ParsePrimary_atom strtod _ ha]
    simp only [getNextToken_eq_advance, advance_advance]
    rw [e1, e2, h1, hop1.toChar]
  -- the parenthesised primary
  have hs5 : Same (advance strtod 1 s4') (advance strtod 5 s) := by
    have := Same.advance strtod hs4' 1
    rwa [advance_advance] at this
  have hprim : ParsePrimary strtod (m + 6) s =
      some (some (ExprAST.Binary op1 (atomAST (advance strtod 1 s))
        (atomAST (advance strtod 3 s))), advance strtod 1 s4') := by
    have hc4 : s4'.Curtok = ch ')' := hs4'.2.1.trans hr
    rw [ParsePrimary, ParseParenExpr]
    simp only [getNextToken_eq_advance]
    rw [hin]
    simp [hl, hc4, ch_lparen, tok_identifier, tok_number]
  -- the loop at `op2`
  obtain ⟨s7, hs7, e3⟩ := ParseBinOpRHS_step strtod (m + 3) 0
    (ExprAST.Binary op1 (atomAST (advance strtod 1 s)) (atomAST (advance strtod 3 s)))
    (advance strtod 1 s4') (advance strtod 5 s) hs5
    (by rw [advance_table, h2]; omega) (by rw [advance_advance]; exact hc)
    (by rw [advance_table, advance_advance, hend, h2]; omega)
  rw [advance_advance] at hs7 e3
  obtain ⟨s7', e4, hs7'⟩ := ParseBinOpRHS_stop strtod (m + 4) 0
    (ExprAST.Binary (toChar (advance strtod 5 s).Curtok)
      (ExprAST.Binary op1 (atomAST (advance strtod 1 s)) (atomAST (advance strtod 3 s)))
      (atomAST (advance strtod 6 s))) s7 (advance strtod 7 s) hs7
    (by rw [advance_table, hend]; omega)
  refine ⟨s7', ?_, hs7'⟩
  rw [ParseExpression, hprim]
  simp only []
  rw [e3, e4, h2, hop2.toChar]

/-- Witness of C3: `(1+2)*3` gives `Binary('*', Binary('+', Number(1), Number(2)), Number(3))`,
and the parse stops at the end of the input. -/
theorem ParseExpression_parenthesised_operand_witness :
    ∃ s', ParseExpression decimal 7 (entry "(1+2)*3") =
        some (some (ExprAST.Binary (ch '*')
          (ExprAST.Binary (ch '+') (ExprAST.Number 1) (ExprAST.Number 2))
          (ExprAST.Number 3)), s') ∧
      Same s' (advance decimal 7 (entry "(1+2)*3")) ∧ s'.Curtok = tok_eof := by
  obtain ⟨s', h, hs⟩ := ParseExpression_parenthesised_operand decimal (entry "(1+2)*3")
    (ch '+') (ch '*') (fun _ => rfl) (by decide) (by decide) (by decide) (by decide)
    (by decide) (by decide) (by decide) (by decide) (by decide) (by decide) 7 (le_refl 7)
  exact ⟨s', h, hs, hs.2.1.trans (by decide)⟩

/-- C4. `ParseIdentifierExpr` returns `Variable(x)`, `x` being the identifier text on entry,
when the token following the identifier is not `(`: it then consumes the identifier only,
so that the following token is the current token on return, and the node carries the text
the identifier had on entry.  When the following token is `(`, it returns (given fuel
enough) a failure or a `Call` node, never a `Variable`. -/
theorem ParseIdentifierExpr_variable_iff_no_lparen (s : State Val) :
    ((getNextToken strtod s).Curtok ≠ ch '(' → ∀ n, 1 ≤ n →
      ParseIdentifierExpr strtod n s =
        some (some (ExprAST.Variable s.lex.IdentifierStr), getNextToken strtod s)) ∧
    ((getNextToken strtod s).Curtok = ch '(' → ∀ n, 3 * s.weight + 3 ≤ n →
      ∃ r s', ParseIdentifierExpr strtod n s = some (r, s') ∧
        (r = none ∨ ∃ Args, r = some (ExprAST.Call s.lex.IdentifierStr Args)) ∧
        ∀ x, r ≠ some (ExprAST.Variable x)) := by
  constructor
  · intro h n hn
    obtain ⟨m, rfl⟩ : ∃ m, n = m + 1 := ⟨n - 1, by omega⟩
    simp [ParseIdentifierExpr, h]
  · intro h n hn
    obtain ⟨⟨r, s'⟩, hr⟩ := (parse_terminates strtod n).2.2.1 s hn
    refine ⟨r, s', hr, ?_⟩
    obtain ⟨m, rfl⟩ : ∃ m, n = m + 1 := ⟨n - 1, by omega⟩
    simp only [ParseIdentifierExpr, h, ne_eq, not_true_eq_false, if_false] at hr
    split at hr
    · split at hr
      · cases hr
      · cases hr
        exact ⟨Or.inl rfl, fun x hx => by cases hx⟩
      · cases hr
        exact ⟨Or.inr ⟨_, rfl⟩, fun x hx => by cases hx⟩
    · cases hr
      exact ⟨Or.inr ⟨_, rfl⟩, fun x hx => by cases hx⟩

/-- Witness of C4: `x` gives `Variable("x")`, and the token after it, here the end of the
input, is the current token on return; `x y` gives `Variable("x")` although the identifier
text is `y` on return. -/
theorem ParseIdentifierExpr_variable_iff_no_lparen_witness :
    (ParseIdentifierExpr decimal 1 (entry "x") =
        some (some (ExprAST.Variable (str "x")), getNextToken decimal (entry "x")) ∧
      (getNextToken decimal (entry "x")).Curtok = tok_eof) ∧
    (ParseIdentifierExpr decimal 1 (entry "x y") =
        some (some (ExprAST.Variable (str "x")), getNextToken decimal (entry "x y")) ∧
      (getNextToken decimal (entry "x y")).lex.IdentifierStr = str "y") :=
  ⟨⟨(ParseIdentifierExpr_variable_iff_no_lparen decimal (entry "x")).1 (by decide) 1
      (le_refl 1), by decide⟩,
    ⟨(ParseIdentifierExpr_variable_iff_no_lparen decimal (entry "x y")).1 (by decide) 1
      (le_refl 1), by decide⟩⟩

/-- C5. On the tokens `f ( e1 , e2 , ... , en )`, where `ParseExpression` parses each `ei`
to a tree `ti` and stops at the `,` or `)` after it, `ParseIdentifierExpr` returns
`Call(f, [t1, ..., tn])`, `f` being the identifier text on entry, with the arguments in source
order, and consumes the closing `)`; with no argument it returns `Call(f, [])`. -/
theorem ParseIdentifierExpr_call (s : State Val)
    (hl : (advance strtod 1 s).Curtok = ch '(') :
    ((advance strtod 2 s).Curtok = ch ')' → ∀ n, 1 ≤ n →
      ParseIdentifierExpr strtod n s =
        some (some (ExprAST.Call s.lex.IdentifierStr []), advance strtod 3 s)) ∧
    (∀ ts s', ArgsFrom strtod (advance strtod 2 s) ts s' → ∃ N, ∀ n, N ≤ n →
      ParseIdentifierExpr strtod n s =
        some (some (ExprAST.Call s.lex.IdentifierStr ts), getNextToken strtod s')) := by
  have hl' : (getNextToken strtod s).Curtok = ch '(' := hl
  constructor
  · intro hr n hn
    obtain ⟨m, rfl⟩ : ∃ m, n = m + 1 := ⟨n - 1, by omega⟩
    have hr' : (getNextToken strtod (getNextToken strtod s)).Curtok = ch ')' := hr
    simp only [ParseIdentifierExpr, hl', hr', ne_eq, not_true_eq_false, if_false]
    rfl
  · intro ts s' h
    have hne : (getNextToken strtod (getNextToken strtod s)).Curtok ≠ ch ')' :=
      h.first_ne_rparen strtod
    obtain ⟨_, hargs⟩ := ParseIdentifierExpr_args_of_ArgsFrom strtod h
    obtain ⟨N, hN⟩ := hargs []
    refine ⟨N + 1, fun n hn => ?_⟩
    obtain ⟨m, rfl⟩ : ∃ m, n = m + 1 := ⟨n - 1, by omega⟩
    have h2 : ParseIdentifierExpr.args strtod m []
        (getNextToken strtod (getNextToken strtod s)) = some (some ts, s') := by
      simpa using hN m (by omega)
    simp only [ParseIdentifierExpr, hl', hne, ne_eq, not_true_eq_false, not_false_eq_true,
      if_false, if_true, h2]

/-- Witness of C5: `x()` gives `Call("x", [])` and `x(1,2)` gives
`Call("x", [Number(1), Number(2)])`. -/
theorem ParseIdentifierExpr_call_witness :
    ParseIdentifierExpr decimal 1 (entry "x()") =
        some (some (ExprAST.Call (str "x") []), advance decimal 3 (entry "x()")) ∧
      ∃ s', ArgsFrom decimal (advance decimal 2 (entry "x(1,2)"))
          [ExprAST.Number 1, ExprAST.Number 2] s' ∧
        ∃ N, ∀ n, N ≤ n → ParseIdentifierExpr decimal n (entry "x(1,2)") =
          some (some (ExprAST.Call (str "x") [ExprAST.Number 1, ExprAST.Number 2]),
            getNextToken decimal s') := by
  refine ⟨(ParseIdentifierExpr_call decimal (entry "x()") (by decide)).1 (by decide) 1
    (le_refl 1), ?_⟩
  obtain ⟨r1, h1, c1, r2, h2, c2⟩ :
      ∃ r1, ParseExpression decimal 3 (advance decimal 2 (entry "x(1,2)"))
          = some (some (ExprAST.Number 1), r1) ∧ r1.Curtok = ch ',' ∧
        ∃ r2, ParseExpression decimal 3 (getNextToken decimal r1)
          = some (some (ExprAST.Number 2), r2) ∧ r2.Curtok = ch ')' :=
    ⟨_, rfl, by decide, _, rfl, by decide⟩
  have hargs : ArgsFrom decimal (advance decimal 2 (entry "x(1,2)"))
      [ExprAST.Number 1, ExprAST.Number 2] r2 :=
    ArgsFrom.more _ _ r1 _ _ ⟨3, h1⟩ c1 (ArgsFrom.last _ _ _ ⟨3, h2⟩ c2)
  exact ⟨r2, hargs,
    (ParseIdentifierExpr_call decimal (entry "x(1,2)") (by decide)).2 _ _ hargs⟩

/-- C6. On the tokens `f ( p1 p2 ... pn )`, where `f` and the `pi` are identifier tokens
(`n ≥ 0`), `ParsePrototype` returns `Prototype(f, [p1, ..., pn])` with the parameters in source
order, and the current token on return is the token after `)`. -/
theorem ParsePrototype_identifier_list (s : State Val) (k : Nat)
    (hf : s.Curtok = tok_identifier)
    (hl : (advance strtod 1 s).Curtok = ch '(')
    (hp : ∀ i, i < k → (advance strtod (i + 2) s).Curtok = tok_identifier)
    (hr : (advance strtod (k + 2) s).Curtok = ch ')')
    (n : Nat) (hn : k + 1 ≤ n) :
    ParsePrototype strtod n s =
      some (some { Name := s.lex.IdentifierStr,
                   Args := (List.range k).map
                     (fun i => (advance strtod (i + 2) s).lex.IdentifierStr) },
        advance strtod (k + 3) s) := by
  have hl' : (getNextToken strtod s).Curtok = ch '(' := hl
  have hargs := ParsePrototype_args_identifiers strtod k [] (getNextToken strtod s) n hn
    (fun i hi => hp i hi)
    (by
      show (advance strtod (k + 2) s).Curtok ≠ tok_identifier
      rw [hr]; decide)
  have hr' : (advance strtod (k + 1) (getNextToken strtod s)).Curtok = ch ')' := hr
  have e1 : getNextToken strtod (advance strtod (k + 1) (getNextToken strtod s))
      = advance strtod (k + 3) s := by
    rw [getNextToken_eq_advance, getNextToken_eq_advance, advance_advance, advance_advance]
    congr 1
    omega
  simp only [ParsePrototype, hf, hl', hargs, hr', ne_eq, not_true_eq_false, if_false,
    List.nil_append, e1]
  rfl

/-- Witness of C6: `foo(a b c)` gives `Prototype("foo", ["a", "b", "c"])`, and the current
token on return is the token after `)`, here the end of the input. -/
theorem ParsePrototype_identifier_list_witness :
    ParsePrototype decimal 4 (entry "foo(a b c)") =
        some (some { Name := str "foo", Args := [str "a", str "b", str "c"] },
          advance decimal 6 (entry "foo(a b c)")) ∧
      (advance decimal 6 (entry "foo(a b c)")).Curtok = tok_eof :=
  ⟨ParsePrototype_identifier_list decimal (entry "foo(a b c)") 3 (by decide) (by decide)
    (fun i hi => by
      have hi' : i = 0 ∨ i = 1 ∨ i = 2 := by omega
      rcases hi' with rfl | rfl | rfl <;> decide)
    (by decide) 4 (le_refl 4), by decide⟩

/-- C7. On the tokens `f ( p1 ... pk t`, where `f` and the `pi` are identifier tokens
(`k ≥ 0`) and `t` is neither an identifier nor `)`, for instance a `,`, `ParsePrototype`
fails: no prototype is returned, and the current token on return is the offending token `t`,
the lexer state being the one in which `t` was read. -/
theorem ParsePrototype_rejects_non_identifier (s : State Val) (k : Nat)
    (hf : s.Curtok = tok_identifier)
    (hl : (advance strtod 1 s).Curtok = ch '(')
    (hp : ∀ i, i < k → (advance strtod (i + 2) s).Curtok = tok_identifier)
    (hbad : (advance strtod (k + 2) s).Curtok ≠ tok_identifier)
    (hbad' : (advance strtod (k + 2) s).Curtok ≠ ch ')')
    (n : Nat) (hn : k + 1 ≤ n) :
    ∃ s', ParsePrototype strtod n s = some (none, s') ∧
      s'.Curtok = (advance strtod (k + 2) s).Curtok ∧
      s'.lex = (advance strtod (k + 2) s).lex := by
  have hl' : (getNextToken strtod s).Curtok = ch '(' := hl
  have hargs := ParsePrototype_args_identifiers strtod k [] (getNextToken strtod s) n hn
    (fun i hi => hp i hi) hbad
  have hr' : (advance strtod (k + 1) (getNextToken strtod s)).Curtok ≠ ch ')' := hbad'
  refine ⟨eprint "Error: Expected ')' in prototype\n" (advance strtod (k + 2) s), ?_, rfl, rfl⟩
  simp only [ParsePrototype, hf, hl', hargs, hr', ne_eq, not_true_eq_false, if_false,
    not_false_eq_true, if_true]
  rfl

/-- Witness of C7: `foo(a,b)` fails with the current token `,`. -/
theorem ParsePrototype_rejects_non_identifier_witness :
    ∃ s', ParsePrototype decimal 2 (entry "foo(a,b)") = some (none, s') ∧
      s'.Curtok = ch ',' := by
  obtain ⟨s', h, hc, _⟩ := ParsePrototype_rejects_non_identifier decimal (entry "foo(a,b)") 1
    (by decide) (by decide)
    (fun i hi => by
      have hi' : i = 0 := by omega
      subst hi'; decide)
    (by decide) (by decide) 2 (le_refl 2)
  exact ⟨s', h, hc.trans (by decide)⟩

/-- C8 (amended). When the parse entry chosen by the driver fails on the first statement, and
the statement which starts right after the offending token (the token which is current when
the parse fails) is well-formed and ends the input, the driver produces exactly one failure
followed by exactly one successful parse: `MainLoop` prints one `Error:` line, then one
`Parsed ...` line, and returns at the end of the input.  The recovery step is a single
`getNextToken`: it skips the offending token and nothing else, so the second parse starts at
the token after the offending token. -/
theorem MainLoop_one_failure_then_one_success (s s1 s2 : State Val) (k : Nat)
    (h1 : s.Curtok ≠ tok_eof) (h2 : s.Curtok ≠ ch ';')
    (hfail : parseEntry strtod k (eprint "Output>> " s) = some (false, s1))
    (h3 : (getNextToken strtod s1).Curtok ≠ tok_eof)
    (h4 : (getNextToken strtod s1).Curtok ≠ ch ';')
    (hok : parseEntry strtod k (eprint "Output>> " (getNextToken strtod s1)) = some (true, s2))
    (hend : s2.Curtok = tok_eof) :
    ∃ msg, ∀ n, k + 3 ≤ n → ∃ s', MainLoop strtod n s = some s' ∧
      s'.stderr = s.stderr ++ ["Output>> ", "Error: " ++ msg ++ "\n", "Output>> ",
        parsedLine (getNextToken strtod s1).Curtok, "Output>> "] ∧
      s'.lex = s2.lex ∧ s'.Curtok = tok_eof := by
  obtain ⟨msg, hmsg⟩ := parseEntry_reported strtod _ _ _ _ hfail
  have hs2 : s2.stderr = _ := parseEntry_reported strtod _ _ _ _ hok
  refine ⟨msg, fun n hn => ?_⟩
  obtain ⟨m, rfl⟩ : ∃ m, n = m + 3 := ⟨n - 3, by omega⟩
  have e1 := parseEntry_mono strtod k (m + 2) (by omega) _ _ hfail
  have e2 := parseEntry_mono strtod k (m + 1) (by omega) _ _ hok
  have hne : s2.Curtok ≠ ch ';' := by rw [hend]; decide
  refine ⟨eprint "Output>> " (eprint (parsedLine (getNextToken strtod s1).Curtok) s2),
    ?_, ?_, rfl, hend⟩
  · have d1 : MainLoop.dispatch strtod (m + 2) (eprint "Output>> " s)
        = some (getNextToken strtod s1) := by
      rw [dispatch_eq_parseEntry strtod (m + 2) (eprint "Output>> " s) h2, e1]
      rfl
    have d2 : MainLoop.dispatch strtod (m + 1) (eprint "Output>> " (getNextToken strtod s1))
        = some (eprint (parsedLine (getNextToken strtod s1).Curtok) s2) := by
      rw [dispatch_eq_parseEntry strtod (m + 1) (eprint "Output>> " (getNextToken strtod s1)) h4,
        e2]
      rfl
    have c1 : (eprint "Output>> " s).Curtok ≠ tok_eof := h1
    have c2 : (eprint "Output>> " (getNextToken strtod s1)).Curtok ≠ tok_eof := h3
    have c3 : (eprint "Output>> "
        (eprint (parsedLine (getNextToken strtod s1).Curtok) s2)).Curtok = tok_eof := hend
    have c4 : (eprint (parsedLine (getNextToken strtod s1).Curtok) s2).Curtok ≠ ch ';' := hne
    rw [MainLoop]
    simp only [h2, if_false, c1, d1]
    rw [MainLoop]
    simp only [h4, if_false, c2, d2]
    rw [MainLoop]
    simp only [c4, if_false, c3, if_true]
  · show (s2.stderr ++ [parsedLine (getNextToken strtod s1).Curtok]) ++ ["Output>> "] = _
    rw [hs2]
    show (((getNextToken strtod s1).stderr ++ ["Output>> "]) ++ _) ++ _ = _
    have : (getNextToken strtod s1).stderr = s1.stderr := rfl
    rw [this, hmsg]
    show ((((s.stderr ++ ["Output>> "]) ++ _) ++ _) ++ _) ++ _ = _
    simp

/-- Witness of C8 (amended): on `def foo;1+2` the definition fails at `;`, the recovery step
skips that `;`, the expression `1+2` which starts right after it is parsed, and the driver
prints exactly one error line followed by exactly one success line. -/
theorem MainLoop_one_failure_then_one_success_witness :
    ∃ msg, ∀ n, 13 ≤ n → ∃ s', MainLoop decimal n (entry "def foo;1+2") = some s' ∧
      s'.stderr = ["Input<< ", "Output>> ", "Error: " ++ msg ++ "\n", "Output>> ",
        "Parsed a top level expression.\n", "Output>> "] ∧
      s'.Curtok = tok_eof := by
  have hrun : (parseEntry decimal 10 (eprint "Output>> " (entry "def foo;1+2"))).map
      (fun r => (r.1, (getNextToken decimal r.2).Curtok,
        (parseEntry decimal 10 (eprint "Output>> " (getNextToken decimal r.2))).map
          (fun r2 => (r2.1, r2.2.Curtok)))) = some (false, tok_number, some (true, tok_eof)) := by
    decide!
  obtain ⟨⟨ok1, s1⟩, hfail, h⟩ := exists_of_map_eq_some hrun
  simp only [Prod.mk.injEq] at h
  obtain ⟨rfl, hcur, h⟩ := h
  obtain ⟨⟨ok2, s2⟩, hok, h⟩ := exists_of_map_eq_some h
  simp only [Prod.mk.injEq] at h
  obtain ⟨rfl, hend⟩ := h
  obtain ⟨msg, h⟩ := MainLoop_one_failure_then_one_success decimal (entry "def foo;1+2") s1 s2 10
    (by decide) (by decide) hfail (by rw [hcur]; decide) (by rw [hcur]; decide) hok hend
  refine ⟨msg, fun n hn => ?_⟩
  obtain ⟨s', e, hs, _, hc⟩ := h n hn
  refine ⟨s', e, ?_, hc⟩
  rw [hs, hcur]
  rfl

/-- Counterexample to C8 as stated: the input `def foo(a,b) a+b;1` is the malformed definition
`def foo(a,b) a+b` followed by the well-formed statement `1`.  `ParseDefinition` fails on the
first (at the `,`), and `ParseTopLevelExpr` succeeds on the second taken alone; but after
the recovery step the current token is the identifier `b` of the first statement, not the
first token of the second statement, and the driver reports two failures and three
successful parses. -/
theorem MainLoop_recovery_counterexample :
    (ParseDefinition decimal 20 (eprint "Output>> " (entry "def foo(a,b) a+b;1"))).map
        (fun r => (r.1.isSome, r.2.Curtok, (getNextToken decimal r.2).Curtok,
          (getNextToken decimal r.2).lex.IdentifierStr))
      = some (false, ch ',', tok_identifier, str "b") ∧
    (ParseTopLevelExpr decimal 20 (entry "1")).map (fun r => (r.1.isSome, r.2.Curtok))
      = some (true, tok_eof) ∧
    (main decimal 40 0 (bytes "def foo(a,b) a+b;1")).map (fun s => s.stderr) =
      some ["Input<< ",
        "Output>> ", "Error: Expected ')' in prototype\n",
        "Output>> ", "Parsed a top level expression.\n",
        "Output>> ", "Error: unknow token!\n",
        "Output>> ", "Parsed a top level expression.\n",
        "Input<< ",
        "Output>> ", "Parsed a top level expression.\n",
        "Output>> "] :=
  ⟨by decide!, by decide!, by decide!⟩

/-- C9. In a state whose current token is not an identifier, a number or `(`, the functions
`ParsePrimary`, `ParseExpression` and `ParseTopLevelExpr` return failure, and in a state whose
current token is not an identifier `ParsePrototype` returns failure; the state on return
has the lexer state (pending character, unread input, identifier text, number value), the
current token and the table of the state on entry: nothing was consumed. -/
theorem parse_failure_consumes_nothing (s : State Val) :
    (s.Curtok ≠ tok_identifier → s.Curtok ≠ tok_number → s.Curtok ≠ ch '(' →
      ∃ s', s'.lex = s.lex ∧ s'.Curtok = s.Curtok ∧ s'.BinopPrecedence = s.BinopPrecedence ∧
        (∀ n, 1 ≤ n → ParsePrimary strtod n s = some (none, s')) ∧
        (∀ n, 2 ≤ n → ParseExpression strtod n s = some (none, s')) ∧
        (∀ n, 2 ≤ n → ParseTopLevelExpr strtod n s = some (none, s'))) ∧
    (s.Curtok ≠ tok_identifier →
      ∃ s', s'.lex = s.lex ∧ s'.Curtok = s.Curtok ∧ s'.BinopPrecedence = s.BinopPrecedence ∧
        ∀ n, ParsePrototype strtod n s = some (none, s')) := by
  constructor
  · intro h1 h2 h3
    refine ⟨eprint "Error: unknow token!\n" s, rfl, rfl, rfl, ?_, ?_, ?_⟩
    · intro n hn
      obtain ⟨m, rfl⟩ : ∃ m, n = m + 1 := ⟨n - 1, by omega⟩
      rw [ParsePrimary_reject strtod s h1 h2 h3]
      rfl
    · intro n hn
      obtain ⟨m, rfl⟩ : ∃ m, n = m + 2 := ⟨n - 2, by omega⟩
      rw [ParseExpression_reject strtod s h1 h2 h3]
      rfl
    · intro n hn
      obtain ⟨m, rfl⟩ : ∃ m, n = m + 2 := ⟨n - 2, by omega⟩
      rw [ParseTopLevelExpr, ParseExpression_reject strtod s h1 h2 h3]
      rfl
  · intro h1
    refine ⟨eprint "Error: Expected function name in prototype\n" s, rfl, rfl, rfl, ?_⟩
    intro n
    simp only [ParsePrototype, h1, ne_eq, not_false_eq_true, if_true]
    rfl

/-- Witness of C9: on `)` the four functions fail and the current token is still `)`. -/
theorem parse_failure_consumes_nothing_witness :
    ∃ s', s'.lex = (entry ")").lex ∧ s'.Curtok = ch ')' ∧
      ParsePrimary decimal 1 (entry ")") = some (none, s') ∧
      ParseExpression decimal 2 (entry ")") = some (none, s') ∧
      ParseTopLevelExpr decimal 2 (entry ")") = some (none, s') ∧
      ∃ s'', s''.lex = (entry ")").lex ∧ s''.Curtok = ch ')' ∧
        ParsePrototype decimal 0 (entry ")") = some (none, s'') := by
  obtain ⟨s', h1, h2, _, h4, h5, h6⟩ :=
    (parse_failure_consumes_nothing decimal (entry ")")).1 (by decide) (by decide) (by decide)
  obtain ⟨s'', g1, g2, _, g4⟩ :=
    (parse_failure_consumes_nothing decimal (entry ")")).2 (by decide)
  exact ⟨s', h1, h2.trans (by decide), h4 1 (le_refl 1), h5 2 (le_refl 2), h6 2 (le_refl 2),
    s'', g1, g2.trans (by decide), g4 0⟩

/-- C10. `MainLoop` terminates on every finite input: from every state it returns, given fuel
enough, and so does `main` on every input; it returns only when the current token is
`tok_eof`.  Every turn of its loop consumes at least one token: a `;` is eaten, or a parse
entry point is run, which consumes at least one token when it succeeds and is followed by
exactly one recovery `getNextToken` when it fails.  A turn entered with a current token
other than `tok_eof` strictly lowers the bound `weight` on the tokens left, so that the loop
cannot stay on one token. -/
theorem MainLoop_terminates (s : State Val) (zero : Val) (input : List Nat) :
    (∀ n, 3 * s.weight + 6 ≤ n → ∃ s', MainLoop strtod n s = some s' ∧ s'.Curtok = tok_eof) ∧
    (∃ N, ∀ n, N ≤ n → ∃ s', main strtod n zero input = some s' ∧ s'.Curtok = tok_eof) ∧
    (∀ n s', MainLoop strtod n s = some s' → s'.Curtok = tok_eof) ∧
    (∀ n s', MainLoop.dispatch strtod n s = some s' → ∃ k, 1 ≤ k ∧ Consumed strtod k s s') ∧
    (s.Curtok ≠ ch ';' → ∀ n, MainLoop.dispatch strtod n s =
      (parseEntry strtod n s).map
        (fun r => if r.1 then eprint (parsedLine s.Curtok) r.2 else getNextToken strtod r.2)) ∧
    (∀ n s', parseEntry strtod n s = some (true, s') → ∃ k, 1 ≤ k ∧ Consumed strtod k s s') ∧
    (s.Curtok ≠ tok_eof → ∀ n s', MainLoop.dispatch strtod n s = some s' →
      s'.weight < s.weight) := by
  refine ⟨fun n hn => ?_, ⟨3 * (primed strtod (startState zero input)).weight + 6,
    fun n hn => ?_⟩, fun n s' h => MainLoop_returns_at_eof strtod n s s' h,
    fun n s' h => dispatch_consumed strtod n s s' h,
    fun hc n => dispatch_eq_parseEntry strtod n s hc, fun n s' h => ?_, fun hc n s' h => ?_⟩
  · obtain ⟨s', h⟩ := MainLoop_terminates_aux strtod n s hn
    exact ⟨s', h, MainLoop_returns_at_eof strtod n s s' h⟩
  · obtain ⟨s', h⟩ := MainLoop_terminates_aux strtod n _ hn
    exact ⟨s', h, MainLoop_returns_at_eof strtod n _ s' h⟩
  · obtain ⟨k, hk, hk1⟩ := parseEntry_consumed strtod n s true s' h
    exact ⟨k, hk1 rfl, hk⟩
  · obtain ⟨k, hk1, hk⟩ := dispatch_consumed strtod n s s' h
    exact hk.weight_lt strtod hk1 hc

/-- Witness of C10: on `) 1`, a malformed statement followed by a well-formed one, `MainLoop`
returns with the current token `tok_eof`, and the first turn of the loop, which handles the
malformed `)`, lowers the weight. -/
theorem MainLoop_terminates_witness :
    (∃ s', MainLoop decimal 21 (entry ") 1") = some s' ∧ s'.Curtok = tok_eof) ∧
      (entry ") 1").Curtok ≠ tok_eof ∧
      ∀ n s', MainLoop.dispatch decimal n (entry ") 1") = some s' →
        s'.weight < (entry ") 1").weight :=
  ⟨(MainLoop_terminates decimal (entry ") 1") 0 []).1 21 (by decide), by decide,
    (MainLoop_terminates decimal (entry ") 1") 0 []).2.2.2.2.2.2 (by decide)⟩

/-- C12. When the first non-whitespace pending character `c` is alphabetic, `gettok` consumes
the maximal run `w` of alphanumeric characters which starts there (`c` and the longest
alphanumeric prefix of the characters `cs` after it).  It returns `tok_def` iff `w` is
exactly `def`, `tok_extern` iff `w` is exactly `extern`, and `tok_identifier` iff `w` is
neither; in every case `IdentifierStr` is `w` on return, and the pending character `LastChar`
is the first character after `w` (`EOF` when there is none), which is not alphanumeric; the
unread input is what follows that character, and `NumVal` is unchanged. -/
theorem gettok_identifier (l : Lexer Val) (c : Int) (cs : List Int)
    (h : l.chars.dropWhile isspace = c :: cs) (ha : isalpha c = true) :
    ((gettok strtod l).1 = tok_def ↔ c :: cs.takeWhile isalnum = str "def") ∧
    ((gettok strtod l).1 = tok_extern ↔ c :: cs.takeWhile isalnum = str "extern") ∧
    ((gettok strtod l).1 = tok_identifier ↔
      (c :: cs.takeWhile isalnum ≠ str "def" ∧ c :: cs.takeWhile isalnum ≠ str "extern")) ∧
    (gettok strtod l).2.IdentifierStr = c :: cs.takeWhile isalnum ∧
    (gettok strtod l).2.LastChar = pending (cs.dropWhile isalnum) ∧
    isalnum (gettok strtod l).2.LastChar = false ∧
    (gettok strtod l).2.input.map byteChar = (cs.dropWhile isalnum).tail ∧
    (∃ k, (gettok strtod l).2.input = l.input.drop k) ∧
    (gettok strtod l).2.NumVal = l.NumVal := by
  obtain ⟨inp, hsk, hcs, k0, hk0⟩ := skipSpace_of_chars l c cs h
  obtain ⟨h1, h2, h3, k1, h4⟩ := identLoop_chars [c] inp
  rw [hcs] at h1 h2 h3
  have hg : gettok strtod l =
      (if (identLoop [c] inp).1 = str "def" then tok_def
        else if (identLoop [c] inp).1 = str "extern" then tok_extern else tok_identifier,
        { l with input := (identLoop [c] inp).2.2, LastChar := (identLoop [c] inp).2.1,
                 IdentifierStr := (identLoop [c] inp).1 }) := by
    rw [gettok_eq, hsk]
    simp only [ha, if_true]
    split <;> [rfl; (split <;> rfl)]
  have hid : (identLoop [c] inp).1 = c :: cs.takeWhile isalnum := by simpa using h1
  have hne : str "def" ≠ str "extern" := by decide
  have hdrop : ∃ k, (identLoop [c] inp).2.2 = l.input.drop k :=
    ⟨k0 + k1, by rw [h4, hk0, List.drop_drop]⟩
  rw [hg]
  simp only [hid, h2, h3]
  obtain ⟨k1, k2, k3⟩ := keyword_token (c :: cs.takeWhile isalnum)
  exact ⟨k1, k2, k3, trivial, trivial, pending_dropWhile_false isalnum (by decide) cs, trivial,
    hdrop, trivial⟩

/-- Witness of C12: the runs `def` and `extern` are the keywords, and `Def`, `define`, `def1` are
identifiers; the run of `def1+x` is `def1`, and `+` is pending on return. -/
theorem gettok_identifier_witness :
    (gettok decimal (startLexer 0 (bytes "def x"))).1 = tok_def ∧
    (gettok decimal (startLexer 0 (bytes "extern"))).1 = tok_extern ∧
    (gettok decimal (startLexer 0 (bytes "Def"))).1 = tok_identifier ∧
    (gettok decimal (startLexer 0 (bytes "define"))).1 = tok_identifier ∧
    ((gettok decimal (startLexer 0 (bytes "def1+x"))).1 = tok_identifier ∧
      (gettok decimal (startLexer 0 (bytes "def1+x"))).2.IdentifierStr = str "def1" ∧
      (gettok decimal (startLexer 0 (bytes "def1+x"))).2.LastChar = ch '+') :=
  ⟨(gettok_identifier decimal (startLexer 0 (bytes "def x")) (ch 'd') (str "ef x")
      (by decide) (by decide)).1.mpr (by decide),
    (gettok_identifier decimal (startLexer 0 (bytes "extern")) (ch 'e') (str "xtern")
      (by decide) (by decide)).2.1.mpr (by decide),
    (gettok_identifier decimal (startLexer 0 (bytes "Def")) (ch 'D') (str "ef")
      (by decide) (by decide)).2.2.1.mpr (by decide),
    (gettok_identifier decimal (startLexer 0 (bytes "define")) (ch 'd') (str "efine")
      (by decide) (by decide)).2.2.1.mpr (by decide),
    (gettok_identifier decimal (startLexer 0 (bytes "def1+x")) (ch 'd') (str "ef1+x")
      (by decide) (by decide)).2.2.1.mpr (by decide),
    (gettok_identifier decimal (startLexer 0 (bytes "def1+x")) (ch 'd') (str "ef1+x")
      (by decide) (by decide)).2.2.2.1.trans (by decide),
    (gettok_identifier decimal (startLexer 0 (bytes "def1+x")) (ch 'd') (str "ef1+x")
      (by decide) (by decide)).2.2.2.2.1.trans (by decide)⟩

/-- C13. When the first non-whitespace pending character `c` is a digit or `.`, `gettok`
consumes the maximal run of characters that are alphanumeric or `.` which starts there and
returns one `tok_number` token for the whole run, `NumVal` being the conversion by `strtod` of
the whole run, letters and further dots included.  The pending character `LastChar` on return
is the first character after the run (`EOF` when there is none), which is neither
alphanumeric nor `.`, so that no identifier can start inside the run; the unread input is
what follows that character, and `IdentifierStr` is unchanged. -/
theorem gettok_number (l : Lexer Val) (c : Int) (cs : List Int)
    (h : l.chars.dropWhile isspace = c :: cs) (hc : isdigit c = true ∨ c = ch '.') :
    (gettok strtod l).1 = tok_number ∧
    (gettok strtod l).2.NumVal = strtod (c :: cs.takeWhile isnumchar) ∧
    (gettok strtod l).2.LastChar = pending (cs.dropWhile isnumchar) ∧
    isnumchar (gettok strtod l).2.LastChar = false ∧
    (gettok strtod l).2.input.map byteChar = (cs.dropWhile isnumchar).tail ∧
    (∃ k, (gettok strtod l).2.input = l.input.drop k) ∧
    (gettok strtod l).2.IdentifierStr = l.IdentifierStr := by
  obtain ⟨inp, hsk, hcs, k0, hk0⟩ := skipSpace_of_chars l c cs h
  have ha : isalpha c = false := by
    rcases hc with hd | rfl
    · simp only [isdigit, Bool.and_eq_true, decide_eq_true_eq] at hd
      simp only [isalpha, Bool.or_eq_false_iff, Bool.and_eq_false_iff, decide_eq_false_iff_not]
      omega
    · decide
  have hn : isnumchar c = true := by
    rcases hc with hd | rfl
    · simp [isnumchar, isalnum, hd]
    · decide
  have hn' : (isalnum c || c == ch '.') = true := hn
  obtain ⟨h1, h2, h3, k1, h4⟩ := numLoop_chars [] c inp
  rw [hcs] at h1 h2 h3
  rw [List.takeWhile_cons_of_pos hn] at h1
  rw [List.dropWhile_cons_of_pos hn] at h2 h3
  have hg : gettok strtod l =
      (tok_number, { l with input := (numLoop [] c inp).2.2, LastChar := (numLoop [] c inp).2.1,
                            NumVal := strtod (numLoop [] c inp).1 }) := by
    rw [gettok_eq, hsk]
    simp only [ha, hn', if_true, Bool.false_eq_true, if_false]
  have hdrop : ∃ k, (numLoop [] c inp).2.2 = l.input.drop k :=
    ⟨k0 + k1, by rw [h4, hk0, List.drop_drop]⟩
  rw [hg]
  simp only [h1, h2, h3, List.nil_append]
  exact ⟨trivial, trivial, trivial, pending_dropWhile_false isnumchar (by decide) cs, trivial,
    hdrop, trivial⟩

/-- Witness of C13: `1abc+2` starts with the one number token of text `1abc`, and `1.2.3`
is one number token; in both cases the whole run is consumed. -/
theorem gettok_number_witness :
    ((gettok decimal (startLexer 0 (bytes "1abc+2"))).1 = tok_number ∧
      (gettok decimal (startLexer 0 (bytes "1abc+2"))).2.NumVal = decimal (str "1abc") ∧
      (gettok decimal (startLexer 0 (bytes "1abc+2"))).2.LastChar = ch '+') ∧
    ((gettok decimal (startLexer 0 (bytes "1.2.3"))).1 = tok_number ∧
      (gettok decimal (startLexer 0 (bytes "1.2.3"))).2.NumVal = decimal (str "1.2.3") ∧
      (gettok decimal (startLexer 0 (bytes "1.2.3"))).2.LastChar = EOF) :=
  ⟨⟨(gettok_number decimal (startLexer 0 (bytes "1abc+2")) (ch '1') (str "abc+2")
        (by decide) (Or.inl (by decide))).1,
      (gettok_number decimal (startLexer 0 (bytes "1abc+2")) (ch '1') (str "abc+2")
        (by decide) (Or.inl (by decide))).2.1.trans (by decide),
      (gettok_number decimal (startLexer 0 (bytes "1abc+2")) (ch '1') (str "abc+2")
        (by decide) (Or.inl (by decide))).2.2.1.trans (by decide)⟩,
    ⟨(gettok_number decimal (startLexer 0 (bytes "1.2.3")) (ch '1') (str ".2.3")
        (by decide) (Or.inl (by decide))).1,
      (gettok_number decimal (startLexer 0 (bytes "1.2.3")) (ch '1') (str ".2.3")
        (by decide) (Or.inl (by decide))).2.1.trans (by decide),
      (gettok_number decimal (startLexer 0 (bytes "1.2.3")) (ch '1') (str ".2.3")
        (by decide) (Or.inl (by decide))).2.2.1.trans (by decide)⟩⟩

/-- C16. On an empty input, and on any input made only of whitespace and comments, the first
`gettok` returns `tok_eof`, and so does every later one: the current token is `tok_eof`
after any number `k ≥ 1` of calls of `getNextToken`.  `main` returns from `MainLoop` in the
state in which it entered it but for the prompt printed: no parse entry point has run, and
`stderr` holds the two prompts only, no line of a parse. -/
theorem blank_input_gives_eof (zero : Val) (input : List Nat)
    (hb : Blank (input.map byteChar)) :
    (gettok strtod (startLexer zero input)).1 = tok_eof ∧
    (∀ k, 1 ≤ k → (advance strtod k (startState zero input)).Curtok = tok_eof) ∧
    (∀ n, 1 ≤ n → main strtod n zero input =
      some (eprint "Output>> " (primed strtod (startState zero input)))) ∧
    (∀ n s', main strtod n zero input = some s' → s'.stderr = ["Input<< ", "Output>> "]) := by
  have h0 : (gettok strtod (startLexer zero input)).1 = tok_eof ∧
      (gettok strtod (startLexer zero input)).2.LastChar = EOF :=
    gettok_blank strtod _ (Blank.space (ch ' ') _ (by decide) hb) (startLexer zero input) rfl
  have hfix : ∀ s : State Val, s.lex.LastChar = EOF → s.Curtok = tok_eof →
      getNextToken strtod s = s := by
    intro s h1 h2
    rw [getNextToken_eq, gettok_at_EOF strtod _ h1]
    simp only [← h2]
  have hadv : ∀ k (s : State Val), s.lex.LastChar = EOF → s.Curtok = tok_eof →
      advance strtod k s = s := by
    intro k
    induction k with
    | zero => intro s _ _; rfl
    | succ k ih =>
      intro s h1 h2
      rw [advance, hfix s h1 h2]
      exact ih s h1 h2
  have hp : (primed strtod (startState zero input)).Curtok = tok_eof := h0.1
  have hmain : ∀ n, 1 ≤ n → main strtod n zero input =
      some (eprint "Output>> " (primed strtod (startState zero input))) := by
    intro n hn
    obtain ⟨m, rfl⟩ : ∃ m, n = m + 1 := ⟨n - 1, by omega⟩
    have hne : (primed strtod (startState zero input)).Curtok ≠ ch ';' := by rw [hp]; decide
    have hp' : (eprint "Output>> " (primed strtod (startState zero input))).Curtok = tok_eof := hp
    simp only [main, MainLoop, hne, if_false, hp', if_true]
  refine ⟨h0.1, fun k hk => ?_, hmain, fun n s' h => ?_⟩
  · obtain ⟨j, rfl⟩ : ∃ j, k = j + 1 := ⟨k - 1, by omega⟩
    rw [advance, hadv j _ h0.2 h0.1]
    exact h0.1
  · cases n with
    | zero => simp [main, MainLoop] at h
    | succ n =>
      rw [hmain (n + 1) (by omega)] at h
      cases h
      rfl

/-- Witness of C16: the empty input, and an input of blanks and two comments. -/
theorem blank_input_gives_eof_witness :
    (gettok decimal (startLexer 0 [])).1 = tok_eof ∧
      main decimal 1 0 [] = some (eprint "Output>> " (primed decimal (startState 0 []))) ∧
    (gettok decimal (startLexer 0 (bytes " #c\n\t# d"))).1 = tok_eof ∧
      ∀ n s', main decimal n 0 (bytes " #c\n\t# d") = some s' →
        s'.stderr = ["Input<< ", "Output>> "] :=
  ⟨(blank_input_gives_eof decimal 0 [] Blank.nil).1,
    (blank_input_gives_eof decimal 0 [] Blank.nil).2.2.1 1 (le_refl 1),
    (blank_input_gives_eof decimal 0 (bytes " #c\n\t# d")
      (Blank.space 32 _ (by decide) (Blank.comment [99] _ (by decide)
        (Blank.space 9 _ (by decide) (Blank.commentToEnd [32, 100] (by decide)))))).1,
    (blank_input_gives_eof decimal 0 (bytes " #c\n\t# d")
      (Blank.space 32 _ (by decide) (Blank.comment [99] _ (by decide)
        (Blank.space 9 _ (by decide) (Blank.commentToEnd [32, 100] (by decide)))))).2.2.2⟩

/-- C11 (the code at a failing input, and where the property holds). A comment which holds the
byte 255 and ends with a newline is not skipped: `LastChar` is a `char`, the byte 255 stored
in it compares equal to `EOF`, and `gettok` returns `tok_eof` there and for ever after.  So
`#`, byte 255, newline, `1` lexes to `tok_eof`, `tok_eof`, where newline, `1` lexes to the
number 1, then `tok_eof`.  When the comment holds neither a newline nor the byte 255, the
tokens, identifier texts and number values which repeated calls of `gettok` return on
`u # s newline v` are those it returns on `u newline v`, whatever `u` and `v`; and when the
comment holds no newline and runs to the end of the input, they are those of `u`.  The texts
`1 # comment`, newline, `+2` and `1`, newline, `+2` both lex to the number 1, `+`, the number
2, `tok_eof`. -/
theorem lexAll_comment_skipped_unless_byte_255 :
    (lexAll decimal 2 (startLexer 0 [35, 255, 10, 49]) = [(tok_eof, [], 0), (tok_eof, [], 0)] ∧
      lexAll decimal 2 (startLexer 0 [10, 49]) = [(tok_number, [], 1), (tok_eof, [], 1)]) ∧
    (∀ (zero : Val) (U S V : List Nat) (n : Nat),
      (∀ b ∈ S, byteChar b ≠ ch '\n' ∧ byteChar b ≠ EOF) →
      lexAll strtod n (startLexer zero (U ++ [35] ++ S ++ [10] ++ V))
        = lexAll strtod n (startLexer zero (U ++ [10] ++ V))) ∧
    (∀ (zero : Val) (U S : List Nat) (n : Nat), (∀ b ∈ S, byteChar b ≠ ch '\n') →
      lexAll strtod n (startLexer zero (U ++ [35] ++ S))
        = lexAll strtod n (startLexer zero U)) ∧
    lexAll decimal 4 (startLexer 0 (bytes "1 # comment\n+2"))
      = [(tok_number, [], 1), (ch '+', [], 1), (tok_number, [], 2), (tok_eof, [], 2)] ∧
    lexAll decimal 4 (startLexer 0 (bytes "1\n+2"))
      = [(tok_number, [], 1), (ch '+', [], 1), (tok_number, [], 2), (tok_eof, [], 2)] :=
  ⟨by decide!,
    fun zero U S V n => (lexAll_skips_comment strtod zero U S V n).1,
    fun zero U S n => (lexAll_skips_comment strtod zero U S [] n).2,
    by decide!, by decide!⟩

/-- Witness of C11: the comment of `1 # comment`, newline, `+2` is skipped. -/
theorem lexAll_comment_skipped_unless_byte_255_witness :
    (∀ b ∈ bytes " comment", byteChar b ≠ ch '\n' ∧ byteChar b ≠ EOF) ∧
      lexAll decimal 4
          (startLexer 0 (bytes "1 " ++ [35] ++ bytes " comment" ++ [10] ++ bytes "+2"))
        = lexAll decimal 4 (startLexer 0 (bytes "1 " ++ [10] ++ bytes "+2")) :=
  ⟨by decide,
    (lexAll_comment_skipped_unless_byte_255 decimal).2.1 0 (bytes "1 ") (bytes " comment")
      (bytes "+2") 4 (by decide)⟩

/-- C20 (the code at a failing input, and where the property holds). The byte 254 is not
whitespace, not alphanumeric, not `.`, not `#` and not `EOF`, so `gettok` returns it through its
final branch; stored in a `char` and read as an `int` it is -2, the code of `tok_def`.  The
same holds of the bytes 253, 252 and 251, whose tokens are the codes of `tok_extern`,
`tok_identifier` and `tok_number`.  The driver takes the byte 254 for the keyword `def`: on
the byte 254 followed by `f() 2` it reports a function definition.  In general the token
returned through the final branch is the character itself, and it is one of the five reserved
codes exactly when the character is one of -5, -4, -3, -2, the bytes 251 to 254; it is none for
the characters 0 to 127. -/
theorem gettok_byte_254_is_tok_def :
    (byteChar 254 = -2 ∧ isspace (byteChar 254) = false ∧ isalnum (byteChar 254) = false ∧
      byteChar 254 ≠ ch '.' ∧ byteChar 254 ≠ ch '#' ∧ byteChar 254 ≠ EOF) ∧
    (gettok decimal (startLexer 0 [254])).1 = tok_def ∧
    (gettok decimal (startLexer 0 [253])).1 = tok_extern ∧
    (gettok decimal (startLexer 0 [252])).1 = tok_identifier ∧
    (gettok decimal (startLexer 0 [251])).1 = tok_number ∧
    (main decimal 20 0 ([254] ++ bytes "f() 2")).map (fun s => s.stderr) =
      some ["Input<< ", "Output>> ", "Parsed a function definition.\n", "Output>> "] ∧
    (∀ (l : Lexer Val) (c : Int) (cs : List Int), l.chars.dropWhile isspace = c :: cs →
      isalnum c = false → c ≠ ch '.' → c ≠ ch '#' → c ≠ EOF →
      (gettok strtod l).1 = c ∧
        ((gettok strtod l).1 ∈ [tok_eof, tok_def, tok_extern, tok_identifier, tok_number] ↔
          -5 ≤ c ∧ c ≤ -2)) := by
  refine ⟨by decide, by decide!, by decide!, by decide!, by decide!, by decide!, ?_⟩
  intro l c cs h h1 h2 h3 h4
  have ht := (gettok_single_char strtod l c cs h h1 h2 h3 h4).1
  refine ⟨ht, ?_⟩
  rw [ht]
  have h4' : c ≠ -1 := h4
  simp only [tok_eof, tok_def, tok_extern, tok_identifier, tok_number, List.mem_cons,
    List.mem_singleton, List.not_mem_nil, or_false]
  omega

/-- Witness of C20: a `;` is returned through the final branch as the token 59, which is none of
the reserved codes. -/
theorem gettok_byte_254_is_tok_def_witness :
    (gettok decimal (startLexer 0 (bytes " ;"))).1 = ch ';' ∧
      ¬ (gettok decimal (startLexer 0 (bytes " ;"))).1 ∈
        [tok_eof, tok_def, tok_extern, tok_identifier, tok_number] :=
  ⟨((gettok_byte_254_is_tok_def decimal).2.2.2.2.2.2 (startLexer 0 (bytes " ;")) (ch ';') []
      (by decide) (by decide) (by decide) (by decide) (by decide)).1,
    fun hm => absurd
      ((((gettok_byte_254_is_tok_def decimal).2.2.2.2.2.2 (startLexer 0 (bytes " ;")) (ch ';') []
        (by decide) (by decide) (by decide) (by decide) (by decide)).2).mp hm).2
      (by decide)⟩

/-- C14: at every point of a run of `main` (every state reached from the state in which `main`
calls `MainLoop` by calls of `getNextToken` and of `getTokPrecedence` and by printing, which
are the only ways in which the parser and the driver change the state), `getTokPrecedence`
returns 10 when the current token is `<`, 20 for `+`, 20 for `-`, 40 for `*`, and -1 for every
other current token; it never returns 0; the answer for a token `t` is the same after a lookup
of any other token `u`; and the states returned by the functions of the parser and of the
driver, called at a point of the run, are points of the run. -/
theorem getTokPrecedence_default_table (zero : Val) (input : List Nat) (s : State Val)
    (hs : Reaches strtod (primed strtod (startState zero input)) s) :
    ((getTokPrecedence s).1 =
        if s.Curtok = ch '<' then 10 else if s.Curtok = ch '+' then 20
        else if s.Curtok = ch '-' then 20 else if s.Curtok = ch '*' then 40 else -1) ∧
      (getTokPrecedence s).1 ≠ 0 ∧
      (s.Curtok ∈ [tok_eof, tok_def, tok_extern, tok_identifier, tok_number] →
        (getTokPrecedence s).1 = -1) ∧
      (∀ u t : Int,
        (getTokPrecedence { (getTokPrecedence { s with Curtok := u }).2 with Curtok := t }).1 =
          (getTokPrecedence { s with Curtok := t }).1) ∧
      IsDefaultTable s.BinopPrecedence ∧
      (∀ n s', MainLoop strtod n s = some s' →
        Reaches strtod (primed strtod (startState zero input)) s') ∧
      (∀ n s', MainLoop.dispatch strtod n s = some s' →
        Reaches strtod (primed strtod (startState zero input)) s') ∧
      (∀ n r s', ParseDefinition strtod n s = some (r, s') →
        Reaches strtod (primed strtod (startState zero input)) s') ∧
      (∀ n r s', ParseExtern strtod n s = some (r, s') →
        Reaches strtod (primed strtod (startState zero input)) s') ∧
      (∀ n r s', ParseTopLevelExpr strtod n s = some (r, s') →
        Reaches strtod (primed strtod (startState zero input)) s') ∧
      (∀ n r s', ParsePrototype strtod n s = some (r, s') →
        Reaches strtod (primed strtod (startState zero input)) s') ∧
      (∀ n r s', ParseExpression strtod n s = some (r, s') →
        Reaches strtod (primed strtod (startState zero input)) s') ∧
      (∀ n E L r s', ParseBinOpRHS strtod n E L s = some (r, s') →
        Reaches strtod (primed strtod (startState zero input)) s') ∧
      (∀ n r s', ParsePrimary strtod n s = some (r, s') →
        Reaches strtod (primed strtod (startState zero input)) s') := by
  have hd : IsDefaultTable s.BinopPrecedence := fun k => hs.table strtod k
  have hv := tokPrec_default hd s.Curtok
  refine ⟨?_, ?_, ?_, ?_, hd, ?_, ?_, ?_, ?_, ?_, ?_, ?_, ?_, ?_⟩
  · rw [getTokPrecedence_fst]
    exact hv
  · rw [getTokPrecedence_fst, hv]
    split
    · decide
    · split
      · decide
      · split
        · decide
        · split <;> decide
  · intro hm
    rw [getTokPrecedence_fst, hv]
    simp only [List.mem_cons, List.mem_singleton, List.not_mem_nil, or_false] at hm
    rcases hm with h | h | h | h | h <;> rw [h] <;> decide
  · intro u t
    rw [getTokPrecedence_fst, getTokPrecedence_fst]
    exact (Same.tokPrec
      (s := { (getTokPrecedence { s with Curtok := u }).2 with Curtok := t })
      (t := { s with Curtok := t })
      ⟨(getTokPrecedence_same { s with Curtok := u }).1, rfl,
        (getTokPrecedence_same { s with Curtok := u }).2.2.1,
        (getTokPrecedence_same { s with Curtok := u }).2.2.2⟩)
  · exact fun n s' h => MainLoop_reaches strtod _ n _ _ h hs
  · exact fun n s' h => dispatch_reaches strtod _ n _ _ h hs
  · exact fun n r s' h => ParseDefinition_reaches strtod _ n _ _ _ h hs
  · exact fun n r s' h => ParseExtern_reaches strtod _ n _ _ _ h hs
  · exact fun n r s' h => ParseTopLevelExpr_reaches strtod _ n _ _ _ h hs
  · exact fun n r s' h => ParsePrototype_reaches strtod _ n _ _ _ h hs
  · exact fun n r s' h => (parse_reaches strtod _ n).2.2.2.2.2 _ _ _ h hs
  · exact fun n E L r s' h => (parse_reaches strtod _ n).2.2.2.2.1 _ _ _ _ _ h hs
  · exact fun n r s' h => (parse_reaches strtod _ n).2.2.2.1 _ _ _ h hs

/-- Witness of C14: in the run on `1+2`, after the number is consumed the current token is
`+` and the precedence is 20. -/
theorem getTokPrecedence_default_table_witness :
    Reaches decimal (entry "1+2") (getNextToken decimal (entry "1+2")) ∧
      (getNextToken decimal (entry "1+2")).Curtok = ch '+' ∧
      (getTokPrecedence (getNextToken decimal (entry "1+2"))).1 = 20 :=
  ⟨Reaches.next _ _ (Reaches.here _), by decide,
    (getTokPrecedence_default_table decimal 0 (bytes "1+2") _
      (Reaches.next _ _ (Reaches.here _))).1⟩

/-- C15: entered with the current token `def` (or any other state), `ParseDefinition`
consumes the current token, runs `ParsePrototype` and then
`ParseExpression` on the state `ParsePrototype` leaves. It returns `Function(p, e)` exactly when
`ParsePrototype` succeeds with `p` and `ParseExpression` succeeds with `e`, and then the state on
return is the one `ParseExpression` left; when the prototype fails it returns failure in the
state `ParsePrototype` left, no body being parsed; when the body fails it returns failure in the
state `ParseExpression` left; it returns failure in no other case; and it does return. -/
theorem ParseDefinition_function (n : Nat) (s : State Val) :
    (∀ p e s', ParseDefinition strtod n s = some (some { Proto := p, Body := e }, s') ↔
        ∃ s1, ParsePrototype strtod n (getNextToken strtod s) = some (some p, s1) ∧
          ParseExpression strtod n s1 = some (some e, s')) ∧
      (∀ s1, ParsePrototype strtod n (getNextToken strtod s) = some (none, s1) →
        ParseDefinition strtod n s = some (none, s1)) ∧
      (∀ p s1 s', ParsePrototype strtod n (getNextToken strtod s) = some (some p, s1) →
        ParseExpression strtod n s1 = some (none, s') →
        ParseDefinition strtod n s = some (none, s')) ∧
      (∀ s', ParseDefinition strtod n s = some (none, s') →
        ParsePrototype strtod n (getNextToken strtod s) = some (none, s') ∨
        ∃ p s1, ParsePrototype strtod n (getNextToken strtod s) = some (some p, s1) ∧
          ParseExpression strtod n s1 = some (none, s')) ∧
      (3 * s.weight + 5 ≤ n → ∃ r, ParseDefinition strtod n s = some r) := by
  refine ⟨?_, ?_, ?_, ?_, ParseDefinition_terminates strtod n s⟩
  · intro p e s'
    constructor
    · intro h
      simp only [ParseDefinition] at h
      split at h
      · cases h
      · cases h
      · rename_i P s1 he
        split at h
        · cases h
        · rename_i E s2 he2
          simp only [Option.some.injEq, Prod.mk.injEq, FunctionAST.mk.injEq] at h
          obtain ⟨⟨rfl, rfl⟩, rfl⟩ := h
          exact ⟨s1, he, he2⟩
        · cases h
    · rintro ⟨s1, h1, h2⟩
      simp only [ParseDefinition, h1, h2]
  · intro s1 h1
    simp only [ParseDefinition, h1]
  · intro p s1 s' h1 h2
    simp only [ParseDefinition, h1, h2]
  · intro s' h
    simp only [ParseDefinition] at h
    split at h
    · cases h
    · rename_i s1 he
      cases h
      exact Or.inl he
    · rename_i P s1 he
      split at h
      · cases h
      · cases h
      · rename_i s2 he2
        cases h
        exact Or.inr ⟨P, s1, he, he2⟩

/-- Witness of C15: `def foo(a b) a+b` gives
`Function(Prototype("foo", ["a", "b"]), Binary('+', Variable("a"), Variable("b")))`. -/
theorem ParseDefinition_function_witness :
    (entry "def foo(a b) a+b").Curtok = tok_def ∧
      ∃ s', ParseDefinition decimal 6 (entry "def foo(a b) a+b") =
          some (some { Proto := { Name := str "foo", Args := [str "a", str "b"] },
                       Body := ExprAST.Binary (ch '+') (ExprAST.Variable (str "a"))
                         (ExprAST.Variable (str "b")) }, s') ∧
        s'.Curtok = tok_eof := by
  obtain ⟨s', h2, h3⟩ :
      ∃ s', ParseExpression decimal 6 (advance decimal 6 (entry "def foo(a b) a+b")) =
          some (some (ExprAST.Binary (ch '+') (ExprAST.Variable (str "a"))
            (ExprAST.Variable (str "b"))), s') ∧ s'.Curtok = tok_eof :=
    ⟨_, rfl, by decide⟩
  exact ⟨by decide, s',
    ((ParseDefinition_function decimal 6 (entry "def foo(a b) a+b")).1 _ _ _).mpr
      ⟨advance decimal 6 (entry "def foo(a b) a+b"), by rfl, h2⟩, h3⟩

/-- C18: whenever `ParseBinOpRHS(minPrec, left)` returns successfully, the precedence which
`getTokPrecedence` gives for the current token on return is strictly lower than `minPrec`; and
whenever `ParseExpression` succeeds, the precedence of the current token on return is -1, so
that with the default table the current token is none of `<`, `+`, `-`, `*`. -/
theorem parse_success_stops_below (n : Nat) (s : State Val) :
    (∀ minPrec left T s', ParseBinOpRHS strtod n minPrec left s = some (some T, s') →
        (getTokPrecedence s').1 < minPrec) ∧
      (∀ T s', ParseExpression strtod n s = some (some T, s') →
        (getTokPrecedence s').1 = -1 ∧
        (IsDefaultTable s.BinopPrecedence →
          s'.Curtok ≠ ch '<' ∧ s'.Curtok ≠ ch '+' ∧ s'.Curtok ≠ ch '-' ∧
            s'.Curtok ≠ ch '*')) := by
  constructor
  · intro E L T s' h
    rw [getTokPrecedence_fst]
    exact ParseBinOpRHS_success_below strtod n E L s T s' h
  · intro T s' h
    have hr : Reaches strtod s s' :=
      (parse_reaches strtod s n).2.2.2.2.2 _ _ _ h (Reaches.here s)
    have hp : tokPrec s'.BinopPrecedence s'.Curtok = -1 := by
      cases n with
      | zero => simp [ParseExpression] at h
      | succ n =>
        simp only [ParseExpression] at h
        split at h
        · cases h
        · cases h
        · have hlt := ParseBinOpRHS_success_below strtod n _ _ _ _ _ h
          rcases tokPrec_eq_neg_one_or_pos s'.BinopPrecedence s'.Curtok with h1 | h1
          · exact h1
          · omega
    refine ⟨by rw [getTokPrecedence_fst]; exact hp, fun hd => ?_⟩
    have hd' : IsDefaultTable s'.BinopPrecedence := fun k => (hr.table strtod k).trans (hd k)
    rw [tokPrec_default hd'] at hp
    refine ⟨?_, ?_, ?_, ?_⟩ <;> intro hc <;> rw [hc] at hp <;> revert hp <;> decide

/-- Witness of C18: the parse of `1+2*3;` succeeds and stops in front of the `;`. -/
theorem parse_success_stops_below_witness :
    ∃ T s', ParseExpression decimal 6 (entry "1+2*3;") = some (some T, s') ∧
      s'.Curtok = ch ';' ∧ (getTokPrecedence s').1 = -1 := by
  obtain ⟨T, s', h, hc⟩ :
      ∃ T s', ParseExpression decimal 6 (entry "1+2*3;") = some (some T, s') ∧
        s'.Curtok = ch ';' := ⟨_, _, rfl, by decide⟩
  exact ⟨T, s', h, hc,
    ((parse_success_stops_below decimal 6 (entry "1+2*3;")).2 T s' h).1⟩

/-- C17: on the tokens `a0 op1 a1 ... opn an`, where the `ai` are atoms (number tokens, or
identifier tokens that are variable references) and the `opi` are tokens to which the table
gives a positive precedence, followed by a token which is not an operator, `ParseExpression`
returns a tree, the same whatever the fuel, which satisfies at every `Binary(op, L, R)` node: if
`R` is a `Binary` node its operator has precedence strictly greater than that of `op`, and if
`L` is a `Binary` node its operator has precedence greater than or equal to that of `op`. -/
theorem ParseExpression_precedence_invariant (s : State Val) (n : Nat)
    (ha : IsAtom strtod s)
    (hops : ∀ i, i < n → 0 < tokPrec s.BinopPrecedence (advance strtod (2 * i + 1) s).Curtok ∧
      IsAtom strtod (advance strtod (2 * i + 2) s))
    (hend : tokPrec s.BinopPrecedence (advance strtod (2 * n + 1) s).Curtok = -1) :
    ∃ T s', (∀ fuel, n + 3 ≤ fuel → ParseExpression strtod fuel s = some (some T, s')) ∧
      (∀ fuel r, ParseExpression strtod fuel s = some r → r = (some T, s')) ∧
      Climbed s.BinopPrecedence T := by
  obtain ⟨T, s', -, -, hcl, hrun, huniq⟩ :=
    ParseExpression_chain strtod s n ha (OpChain.of_tokens strtod s n hops hend)
  exact ⟨T, s', hrun, huniq, hcl⟩

/-- Witness of C17: `1+2*3-4<5` gives
`Binary('<', Binary('-', Binary('+', 1, Binary('*', 2, 3)), 4), 5)`. -/
theorem ParseExpression_precedence_invariant_witness :
    ∃ s', ParseExpression decimal 7 (entry "1+2*3-4<5") =
        some (some (ExprAST.Binary (ch '<')
          (ExprAST.Binary (ch '-')
            (ExprAST.Binary (ch '+') (ExprAST.Number 1)
              (ExprAST.Binary (ch '*') (ExprAST.Number 2) (ExprAST.Number 3)))
            (ExprAST.Number 4))
          (ExprAST.Number 5)), s') ∧
      Climbed (entry "1+2*3-4<5").BinopPrecedence
        (ExprAST.Binary (ch '<')
          (ExprAST.Binary (ch '-')
            (ExprAST.Binary (ch '+') (ExprAST.Number 1)
              (ExprAST.Binary (ch '*') (ExprAST.Number 2) (ExprAST.Number 3)))
            (ExprAST.Number 4))
          (ExprAST.Number 5)) := by
  obtain ⟨T, s', hrun, huniq, hcl⟩ :=
    ParseExpression_precedence_invariant decimal (entry "1+2*3-4<5") 4 (by decide)
      (fun i hi => by
        have hi' : i = 0 ∨ i = 1 ∨ i = 2 ∨ i = 3 := by omega
        rcases hi' with rfl | rfl | rfl | rfl <;> decide)
      (by decide)
  obtain ⟨s0, h0⟩ : ∃ s0, ParseExpression decimal 7 (entry "1+2*3-4<5") =
      some (some (ExprAST.Binary (ch '<')
        (ExprAST.Binary (ch '-')
          (ExprAST.Binary (ch '+') (ExprAST.Number 1)
            (ExprAST.Binary (ch '*') (ExprAST.Number 2) (ExprAST.Number 3)))
          (ExprAST.Number 4))
        (ExprAST.Number 5)), s0) := ⟨_, rfl⟩
  have h1 := huniq 7 _ h0
  simp only [Prod.mk.injEq, Option.some.injEq] at h1
  obtain ⟨hT, hs⟩ := h1
  rw [← hT] at hcl
  exact ⟨s0, h0, hcl⟩

/-- C19: on the tokens `a0 op1 a1 ... opn an`, where the `ai` are atoms (number tokens, or
identifier tokens that are variable references) and the `opi` are operators (tokens to which
the table gives a positive precedence), followed by a token which is not an operator,
`ParseExpression` succeeds, with the same result whatever the fuel; the state on return is the
state after `2 * n + 1` calls of `getNextToken`; and the in-order traversal of the tree it
returns is `a0, op1, a1, ..., opn, an`, which are `2 * n + 1` entries. -/
theorem ParseExpression_inorder (s : State Val) (n : Nat)
    (ha : IsAtom strtod s)
    (hops : ∀ i, i < n → 0 < tokPrec s.BinopPrecedence (advance strtod (2 * i + 1) s).Curtok ∧
      IsAtom strtod (advance strtod (2 * i + 2) s))
    (hend : tokPrec s.BinopPrecedence (advance strtod (2 * n + 1) s).Curtok = -1) :
    ∃ T s', (∀ fuel, n + 3 ≤ fuel → ParseExpression strtod fuel s = some (some T, s')) ∧
      (∀ fuel r, ParseExpression strtod fuel s = some r → r = (some T, s')) ∧
      Same s' (advance strtod (2 * n + 1) s) ∧
      inorder T = Item.operand (atomAST s) :: chainItems strtod n (advance strtod 1 s) ∧
      (inorder T).length = 2 * n + 1 := by
  obtain ⟨T, s', hs', hin, -, hrun, huniq⟩ :=
    ParseExpression_chain strtod s n ha (OpChain.of_tokens strtod s n hops hend)
  refine ⟨T, s', hrun, huniq, hs', hin, ?_⟩
  rw [hin, List.length_cons, chainItems_length]

/-- Witness of C19: the traversal of the tree of `a*b+c*d` is `a, *, b, +, c, *, d`, and the
parse stops at the end of the input. -/
theorem ParseExpression_inorder_witness :
    ∃ T s', ParseExpression decimal 6 (entry "a*b+c*d") = some (some T, s') ∧
      s'.Curtok = tok_eof ∧
      inorder T = [Item.operand (ExprAST.Variable (str "a")), Item.operator (ch '*'),
        Item.operand (ExprAST.Variable (str "b")), Item.operator (ch '+'),
        Item.operand (ExprAST.Variable (str "c")), Item.operator (ch '*'),
        Item.operand (ExprAST.Variable (str "d"))] := by
  obtain ⟨T, s', hrun, -, hs', hin, -⟩ :=
    ParseExpression_inorder decimal (entry "a*b+c*d") 3 (by decide)
      (fun i hi => by
        have hi' : i = 0 ∨ i = 1 ∨ i = 2 := by omega
        rcases hi' with rfl | rfl | rfl <;> decide)
      (by decide)
  exact ⟨T, s', hrun 6 (le_refl 6), hs'.2.1.trans (by decide), hin.trans rfl⟩

end Claims

end Kaleidoscope
